import Mathlib

/-!
# Verification development for the Go rule engine (`engine` and `gogame` packages)

A shallow embedding of `src/engine/board.go` and `src/gogame/gogame.go`.

Modelling conventions.

* Go `int` values are embedded as `Int`, and `int` is taken to be 64 bits wide (Go on a
  64-bit platform). Arithmetic whose exact result can leave the range of `int` is passed
  through `wrapInt`, the reduction to `[-2^63, 2^63)`: the counters and tallies of a session
  (`moveNumber++`, `ConsecutivePasses++`, `Captures[mover] += totalCaptured`) and the
  product `rows*cols` of `NewBoard`. Sums that are bounded by the length of an allocated
  slice are left exact, since a slice length is itself an `int`: a cell index
  `pos.Row*b.Cols + pos.Col` of a position in range, and the running `totalCaptured`, which
  counts distinct cells of the board. The offsets `pos.Row + d.Row` of `neighbors` are left
  exact as well: a wrapped coordinate would fail the range test just as the exact one does.
  `byte(v) + '0'` in `serialize` is modelled with an explicit `% 256`. Allocation limits (a
  board too large for memory) are not modelled.
* A run-time panic is not a returned value. Where the source panics, the embedding either
  asks the caller for a proof that rules the panic out (`NewBoard`) or returns the marker
  `Err.panicked` (`NewGame`). The type `Board` holds the boards whose cell slice has
  `Rows * Cols` entries; the slice-level embedding `raw.Board`, on which a slice index out of
  range is the outcome `Outcome.panics`, covers the boards that `NewBoard` returns when
  `rows*cols` wraps, and is proved to agree with `Board` on every board whose number of
  cells is an `int`.
* Pointers are embedded as the values they point to; boards and sessions are assumed
  allocated (no nil `Board`, no nil `Captures` map).
* A Go `string` is a byte sequence and is embedded as `List Nat` (each entry `< 256`).
* `map[K]struct{}` is a finite set and is embedded as `Finset K`; `map[Color]int` read with
  the zero default is embedded as a function `Color → Int`.
* `error` values are embedded as the constructors of `Err`, one per message of the source.
* A method with a pointer receiver that mutates its receiver returns the receiver's new
  value; `Game.PlayMove` returns the session after the call together with its result, so
  that what a failed call leaves behind is part of the model. `Board.Set` and
  `Board.SetAt` are embedded both ways: returning the new board or the error (`Set`,
  `SetAt`, the form `PlayMove` uses) and returning the receiver after the call beside the
  error (`SetRun`, `SetAtRun`); the two are proved to agree.
* The `for len(stack) > 0` loop of `collectGroup` is embedded with an iteration budget
  (`collectLoop`, which evaluates on concrete boards) and as a total function by
  well-founded recursion (`collectLoopWF`); the two are proved to agree.
-/

/-- The error values produced by the two packages, one constructor per message. -/
inductive Err where
  /-- `engine.Board.index`: "position out of bounds: %+v". -/
  | indexOutOfBounds (row col : Int)
  /-- `engine.Board.Set`: "cell already occupied at %+v". -/
  | occupied (row col : Int)
  /-- `gogame.NewGame`: "board size must be at least 5". -/
  | boardSize
  /-- `gogame.Game.PlayMove`: "game is finished". -/
  | finished
  /-- `gogame.Game.PlayMove`: "position out of bounds". -/
  | outOfBounds
  /-- `gogame.collectGroup`: "no stone at %+v". -/
  | noStone (row col : Int)
  /-- `gogame.Game.PlayMove`: "suicide is not allowed". -/
  | suicide
  /-- `gogame.Game.PlayMove`: "move violates superko (repeats a previous position)". -/
  | superko
  /-- Not a value of the source: the iteration budget of the embedded flood-fill loop ran
  out. `collectLoop_budget` shows that this never happens. -/
  | loopBudget
  /-- Not a value of the source: the call does not return, it panics at run time. -/
  | panicked
deriving DecidableEq, Repr

/-- Results of fallible calls are compared by their tag and payload. -/
instance instDecidableEqExcept {ε α : Type} [DecidableEq ε] [DecidableEq α] :
    DecidableEq (Except ε α) := fun x y =>
  match x, y with
  | .ok a, .ok b => if h : a = b then isTrue (by rw [h]) else isFalse (by
      intro e; cases e; exact h rfl)
  | .error a, .error b => if h : a = b then isTrue (by rw [h]) else isFalse (by
      intro e; cases e; exact h rfl)
  | .ok _, .error _ => isFalse (by intro e; cases e)
  | .error _, .ok _ => isFalse (by intro e; cases e)

/-- The largest `int`, `math.MaxInt64`. -/
def maxInt : Int := 9223372036854775807

/-- The smallest `int`, `math.MinInt64`. -/
def minInt : Int := -9223372036854775808

/-- The value an `int` holds after an arithmetic operation whose exact result is `x`: Go's
integer arithmetic wraps around in two's complement, here modulo `2^64`. -/
def wrapInt (x : Int) : Int :=
  (x + 9223372036854775808) % 18446744073709551616 - 9223372036854775808

/-- The outcome of a call that may panic at run time instead of returning. -/
inductive Outcome (α : Type) where
  | returns (a : α)
  | panics
deriving DecidableEq, Repr

namespace engine

/-- `engine.Position`: a cell given by zero-based coordinates. -/
structure Position where
  Row : Int
  Col : Int
deriving DecidableEq, Repr

/-- `engine.Board`, for the boards whose cell slice has `Rows * Cols` entries; the field
`sized` records this. The cell slice is unexported and only ever allocated by `NewBoard`,
which gives it that length unless `rows*cols` wraps, and by `Clone`, which keeps the
length; `raw.Board` is the same struct without the field. -/
structure Board where
  Rows : Int
  Cols : Int
  cells : List Int
  sized : cells.length = (Rows * Cols).toNat

instance : DecidableEq Board := fun a b =>
  if h : a.Rows = b.Rows ∧ a.Cols = b.Cols ∧ a.cells = b.cells then
    isTrue (by
      cases a; cases b
      simp only at h
      obtain ⟨h1, h2, h3⟩ := h
      subst h1; subst h2; subst h3
      rfl)
  else
    isFalse (by
      intro e
      subst e
      exact h ⟨rfl, rfl, rfl⟩)

/-- `engine.NewBoard` where it returns a board with `rows * cols` cells: both dimensions
positive (the source panics otherwise) and a product within `int`, which the caller has to
establish (`h`); all cells are empty (value 0). `raw.NewBoard` is the function on every
input. -/
def NewBoard (rows cols : Int) (h : 0 < rows ∧ 0 < cols ∧ rows * cols ≤ maxInt) : Board :=
  { Rows := rows
    Cols := cols
    cells := List.replicate (wrapInt (rows * cols)).toNat 0
    sized := by
      have h1 := h.1
      have h2 := h.2.1
      have h3 := h.2.2
      have hpos : 0 ≤ rows * cols := Int.mul_nonneg (by omega) (by omega)
      rw [List.length_replicate]
      unfold wrapInt
      unfold maxInt at h3
      omega }

/-- The built-in `copy(dst, src)`: overwrites the first `min (len dst) (len src)` entries of
`dst` with those of `src`. -/
def copy (dst src : List Int) : List Int :=
  src.take dst.length ++ dst.drop src.length

/-- `engine.Board.Clone`: a fresh cell slice of the same length, filled by `copy`. -/
def Board.Clone (b : Board) : Board :=
  { Rows := b.Rows
    Cols := b.Cols
    cells := copy (List.replicate b.cells.length 0) b.cells
    sized := by simp [copy, b.sized] }

/-- `engine.Board.index`: linear index of a position, or the out-of-range error. -/
def Board.index (b : Board) (pos : Position) : Except Err Int :=
  if pos.Row < 0 ∨ pos.Row ≥ b.Rows ∨ pos.Col < 0 ∨ pos.Col ≥ b.Cols then
    .error (.indexOutOfBounds pos.Row pos.Col)
  else
    .ok (pos.Row * b.Cols + pos.Col)

/-- The slice read `b.cells[idx]`. The index handed over by `index` is always in range
(`Board.index_lt`), so the default of `getD` is never used. -/
def Board.cellAt (b : Board) (idx : Int) : Int :=
  b.cells.getD idx.toNat 0

/-- `engine.Board.Get`: the occupant of a cell; on error the source returns `0` together
with the error. -/
def Board.Get (b : Board) (pos : Position) : Except Err Int :=
  match b.index pos with
  | .error e => .error e
  | .ok idx => .ok (b.cellAt idx)

/-- The slice write `b.cells[idx] = v`. -/
def Board.writeAt (b : Board) (idx : Int) (v : Int) : Board :=
  { Rows := b.Rows
    Cols := b.Cols
    cells := b.cells.set idx.toNat v
    sized := by simp [b.sized] }

/-- `engine.Board.Set`: writes the player into the cell when it is empty. -/
def Board.Set (b : Board) (pos : Position) (playerID : Int) : Except Err Board :=
  match b.index pos with
  | .error e => .error e
  | .ok idx =>
    if b.cellAt idx ≠ 0 then .error (.occupied pos.Row pos.Col)
    else .ok (b.writeAt idx playerID)

/-- `engine.Board.SetAt`: writes the value whatever the cell holds. -/
def Board.SetAt (b : Board) (pos : Position) (value : Int) : Except Err Board :=
  match b.index pos with
  | .error e => .error e
  | .ok idx => .ok (b.writeAt idx value)

/-- `engine.Board.ForEach`: visits every cell in row-major order; the callback's effect on
the variables it captures is threaded through as the state `s`. -/
def Board.ForEach {σ : Type} (b : Board) (fn : Position → Int → σ → σ) (s : σ) : σ :=
  (List.range b.Rows.toNat).foldl
    (fun (s : σ) (r : Nat) =>
      (List.range b.Cols.toNat).foldl
        (fun (s : σ) (c : Nat) =>
          fn ⟨(r : Int), (c : Int)⟩ (b.cellAt ((r : Int) * b.Cols + (c : Int))) s) s)
    s

/-- A position lies inside the board. -/
def Board.InBounds (b : Board) (pos : Position) : Prop :=
  0 ≤ pos.Row ∧ pos.Row < b.Rows ∧ 0 ≤ pos.Col ∧ pos.Col < b.Cols

instance (b : Board) (pos : Position) : Decidable (b.InBounds pos) := by
  unfold Board.InBounds; infer_instance

/-- `engine.Board.Set` once more, now returning the receiver as the call leaves it together
with the returned error (`none` for `nil`). -/
def Board.SetRun (b : Board) (pos : Position) (playerID : Int) : Board × Option Err :=
  match b.index pos with
  | .error e => (b, some e)
  | .ok idx =>
    if b.cellAt idx ≠ 0 then (b, some (.occupied pos.Row pos.Col))
    else (b.writeAt idx playerID, none)

/-- `engine.Board.SetAt` once more, now returning the receiver as the call leaves it
together with the returned error (`none` for `nil`). -/
def Board.SetAtRun (b : Board) (pos : Position) (value : Int) : Board × Option Err :=
  match b.index pos with
  | .error e => (b, some e)
  | .ok idx => (b.writeAt idx value, none)

/-- `engine.Board` as the struct is declared: nothing ties the length of the cell slice to
`Rows` and `Cols`. -/
structure raw.Board where
  Rows : Int
  Cols : Int
  cells : List Int
deriving DecidableEq, Repr

/-- `engine.NewBoard` on every input: it panics on a dimension that is not positive,
`make([]int, rows*cols)` panics on a negative length, and otherwise the slice has as many
cells as the `int` product says. -/
def raw.NewBoard (rows cols : Int) : Outcome raw.Board :=
  if rows ≤ 0 ∨ cols ≤ 0 then .panics
  else if wrapInt (rows * cols) < 0 then .panics
  else
    .returns
      { Rows := rows
        Cols := cols
        cells := List.replicate (wrapInt (rows * cols)).toNat 0 }

/-- `engine.Board.index` with the `int` arithmetic of the source. -/
def raw.Board.index (b : raw.Board) (pos : Position) : Except Err Int :=
  if pos.Row < 0 ∨ pos.Row ≥ b.Rows ∨ pos.Col < 0 ∨ pos.Col ≥ b.Cols then
    .error (.indexOutOfBounds pos.Row pos.Col)
  else
    .ok (wrapInt (wrapInt (pos.Row * b.Cols) + pos.Col))

/-- The slice read `b.cells[idx]`: it panics unless `0 ≤ idx < len(b.cells)`. -/
def raw.Board.cellAt (b : raw.Board) (idx : Int) : Outcome Int :=
  if 0 ≤ idx ∧ idx < b.cells.length then .returns (b.cells.getD idx.toNat 0) else .panics

/-- `engine.Board.Get` on the slice-level board. -/
def raw.Board.Get (b : raw.Board) (pos : Position) : Outcome (Except Err Int) :=
  match b.index pos with
  | .error e => .returns (.error e)
  | .ok idx =>
    match b.cellAt idx with
    | .panics => .panics
    | .returns v => .returns (.ok v)

/-- `engine.Board.Set` on the slice-level board: the receiver after the call and the
returned error. -/
def raw.Board.Set (b : raw.Board) (pos : Position) (playerID : Int) :
    Outcome (raw.Board × Option Err) :=
  match b.index pos with
  | .error e => .returns (b, some e)
  | .ok idx =>
    match b.cellAt idx with
    | .panics => .panics
    | .returns v =>
      if v ≠ 0 then .returns (b, some (.occupied pos.Row pos.Col))
      else .returns ({ b with cells := b.cells.set idx.toNat playerID }, none)

/-- `engine.Board.SetAt` on the slice-level board: the receiver after the call and the
returned error; the slice write panics unless `0 ≤ idx < len(b.cells)`. -/
def raw.Board.SetAt (b : raw.Board) (pos : Position) (value : Int) :
    Outcome (raw.Board × Option Err) :=
  match b.index pos with
  | .error e => .returns (b, some e)
  | .ok idx =>
    if 0 ≤ idx ∧ idx < b.cells.length then
      .returns ({ b with cells := b.cells.set idx.toNat value }, none)
    else .panics

/-- `engine.Board.ForEach` on the slice-level board: a panic of a slice read ends the
loops. -/
def raw.Board.ForEach {σ : Type} (b : raw.Board) (fn : Position → Int → σ → σ) (s : σ) :
    Outcome σ :=
  (List.range b.Rows.toNat).foldl
    (fun (acc : Outcome σ) (r : Nat) =>
      (List.range b.Cols.toNat).foldl
        (fun (acc : Outcome σ) (c : Nat) =>
          match acc with
          | .panics => .panics
          | .returns s =>
            match b.cellAt (wrapInt (wrapInt ((r : Int) * b.Cols) + (c : Int))) with
            | .panics => .panics
            | .returns v => .returns (fn ⟨(r : Int), (c : Int)⟩ v s)) acc)
    (.returns s)

/-- The struct behind a board whose cell slice has `Rows * Cols` entries. -/
def Board.toRaw (b : Board) : raw.Board :=
  { Rows := b.Rows
    Cols := b.Cols
    cells := b.cells }

end engine

namespace gogame

open engine

/-- `gogame.Color`: an `int` type. -/
abbrev Color := Int

/-- `gogame.None`. -/
def None : Color := 0
/-- `gogame.Black`. -/
def Black : Color := 1
/-- `gogame.White`. -/
def White : Color := 2

/-- `gogame.MoveResult`. -/
structure MoveResult where
  Captured : Int
deriving DecidableEq, Repr

/-- `gogame.Game`: the session state. -/
structure Game where
  Board : engine.Board
  Size : Int
  ToPlay : Color
  Captures : Color → Int
  ConsecutivePasses : Int
  moveNumber : Int
  history : Finset (List Nat)
  lastHash : List Nat

/-- `gogame.other`. -/
def other (c : Color) : Color :=
  if c = Black then White
  else if c = White then Black
  else None

/-- `gogame.neighbors`: the in-range cells among up, down, left, right, in that order; both
coordinates are tested against the one `size`. -/
def neighbors (size : Int) (pos : Position) : List Position :=
  let dirs : List Position := [⟨-1, 0⟩, ⟨1, 0⟩, ⟨0, -1⟩, ⟨0, 1⟩]
  (dirs.map (fun d => (⟨pos.Row + d.Row, pos.Col + d.Col⟩ : Position))).filter
    (fun p => decide (p.Row ≥ 0 ∧ p.Row < size ∧ p.Col ≥ 0 ∧ p.Col < size))

/-- The idiom `val, _ := b.Get(n)`: the value returned beside an ignored error is `0`. -/
def valOrZero (b : Board) (n : Position) : Int :=
  match b.Get n with
  | .ok v => v
  | .error _ => 0

/-- The inner `for … range neighbors(b.Rows, current)` of `collectGroup`: an empty
neighbour joins the liberties, a neighbour of the group's colour that is not yet seen is
pushed. The stack is kept with its top at the head of the list. -/
def scanNeighbors (b : Board) (color : Int) (seen : Finset Position) :
    List Position → List Position → Finset Position → List Position × Finset Position
  | [], stack, liberties => (stack, liberties)
  | n :: ns, stack, liberties =>
    let val := valOrZero b n
    if val = 0 then scanNeighbors b color seen ns stack (insert n liberties)
    else if val = color then
      if n ∈ seen then scanNeighbors b color seen ns stack liberties
      else scanNeighbors b color seen ns (n :: stack) liberties
    else scanNeighbors b color seen ns stack liberties

/-- The `for len(stack) > 0` loop of `collectGroup`, one iteration per unit of `budget`.
`none` means the budget ran out with a non-empty stack. -/
def collectLoop (b : Board) (color : Int) :
    Nat → List Position → Finset Position → List Position → Finset Position →
      Option (List Position × Finset Position)
  | _, [], _, group, liberties => some (group, liberties)
  | 0, _ :: _, _, _, _ => none
  | budget + 1, current :: stack, seen, group, liberties =>
    if current ∈ seen then collectLoop b color budget stack seen group liberties
    else
      let st := scanNeighbors b color (insert current seen) (neighbors b.Rows current)
        stack liberties
      collectLoop b color budget st.1 (insert current seen) (group ++ [current]) st.2

/-- Iteration budget given to the loop of `collectGroup`: every iteration pops one entry,
and at most four entries are pushed for each cell that enters `seen`. -/
def loopBudget (b : Board) : Nat :=
  4 * (b.Rows.toNat * b.Rows.toNat + 1) + 1

/-- `gogame.collectGroup`: the group of `start` (in visiting order) and its liberty set. -/
def collectGroup (b : Board) (start : Position) :
    Except Err (List Position × Finset Position) :=
  match b.Get start with
  | .error e => .error e
  | .ok color =>
    if color = 0 then .error (.noStone start.Row start.Col)
    else
      match collectLoop b color (loopBudget b) [start] ∅ [] ∅ with
      | none => .error .loopBudget
      | some r => .ok r

/-- The byte written by `sb.WriteByte(byte(v) + '0')`: conversion to `byte` and the
addition both wrap modulo 256. -/
def digitByte (v : Int) : Nat :=
  ((v % 256).toNat + 48) % 256

/-- `gogame.serialize`: the side to move followed by the cells in row-major order.
`sb.Grow` only reserves capacity; it panics on a negative count, which takes a board with
`Rows*Cols + 1 < 0` as an `int` and so none with positive dimensions and fewer cells than
the largest `int` (`raw_serialize_eq`). -/
def serialize (b : Board) (toPlay : Color) : List Nat :=
  b.ForEach (fun _ v sb => sb ++ [digitByte v]) [digitByte toPlay]

/-- `gogame.NewGame`. When `size * size` is not an `int`, `engine.NewBoard` panics in `make`
or returns a board with too short a cell slice, on which `serialize` panics
(`NewGame_raw`); the call then does not return, which is the marker `Err.panicked`. -/
def NewGame (size : Int) : Except Err Game :=
  if h : size < 5 then .error .boardSize
  else if hfit : size * size ≤ maxInt then
    let board := NewBoard size size ⟨by omega, by omega, hfit⟩
    let hash := serialize board Black
    .ok { Board := board
          Size := size
          ToPlay := Black
          Captures := fun _ => 0
          ConsecutivePasses := 0
          moveNumber := 0
          history := insert hash ∅
          lastHash := hash }
  else .error .panicked

/-- The loop `for _, p := range group { working.SetAt(p, 0) }` of `PlayMove`. -/
def clearGroup : List Position → Board → Except Err Board
  | [], working => .ok working
  | p :: ps, working =>
    match working.SetAt p 0 with
    | .error e => .error e
    | .ok w => clearGroup ps w

/-- The capture loop `for _, n := range neighbors(g.Size, pos)` of `PlayMove`, threading
the scratch board and `totalCaptured`. -/
def captureLoop (opponent : Color) : List Position → Board → Int → Except Err (Board × Int)
  | [], working, totalCaptured => .ok (working, totalCaptured)
  | n :: ns, working, totalCaptured =>
    if valOrZero working n ≠ opponent then captureLoop opponent ns working totalCaptured
    else
      match collectGroup working n with
      | .error e => .error e
      | .ok (group, libs) =>
        if libs.card = 0 then
          match clearGroup group working with
          | .error e => .error e
          | .ok w => captureLoop opponent ns w (totalCaptured + (group.length : Int))
        else captureLoop opponent ns working totalCaptured

/-- `gogame.Game.PlayMove`: the session after the call and the call's result. -/
def Game.PlayMove (g : Game) (pos : Position) : Game × Except Err MoveResult :=
  if g.ToPlay = None then (g, .error .finished)
  else
    let mover := g.ToPlay
    if pos.Row < 0 ∨ pos.Row ≥ g.Size ∨ pos.Col < 0 ∨ pos.Col ≥ g.Size then
      (g, .error .outOfBounds)
    else
      match g.Board.Clone.Set pos g.ToPlay with
      | .error e => (g, .error e)
      | .ok working =>
        let opponent := other g.ToPlay
        match captureLoop opponent (neighbors g.Size pos) working 0 with
        | .error e => (g, .error e)
        | .ok (working, totalCaptured) =>
          match collectGroup working pos with
          | .error e => (g, .error e)
          | .ok (_, libs) =>
            if libs.card = 0 then (g, .error .suicide)
            else
              let nextToPlay := opponent
              let newHash := serialize working nextToPlay
              if newHash ∈ g.history then (g, .error .superko)
              else
                ({ Board := working
                   Size := g.Size
                   ToPlay := nextToPlay
                   Captures :=
                     if totalCaptured > 0 then
                       fun c =>
                         if c = mover then wrapInt (g.Captures c + totalCaptured)
                         else g.Captures c
                     else g.Captures
                   ConsecutivePasses := 0
                   moveNumber := wrapInt (g.moveNumber + 1)
                   history := insert newHash g.history
                   lastHash := newHash },
                 .ok { Captured := totalCaptured })

/-- `gogame.Game.Pass`. -/
def Game.Pass (g : Game) : Game :=
  if g.ToPlay = None then g
  else
    let toPlay := other g.ToPlay
    let hash := serialize g.Board toPlay
    { Board := g.Board
      Size := g.Size
      ToPlay := toPlay
      Captures := g.Captures
      ConsecutivePasses := wrapInt (g.ConsecutivePasses + 1)
      moveNumber := wrapInt (g.moveNumber + 1)
      history := insert hash g.history
      lastHash := hash }

/-- Orthogonal adjacency of two cells. -/
def Adjacent (p q : Position) : Prop :=
  (q.Row = p.Row ∧ (q.Col = p.Col + 1 ∨ q.Col = p.Col - 1)) ∨
    (q.Col = p.Col ∧ (q.Row = p.Row + 1 ∨ q.Row = p.Row - 1))

instance (p q : Position) : Decidable (Adjacent p q) := by
  unfold Adjacent; infer_instance

/-- One step of the flood fill as the code takes it: from `p` to a cell that `neighbors`
(called with the board's row count) returns and that reads as `color`. -/
def Link (b : Board) (color : Int) (p q : Position) : Prop :=
  q ∈ neighbors b.Rows p ∧ valOrZero b q = color

/-- The cells the flood fill can reach from `start`. -/
def Reach (b : Board) (color : Int) (start : Position) : Position → Prop :=
  Relation.ReflTransGen (Link b color) start

/-- The square region `[0, n) × [0, n)` as a finite set. -/
def squareCells (n : Nat) : Finset Position :=
  (Finset.range n ×ˢ Finset.range n).image (fun rc => (⟨(rc.1 : Int), (rc.2 : Int)⟩ : Position))

/-- The region the flood fill started at `start` stays in. -/
def fillRegion (b : Board) (start : Position) : Finset Position :=
  insert start (squareCells b.Rows.toNat)

/-- Invariant of the loop of `collectGroup`. -/
structure LoopInv (b : Board) (color : Int) (start : Position) (stack : List Position)
    (seen : Finset Position) (group : List Position) (libs : Finset Position) : Prop where
  stack_reach : ∀ p ∈ stack, Reach b color start p
  seen_reach : ∀ p ∈ seen, Reach b color start p
  closed : ∀ p ∈ seen, ∀ q, Link b color p q → q ∈ seen ∨ q ∈ stack
  start_in : start ∈ seen ∨ start ∈ stack
  group_nodup : group.Nodup
  group_seen : ∀ p, p ∈ group ↔ p ∈ seen
  libs_eq : ∀ n, n ∈ libs ↔ ∃ p ∈ seen, n ∈ neighbors b.Rows p ∧ valOrZero b n = 0

/-- One step along a same-colour path: to an orthogonally adjacent cell of the board
holding `color`. -/
def ColorStep (b : Board) (color : Int) (p q : Position) : Prop :=
  Adjacent p q ∧ b.Get q = .ok color

/-- `Connected b color start q`: `q` is reached from `start` by a path of orthogonally
adjacent cells of the board that all hold `color` (for `start` holding `color`, the
maximal connected same-colour component of `start`). -/
def Connected (b : Board) (color : Int) (start : Position) : Position → Prop :=
  Relation.ReflTransGen (ColorStep b color) start

/-- `LibertyOf b color start n`: `n` is an empty cell of the board orthogonally adjacent to
some cell of the component of `start`. -/
def LibertyOf (b : Board) (color : Int) (start n : Position) : Prop :=
  b.Get n = .ok 0 ∧ ∃ p, Connected b color start p ∧ Adjacent p n

/-- The fill from `n` meets no neighbour that reads 0. -/
def NoLib (b : Board) (color : Int) (n : Position) : Prop :=
  ∀ p e, Reach b color n p → e ∈ neighbors b.Rows p → valOrZero b e ≠ 0

/-- `q` lies in the fill from the opponent stone `n`, and that fill has no liberty. -/
def DeadFrom (b : Board) (opp : Int) (n q : Position) : Prop :=
  valOrZero b n = opp ∧ Reach b opp n q ∧ NoLib b opp n

/-- `q` lies in a liberty-free opponent fill started at one of the listed cells. -/
def Dead (b : Board) (opp : Int) (ns : List Position) (q : Position) : Prop :=
  ∃ n ∈ ns, DeadFrom b opp n q

/-- Invariant of the capture loop: `b1` is the scratch board right after the stone was
placed, `done` the neighbours already handled, `w` the scratch board and `total` the
running count. -/
structure CaptureInv (b1 : Board) (opp : Int) (done : List Position) (w : Board)
    (total : Int) : Prop where
  rows : w.Rows = b1.Rows
  cols : w.Cols = b1.Cols
  cleared : ∀ q, Dead b1 opp done q → valOrZero w q = 0
  kept : ∀ q, ¬ Dead b1 opp done q → valOrZero w q = valOrZero b1 q
  count : ∃ S : Finset Position, (∀ q, q ∈ S ↔ Dead b1 opp done q) ∧ total = (S.card : Int)

/-- The session `PlayMove` commits when every check passed. -/
def committed (g : Game) (working : Board) (totalCaptured : Int) : Game :=
  { Board := working
    Size := g.Size
    ToPlay := other g.ToPlay
    Captures :=
      if totalCaptured > 0 then
        fun c =>
          if c = g.ToPlay then wrapInt (g.Captures c + totalCaptured) else g.Captures c
      else g.Captures
    ConsecutivePasses := 0
    moveNumber := wrapInt (g.moveNumber + 1)
    history := insert (serialize working (other g.ToPlay)) g.history
    lastHash := serialize working (other g.ToPlay) }

/-- The board with the cell `pos` overwritten by `m` (the board itself when `pos` is out of
range). -/
def placed (b : Board) (pos : Position) (m : Int) : Board :=
  match b.SetAt pos m with
  | .ok w => w
  | .error _ => b

/-- `q` belongs to a group of colour `opp` that is orthogonally adjacent to `pos` and has
no liberty on the board `b1`. -/
def CapturedCell (b1 : Board) (opp : Int) (pos q : Position) : Prop :=
  ∃ n, Adjacent pos n ∧ b1.Get n = .ok opp ∧ Connected b1 opp n q ∧
    ¬ ∃ e, LibertyOf b1 opp n e

/-- `w` is the board `b` after `m` placed a stone at `pos` and every liberty-free group of
the opponent adjacent to `pos` was taken off: `pos` holds `m`, the cells of those groups
are empty, every other cell is as in `b`. -/
def AfterCapture (b : Board) (pos : Position) (m : Int) (w : Board) : Prop :=
  w.Rows = b.Rows ∧ w.Cols = b.Cols ∧ w.Get pos = .ok m ∧
    (∀ q, CapturedCell (placed b pos m) (other m) pos q → w.Get q = .ok 0) ∧
    (∀ q, q ≠ pos → ¬ CapturedCell (placed b pos m) (other m) pos q → w.Get q = b.Get q)

/-- The cell values in row-major order, as `ForEach` visits them. -/
def rowMajor (b : Board) : List Int :=
  (List.range b.Rows.toNat).flatMap
    (fun (r : Nat) => (List.range b.Cols.toNat).map
      (fun (c : Nat) => valOrZero b ⟨(r : Int), (c : Int)⟩))

/-- A call made on a session. -/
inductive Op where
  | play (pos : Position)
  | pass
deriving DecidableEq, Repr

/-- The session after one call (a rejected placement leaves what `PlayMove` leaves). -/
def Game.step (g : Game) : Op → Game
  | .play pos => (g.PlayMove pos).1
  | .pass => g.Pass

/-- The session after a sequence of calls. -/
def Game.run (g : Game) (ops : List Op) : Game :=
  ops.foldl Game.step g

/-- The signature of the position a session currently holds. -/
def Game.signature (g : Game) : List Nat :=
  serialize g.Board g.ToPlay

/-- The session `NewGame 5` returns. -/
def opening : Game :=
  { Board := NewBoard 5 5 (by decide)
    Size := 5
    ToPlay := Black
    Captures := fun _ => 0
    ConsecutivePasses := 0
    moveNumber := 0
    history := {serialize (NewBoard 5 5 (by decide)) Black}
    lastHash := serialize (NewBoard 5 5 (by decide)) Black }

/-- A ko on the top edge of a 5 × 5 board: Black has just taken the White stone at (0,1)
by playing (0,2); White retaking at (0,1) would bring back the position held before that
capture. -/
def koFight : Game :=
  opening.run [.play ⟨0, 0⟩, .play ⟨0, 3⟩, .play ⟨1, 1⟩, .play ⟨1, 2⟩, .play ⟨4, 4⟩,
    .play ⟨0, 1⟩, .play ⟨0, 2⟩]

/-- Black to move with a lone White stone in the corner (0,0) in atari. -/
def cornerAtari : Game :=
  opening.run [.play ⟨0, 1⟩, .play ⟨0, 0⟩]

/-- Black to move with a bent White three-stone group in the corner whose last liberty
(1,1) borders two of its stones. -/
def cornerTrap : Game :=
  opening.run [.play ⟨0, 2⟩, .play ⟨0, 1⟩, .play ⟨2, 0⟩, .play ⟨1, 0⟩, .play ⟨4, 4⟩,
    .play ⟨0, 0⟩]

/-- White to move with the corner (0,0) surrounded by Black stones. -/
def cornerEye : Game :=
  opening.run [.play ⟨0, 1⟩, .play ⟨4, 4⟩, .play ⟨1, 0⟩]

/-- A 4 × 4 board: a bent Black three-stone group in the top-left corner whose two arms
both border the empty cell (1,1), White stones on the right, a lone Black stone. -/
def bentBoard : Board :=
  { Rows := 4
    Cols := 4
    cells := [1, 1, 0, 2,
              1, 0, 2, 2,
              0, 0, 0, 0,
              0, 0, 0, 1]
    sized := by decide }

/-- A session on an empty 3 × 3 board with Black to move and the history seeded with that
position. `NewGame 3` does not return it (sizes below 5 are refused), so it is written
out. -/
def emptyThree : Game :=
  { Board := NewBoard 3 3 (by decide)
    Size := 3
    ToPlay := Black
    Captures := fun _ => 0
    ConsecutivePasses := 0
    moveNumber := 0
    history := {serialize (NewBoard 3 3 (by decide)) Black}
    lastHash := serialize (NewBoard 3 3 (by decide)) Black }

/-- The results of `PlayMove` called at each listed position in turn. -/
def playResults : Game → List Position → List (Except Err MoveResult)
  | _, [] => []
  | g, p :: ps => (g.PlayMove p).2 :: playResults (g.PlayMove p).1 ps

/-- The placements A2, B2, B1, C3, C2, C1, B3 as `ParseCoord` with size 3 gives them. -/
def captureScenario : List Position :=
  [⟨1, 0⟩, ⟨1, 1⟩, ⟨2, 1⟩, ⟨0, 2⟩, ⟨1, 2⟩, ⟨2, 2⟩, ⟨0, 1⟩]

/-- A board of two rows and one column, both cells Black. -/
def tallBoard : Board :=
  { Rows := 2
    Cols := 1
    cells := [1,
              1]
    sized := by decide }

/-- A board of one row and three columns: two Black stones and an empty cell. -/
def wideBoard : Board :=
  { Rows := 1
    Cols := 3
    cells := [1, 1, 0]
    sized := by decide }

/-- The cells of a board as a finite set. -/
def boardCells (b : Board) : Finset Position :=
  (Finset.range b.Rows.toNat ×ˢ Finset.range b.Cols.toNat).image
    (fun rc => (⟨(rc.1 : Int), (rc.2 : Int)⟩ : Position))

/-- The quantity that drops at every iteration of the loop of `collectGroup`: a popped
entry costs one, a cell newly marked as seen pays for the at most four entries pushed for
it, and a stacked cell outside the region `U` of possible neighbours is counted extra. -/
def loopMeasure (U : Finset Position) (stack : List Position) (seen : Finset Position) : Nat :=
  stack.length + 4 * (U \ seen).card + 5 * (stack.filter (fun p => decide (p ∉ U))).length

/-- The `for len(stack) > 0` loop of `collectGroup` once more, without a budget: a total
function by well-founded recursion on the stack and the seen-set, `loopMeasure` dropping at
every iteration. -/
def collectLoopWF (b : Board) (color : Int) (stack : List Position) (seen : Finset Position)
    (group : List Position) (liberties : Finset Position) : List Position × Finset Position :=
  match stack with
  | [] => (group, liberties)
  | current :: rest =>
    if _h : current ∈ seen then collectLoopWF b color rest seen group liberties
    else
      collectLoopWF b color
        (scanNeighbors b color (insert current seen) (neighbors b.Rows current) rest
          liberties).1
        (insert current seen) (group ++ [current])
        (scanNeighbors b color (insert current seen) (neighbors b.Rows current) rest
          liberties).2
termination_by loopMeasure (squareCells b.Rows.toNat) stack seen
decreasing_by
  · unfold loopMeasure
    simp only [List.length_cons, List.filter_cons]
    split_ifs <;> first | omega | (simp only [List.length_cons]; omega)
  · unfold loopMeasure
    have hn : (neighbors b.Rows current).length ≤ 4 := by
      unfold neighbors
      exact le_trans (List.length_filter_le _ _) (by simp)
    have hsub : ∀ n ∈ neighbors b.Rows current, n ∈ squareCells b.Rows.toNat := by
      intro n hmem
      unfold neighbors at hmem
      simp only [List.mem_filter, decide_eq_true_eq] at hmem
      obtain ⟨_, h1, h2, h3, h4⟩ := hmem
      unfold squareCells
      simp only [Finset.mem_image, Finset.mem_product, Finset.mem_range, Prod.exists]
      refine ⟨n.Row.toNat, n.Col.toNat, ⟨by omega, by omega⟩, ?_⟩
      cases n with
      | mk r c =>
        simp only at h1 h3
        simp only [Position.mk.injEq]
        omega
    have hscan : ∀ (ns st : List Position) (lb : Finset Position),
        (∀ n ∈ ns, n ∈ squareCells b.Rows.toNat) →
        (scanNeighbors b color (insert current seen) ns st lb).1.length ≤
            st.length + ns.length ∧
          ((scanNeighbors b color (insert current seen) ns st lb).1.filter
            (fun p => decide (p ∉ squareCells b.Rows.toNat))).length ≤
          (st.filter (fun p => decide (p ∉ squareCells b.Rows.toNat))).length := by
      intro ns
      induction ns with
      | nil =>
        intro st _ _
        simp [scanNeighbors]
      | cons n ns ih =>
        intro st lb hns
        have hrest : ∀ x ∈ ns, x ∈ squareCells b.Rows.toNat :=
          fun x hx => hns x (List.mem_cons_of_mem _ hx)
        unfold scanNeighbors
        simp only [List.length_cons]
        split_ifs
        · exact ⟨le_trans (ih _ _ hrest).1 (by omega), (ih _ _ hrest).2⟩
        · exact ⟨le_trans (ih _ _ hrest).1 (by omega), (ih _ _ hrest).2⟩
        · refine ⟨le_trans (ih _ _ hrest).1 (by simp only [List.length_cons]; omega),
            le_trans (ih _ _ hrest).2 ?_⟩
          simp [hns n (List.mem_cons_self _ _)]
        · exact ⟨le_trans (ih _ _ hrest).1 (by omega), (ih _ _ hrest).2⟩
    obtain ⟨hlen, hfil⟩ := hscan (neighbors b.Rows current) rest liberties hsub
    simp only [List.length_cons, List.filter_cons]
    by_cases hU : current ∈ squareCells b.Rows.toNat
    · have hcU : current ∈ squareCells b.Rows.toNat \ seen := Finset.mem_sdiff.mpr ⟨hU, _h⟩
      have e : squareCells b.Rows.toNat \ insert current seen =
          (squareCells b.Rows.toNat \ seen).erase current := by
        ext x
        simp only [Finset.mem_sdiff, Finset.mem_insert, Finset.mem_erase]
        tauto
      have hpos : 0 < (squareCells b.Rows.toNat \ seen).card := Finset.card_pos.mpr ⟨current, hcU⟩
      rw [e, Finset.card_erase_of_mem hcU]
      simp only [hU, not_true_eq_false, decide_False, Bool.false_eq_true, if_false]
      omega
    · have e : squareCells b.Rows.toNat \ insert current seen =
          squareCells b.Rows.toNat \ seen := by
        ext x
        simp only [Finset.mem_sdiff, Finset.mem_insert]
        constructor
        · rintro ⟨h1, h2⟩
          exact ⟨h1, fun h => h2 (Or.inr h)⟩
        · rintro ⟨h1, h2⟩
          refine ⟨h1, ?_⟩
          rintro (h | h)
          · rw [h] at h1
            exact hU h1
          · exact h2 h
      rw [e]
      simp only [hU, not_false_eq_true, decide_True, if_true, List.length_cons]
      omega

/-- `gogame.collectGroup` with the budget-free loop: a total function whose only errors are
the two of the source. -/
def collectGroupWF (b : Board) (start : Position) :
    Except Err (List Position × Finset Position) :=
  match b.Get start with
  | .error e => .error e
  | .ok color =>
    if color = 0 then .error (.noStone start.Row start.Col)
    else .ok (collectLoopWF b color [start] ∅ [] ∅)

/-- Every cell of the board reads as empty, Black or White. -/
def ThreeValued (b : Board) : Prop :=
  ∀ p, b.InBounds p → b.Get p = .ok None ∨ b.Get p = .ok Black ∨ b.Get p = .ok White

/-- Every stone of the board belongs to a connected same-colour group with a liberty. -/
def NoDeadStones (b : Board) : Prop :=
  ∀ p c, c ≠ 0 → b.Get p = .ok c → ∃ e, LibertyOf b c p e

/-- What every session reached from `NewGame` satisfies: the board is the square of side
`Size`, which is positive, a side is to move, the cells hold 0, 1 or 2, and no group is
without liberty. -/
structure Settled (g : Game) : Prop where
  positive : 0 < g.Size
  square : g.Board.Rows = g.Size ∧ g.Board.Cols = g.Size
  side : g.ToPlay = Black ∨ g.ToPlay = White
  values : ThreeValued g.Board
  alive : NoDeadStones g.Board

/-- The number of cells of the board that hold `c`. -/
def stones (b : Board) (c : Color) : Nat :=
  ((boardCells b).filter (fun p => valOrZero b p = c)).card

/-- The number of placements made by `c` that `PlayMove` accepted, in a sequence of calls
made on the session `g`. -/
def acceptedBy (c : Color) : Game → List Op → Nat
  | _, [] => 0
  | g, .play pos :: ops =>
    (match (g.PlayMove pos).2 with
      | .ok _ => if g.ToPlay = c then 1 else 0
      | .error _ => 0) + acceptedBy c (g.PlayMove pos).1 ops
  | g, .pass :: ops => acceptedBy c g.Pass ops

/-- The number of placements that `PlayMove` accepted, in a sequence of calls made on the
session `g`. -/
def accepted : Game → List Op → Nat
  | _, [] => 0
  | g, .play pos :: ops =>
    (match (g.PlayMove pos).2 with
      | .ok _ => 1
      | .error _ => 0) + accepted (g.PlayMove pos).1 ops
  | g, .pass :: ops => accepted g.Pass ops

/-- The number of `Pass` calls in a sequence of calls. -/
def passCount (ops : List Op) : Nat :=
  ops.count .pass

/-- A sequence of calls on a 5 × 5 board: White builds a bent three-stone group in the
corner, Black takes it by playing its last liberty (1,1); White passes; Black's placement
on the occupied cell (1,1) is rejected. -/
def trapSprung : List Op :=
  [.play ⟨0, 2⟩, .play ⟨0, 1⟩, .play ⟨2, 0⟩, .play ⟨1, 0⟩, .play ⟨4, 4⟩, .play ⟨0, 0⟩,
    .play ⟨1, 1⟩, .pass, .play ⟨1, 1⟩]

/-- `gogame.serialize` on the slice-level board: `sb.Grow` panics on a negative count, and
a panic inside `ForEach` ends the call. -/
def raw.serialize (b : raw.Board) (toPlay : Color) : Outcome (List Nat) :=
  if wrapInt (wrapInt (b.Rows * b.Cols) + 1) < 0 then .panics
  else b.ForEach (fun _ v sb => sb ++ [digitByte v]) [digitByte toPlay]

/-- `gogame.NewGame` on the slice-level board, up to the session value it builds: the size
guard, `engine.NewBoard` and `serialize`; it returns the board and the signature that the
session stores as `lastHash` and as the one element of `history`. -/
def raw.NewGame (size : Int) : Outcome (Except Err (raw.Board × List Nat)) :=
  if size < 5 then .returns (.error .boardSize)
  else
    match raw.NewBoard size size with
    | .panics => .panics
    | .returns board =>
      match raw.serialize board Black with
      | .panics => .panics
      | .returns hash => .returns (.ok (board, hash))

/-- The board that `NewBoard` returns for `2^32` rows and `2^32` columns: the `int`
product of the dimensions is 0, so the cell slice is empty. -/
def wrappedBoard : raw.Board :=
  { Rows := 4294967296
    Cols := 4294967296
    cells := [] }

/-- The session `cornerAtari`, Black to capture at (1,0), with Black's tally at the largest
`int`. -/
def atariBrim : Game :=
  { cornerAtari with Captures := fun c => if c = Black then maxInt else 0 }

/-- The session `cornerTrap`, Black to capture three stones at (1,1), with Black's tally
two below the largest `int` and the move counter at the largest `int`. -/
def trapBrim : Game :=
  { cornerTrap with
    Captures := fun c => if c = Black then maxInt - 2 else 0
    moveNumber := maxInt }

/-- The opening session with both counters at the largest `int`. -/
def openingBrim : Game :=
  { opening with
    ConsecutivePasses := maxInt
    moveNumber := maxInt }

/-- A board of 4 × 4 empty cells. -/
def fourBoard : Board :=
  NewBoard 4 4 (by decide)

end gogame

/-! ## Arithmetic on `int` -/

theorem wrapInt_eq {x : Int} (hlo : minInt ≤ x) (hhi : x ≤ maxInt) : wrapInt x = x := by
  unfold minInt at hlo
  unfold maxInt at hhi
  unfold wrapInt
  omega

theorem wrapInt_range (x : Int) : minInt ≤ wrapInt x ∧ wrapInt x ≤ maxInt := by
  unfold minInt maxInt wrapInt
  omega

theorem wrapInt_add_wrap (a b : Int) : wrapInt (wrapInt a + b) = wrapInt (a + b) := by
  unfold wrapInt
  omega

theorem wrapInt_succ_ne (x : Int) : wrapInt (x + 1) ≠ x := by
  unfold wrapInt
  omega

/-- An `int` at its largest value wraps to the smallest when one is added. -/
theorem wrapInt_maxInt_succ : wrapInt (maxInt + 1) = minInt := by
  decide

/-! ## The grid: basic facts -/

namespace engine

theorem Board.ext_cells {a b : Board} (hr : a.Rows = b.Rows) (hc : a.Cols = b.Cols)
    (hx : a.cells = b.cells) : a = b := by
  cases a; cases b
  simp only at hr hc hx
  subst hr; subst hc; subst hx
  rfl

theorem copy_fresh (xs : List Int) : copy (List.replicate xs.length 0) xs = xs := by
  simp [copy]

theorem Board.Clone_eq (b : Board) : b.Clone = b :=
  Board.ext_cells rfl rfl (copy_fresh b.cells)

theorem NewBoard_cells {rows cols : Int} (h : 0 < rows ∧ 0 < cols ∧ rows * cols ≤ maxInt) :
    (NewBoard rows cols h).cells = List.replicate (rows * cols).toNat 0 := by
  have hpos : 0 ≤ rows * cols := Int.mul_nonneg (by omega) (by omega)
  unfold NewBoard
  simp only
  rw [wrapInt_eq (by unfold minInt; omega) h.2.2]

theorem Board.index_ok {b : Board} {pos : Position} (h : b.InBounds pos) :
    b.index pos = .ok (pos.Row * b.Cols + pos.Col) := by
  unfold Board.index
  rw [if_neg]
  unfold Board.InBounds at h
  omega

theorem Board.index_error {b : Board} {pos : Position} (h : ¬ b.InBounds pos) :
    b.index pos = .error (.indexOutOfBounds pos.Row pos.Col) := by
  unfold Board.index
  rw [if_pos]
  unfold Board.InBounds at h
  omega

/-- The index computed for an in-range position addresses an allocated cell. -/
theorem Board.index_lt {b : Board} {pos : Position} (h : b.InBounds pos) :
    0 ≤ pos.Row * b.Cols + pos.Col ∧
      (pos.Row * b.Cols + pos.Col).toNat < b.cells.length := by
  obtain ⟨h1, h2, h3, h4⟩ := h
  have hmul : 0 ≤ pos.Row * b.Cols := Int.mul_nonneg h1 (by omega)
  have hle : (pos.Row + 1) * b.Cols ≤ b.Rows * b.Cols :=
    Int.mul_le_mul_of_nonneg_right (by omega) (by omega)
  have hexp : (pos.Row + 1) * b.Cols = pos.Row * b.Cols + b.Cols := by ring
  refine ⟨by omega, ?_⟩
  rw [b.sized]
  omega

/-- Distinct in-range positions have distinct indices. -/
theorem Board.index_inj {b : Board} {p q : Position} (hp : b.InBounds p) (hq : b.InBounds q)
    (h : (p.Row * b.Cols + p.Col).toNat = (q.Row * b.Cols + q.Col).toNat) : p = q := by
  have h1 := (Board.index_lt hp).1
  have h2 := (Board.index_lt hq).1
  have h3 : p.Row * b.Cols + p.Col = q.Row * b.Cols + q.Col := by omega
  obtain ⟨a1, a2, a3, a4⟩ := hp
  obtain ⟨c1, c2, c3, c4⟩ := hq
  have hrow : p.Row = q.Row := by
    by_contra hne
    rcases lt_or_gt_of_ne hne with hlt | hgt
    · have : (p.Row + 1) * b.Cols ≤ q.Row * b.Cols :=
        Int.mul_le_mul_of_nonneg_right (by omega) (by omega)
      have hexp : (p.Row + 1) * b.Cols = p.Row * b.Cols + b.Cols := by ring
      omega
    · have : (q.Row + 1) * b.Cols ≤ p.Row * b.Cols :=
        Int.mul_le_mul_of_nonneg_right (by omega) (by omega)
      have hexp : (q.Row + 1) * b.Cols = q.Row * b.Cols + b.Cols := by ring
      omega
  have hcol : p.Col = q.Col := by
    rw [hrow] at h3
    omega
  cases p; cases q
  simp only at hrow hcol
  subst hrow; subst hcol
  rfl

theorem Board.Get_ok {b : Board} {pos : Position} (h : b.InBounds pos) :
    b.Get pos = .ok (b.cellAt (pos.Row * b.Cols + pos.Col)) := by
  unfold Board.Get
  rw [Board.index_ok h]

theorem Board.Get_error {b : Board} {pos : Position} (h : ¬ b.InBounds pos) :
    b.Get pos = .error (.indexOutOfBounds pos.Row pos.Col) := by
  unfold Board.Get
  rw [Board.index_error h]

theorem Board.writeAt_Rows (b : Board) (idx v : Int) : (b.writeAt idx v).Rows = b.Rows := rfl

theorem Board.writeAt_Cols (b : Board) (idx v : Int) : (b.writeAt idx v).Cols = b.Cols := rfl

theorem Board.writeAt_InBounds (b : Board) (idx v : Int) (q : Position) :
    (b.writeAt idx v).InBounds q ↔ b.InBounds q := Iff.rfl

theorem Board.cellAt_writeAt_same {b : Board} {pos : Position} (h : b.InBounds pos) (v : Int) :
    (b.writeAt (pos.Row * b.Cols + pos.Col) v).cellAt (pos.Row * b.Cols + pos.Col) = v := by
  unfold Board.cellAt Board.writeAt
  simp only
  rw [List.getD_eq_getElem?_getD, List.getElem?_set_self]
  · rfl
  · exact (Board.index_lt h).2

theorem Board.cellAt_writeAt_other {b : Board} {p q : Position} (hp : b.InBounds p)
    (hq : b.InBounds q) (hne : q ≠ p) (v : Int) :
    (b.writeAt (p.Row * b.Cols + p.Col) v).cellAt (q.Row * b.Cols + q.Col) =
      b.cellAt (q.Row * b.Cols + q.Col) := by
  unfold Board.cellAt Board.writeAt
  simp only
  rw [List.getD_eq_getElem?_getD, List.getD_eq_getElem?_getD, List.getElem?_set_ne]
  intro h
  exact hne (Board.index_inj hq hp h.symm)

end engine

namespace gogame

open engine

theorem valOrZero_inBounds {b : Board} {p : Position} (h : b.InBounds p) :
    valOrZero b p = b.cellAt (p.Row * b.Cols + p.Col) := by
  unfold valOrZero
  rw [Board.Get_ok h]

theorem valOrZero_outside {b : Board} {p : Position} (h : ¬ b.InBounds p) :
    valOrZero b p = 0 := by
  unfold valOrZero
  rw [Board.Get_error h]

theorem Get_eq_ok_valOrZero {b : Board} {p : Position} (h : b.InBounds p) :
    b.Get p = .ok (valOrZero b p) := by
  rw [valOrZero_inBounds h, Board.Get_ok h]

/-- A cell with a non-zero reading is inside the board. -/
theorem inBounds_of_valOrZero_ne {b : Board} {p : Position} (h : valOrZero b p ≠ 0) :
    b.InBounds p := by
  by_contra hn
  exact h (valOrZero_outside hn)

theorem SetAt_inBounds {b : Board} {p : Position} (h : b.InBounds p) (v : Int) :
    b.SetAt p v = .ok (b.writeAt (p.Row * b.Cols + p.Col) v) := by
  unfold Board.SetAt
  rw [Board.index_ok h]

theorem Set_inBounds_empty {b : Board} {p : Position} (h : b.InBounds p)
    (he : valOrZero b p = 0) (v : Int) :
    b.Set p v = .ok (b.writeAt (p.Row * b.Cols + p.Col) v) := by
  unfold Board.Set
  rw [Board.index_ok h]
  rw [valOrZero_inBounds h] at he
  simp [he]

theorem Set_inBounds_occupied {b : Board} {p : Position} (h : b.InBounds p)
    (he : valOrZero b p ≠ 0) (v : Int) :
    b.Set p v = .error (.occupied p.Row p.Col) := by
  unfold Board.Set
  rw [Board.index_ok h]
  rw [valOrZero_inBounds h] at he
  simp [he]

/-- Reading a board after one cell write. -/
theorem valOrZero_writeAt {b : Board} {p : Position} (h : b.InBounds p) (v : Int)
    (q : Position) :
    valOrZero (b.writeAt (p.Row * b.Cols + p.Col) v) q =
      if q = p then v else valOrZero b q := by
  by_cases hq : b.InBounds q
  · have hq2 : (b.writeAt (p.Row * b.Cols + p.Col) v).InBounds q := hq
    rw [valOrZero_inBounds hq2, valOrZero_inBounds hq, Board.writeAt_Cols]
    by_cases e : q = p
    · subst e
      rw [if_pos rfl, Board.cellAt_writeAt_same h]
    · rw [if_neg e, Board.cellAt_writeAt_other h hq e]
  · have hq2 : ¬ (b.writeAt (p.Row * b.Cols + p.Col) v).InBounds q := hq
    rw [valOrZero_outside hq2, valOrZero_outside hq]
    have e : q ≠ p := by
      intro e
      subst e
      exact hq h
    rw [if_neg e]

theorem mem_neighbors {size : Int} {p q : Position} :
    q ∈ neighbors size p ↔
      (q = ⟨p.Row + -1, p.Col + 0⟩ ∨ q = ⟨p.Row + 1, p.Col + 0⟩ ∨
        q = ⟨p.Row + 0, p.Col + -1⟩ ∨ q = ⟨p.Row + 0, p.Col + 1⟩) ∧
      (q.Row ≥ 0 ∧ q.Row < size ∧ q.Col ≥ 0 ∧ q.Col < size) := by
  unfold neighbors
  simp only [List.map_cons, List.map_nil, List.mem_filter, List.mem_cons, List.mem_nil_iff,
    or_false, decide_eq_true_eq]

theorem neighbors_length_le (size : Int) (p : Position) : (neighbors size p).length ≤ 4 := by
  unfold neighbors
  exact le_trans (List.length_filter_le _ _) (by simp)

theorem Adjacent.symm {p q : Position} (h : Adjacent p q) : Adjacent q p := by
  unfold Adjacent at *
  omega

/-- What `neighbors` returns: the orthogonally adjacent cells with both coordinates in
`[0, size)`. -/
theorem mem_neighbors_iff {size : Int} {p q : Position} :
    q ∈ neighbors size p ↔
      Adjacent p q ∧ (0 ≤ q.Row ∧ q.Row < size ∧ 0 ≤ q.Col ∧ q.Col < size) := by
  rw [mem_neighbors]
  unfold Adjacent
  constructor
  · rintro ⟨h | h | h | h, hb⟩ <;> subst h <;> refine ⟨?_, hb⟩ <;> simp <;> omega
  · rintro ⟨h, hb⟩
    refine ⟨?_, by omega⟩
    cases q with
    | mk r c =>
      simp only at h hb ⊢
      simp only [Position.mk.injEq]
      omega

/-! ## The flood fill of `collectGroup` -/

theorem squareCells_card_le (n : Nat) : (squareCells n).card ≤ n * n := by
  unfold squareCells
  refine le_trans Finset.card_image_le ?_
  simp [Finset.card_product]

theorem mem_squareCells {n : Nat} {p : Position} :
    p ∈ squareCells n ↔ 0 ≤ p.Row ∧ p.Row < n ∧ 0 ≤ p.Col ∧ p.Col < n := by
  unfold squareCells
  simp only [Finset.mem_image, Finset.mem_product, Finset.mem_range, Prod.exists]
  constructor
  · rintro ⟨r, c, ⟨hr, hc⟩, rfl⟩
    simp only
    omega
  · rintro ⟨h1, h2, h3, h4⟩
    refine ⟨p.Row.toNat, p.Col.toNat, ⟨by omega, by omega⟩, ?_⟩
    cases p with
    | mk r c =>
      simp only at h1 h3
      simp only [Position.mk.injEq]
      omega

theorem neighbors_subset_squareCells {size : Int} {p q : Position}
    (h : q ∈ neighbors size p) : q ∈ squareCells size.toNat := by
  rw [mem_neighbors_iff] at h
  rw [mem_squareCells]
  omega

section scan

variable (b : Board) (color : Int) (seen : Finset Position)

theorem scanNeighbors_stack (hc : color ≠ 0) (ns stack : List Position)
    (libs : Finset Position) (q : Position) :
    q ∈ (scanNeighbors b color seen ns stack libs).1 ↔
      q ∈ stack ∨ (q ∈ ns ∧ valOrZero b q = color ∧ q ∉ seen) := by
  induction ns generalizing stack libs with
  | nil => simp [scanNeighbors]
  | cons n ns ih =>
    unfold scanNeighbors
    simp only
    by_cases h0 : valOrZero b n = 0
    · rw [if_pos h0, ih]
      constructor
      · rintro (h | ⟨h1, h2⟩)
        · exact Or.inl h
        · exact Or.inr ⟨List.mem_cons_of_mem _ h1, h2⟩
      · rintro (h | ⟨h1, h2, h3⟩)
        · exact Or.inl h
        · rcases List.mem_cons.mp h1 with e | h1
          · subst e
            exact absurd (h0.symm.trans h2) (Ne.symm hc)
          · exact Or.inr ⟨h1, h2, h3⟩
    · rw [if_neg h0]
      by_cases h1 : valOrZero b n = color
      · rw [if_pos h1]
        by_cases h2 : n ∈ seen
        · rw [if_pos h2, ih]
          constructor
          · rintro (h | ⟨h3, h4⟩)
            · exact Or.inl h
            · exact Or.inr ⟨List.mem_cons_of_mem _ h3, h4⟩
          · rintro (h | ⟨h3, h4, h5⟩)
            · exact Or.inl h
            · rcases List.mem_cons.mp h3 with e | h3
              · subst e
                exact absurd h2 h5
              · exact Or.inr ⟨h3, h4, h5⟩
        · rw [if_neg h2, ih]
          constructor
          · rintro (h | ⟨h3, h4⟩)
            · rcases List.mem_cons.mp h with e | h
              · subst e
                exact Or.inr ⟨List.mem_cons_self _ _, h1, h2⟩
              · exact Or.inl h
            · exact Or.inr ⟨List.mem_cons_of_mem _ h3, h4⟩
          · rintro (h | ⟨h3, h4, h5⟩)
            · exact Or.inl (List.mem_cons_of_mem _ h)
            · rcases List.mem_cons.mp h3 with e | h3
              · subst e
                exact Or.inl (List.mem_cons_self _ _)
              · exact Or.inr ⟨h3, h4, h5⟩
      · rw [if_neg h1, ih]
        constructor
        · rintro (h | ⟨h3, h4⟩)
          · exact Or.inl h
          · exact Or.inr ⟨List.mem_cons_of_mem _ h3, h4⟩
        · rintro (h | ⟨h3, h4, h5⟩)
          · exact Or.inl h
          · rcases List.mem_cons.mp h3 with e | h3
            · subst e
              exact absurd h4 h1
            · exact Or.inr ⟨h3, h4, h5⟩

theorem scanNeighbors_liberties (ns stack : List Position) (libs : Finset Position)
    (q : Position) :
    q ∈ (scanNeighbors b color seen ns stack libs).2 ↔
      q ∈ libs ∨ (q ∈ ns ∧ valOrZero b q = 0) := by
  induction ns generalizing stack libs with
  | nil => simp [scanNeighbors]
  | cons n ns ih =>
    unfold scanNeighbors
    simp only
    by_cases h0 : valOrZero b n = 0
    · rw [if_pos h0, ih, Finset.mem_insert]
      constructor
      · rintro ((e | h) | ⟨h1, h2⟩)
        · subst e
          exact Or.inr ⟨List.mem_cons_self _ _, h0⟩
        · exact Or.inl h
        · exact Or.inr ⟨List.mem_cons_of_mem _ h1, h2⟩
      · rintro (h | ⟨h1, h2⟩)
        · exact Or.inl (Or.inr h)
        · rcases List.mem_cons.mp h1 with e | h1
          · exact Or.inl (Or.inl e)
          · exact Or.inr ⟨h1, h2⟩
    · have key : ∀ st : List Position,
          (q ∈ (scanNeighbors b color seen ns st libs).2 ↔
            q ∈ libs ∨ (q ∈ n :: ns ∧ valOrZero b q = 0)) := by
        intro st
        rw [ih]
        constructor
        · rintro (h | ⟨h1, h2⟩)
          · exact Or.inl h
          · exact Or.inr ⟨List.mem_cons_of_mem _ h1, h2⟩
        · rintro (h | ⟨h1, h2⟩)
          · exact Or.inl h
          · rcases List.mem_cons.mp h1 with e | h1
            · subst e
              exact absurd h2 h0
            · exact Or.inr ⟨h1, h2⟩
      rw [if_neg h0]
      split_ifs
      · exact key _
      · exact key _
      · exact key _

theorem scanNeighbors_length (ns stack : List Position) (libs : Finset Position) :
    (scanNeighbors b color seen ns stack libs).1.length ≤ stack.length + ns.length := by
  induction ns generalizing stack libs with
  | nil => simp [scanNeighbors]
  | cons n ns ih =>
    unfold scanNeighbors
    simp only
    split_ifs
    · exact le_trans (ih _ _) (by simp)
    · exact le_trans (ih _ _) (by simp)
    · exact le_trans (ih _ _) (by simp; omega)
    · exact le_trans (ih _ _) (by simp)

end scan

/-- The loop of `collectGroup` ends within its budget: with every stacked cell inside a
finite region `U` that contains all cells `neighbors` can return, the quantity
`len(stack) + 4 * #(U \ seen)` drops at every iteration. -/
theorem collectLoop_terminates (b : Board) (color : Int) (U : Finset Position)
    (hU : ∀ p q, q ∈ neighbors b.Rows p → q ∈ U) :
    ∀ (budget : Nat) (stack : List Position) (seen : Finset Position) (group : List Position)
      (libs : Finset Position),
      (∀ p ∈ stack, p ∈ U) → stack.length + 4 * (U \ seen).card ≤ budget →
      (collectLoop b color budget stack seen group libs).isSome = true := by
  intro budget
  induction budget with
  | zero =>
    intro stack seen group libs _ hpot
    cases stack with
    | nil => simp [collectLoop]
    | cons c cs => simp at hpot
  | succ k ih =>
    intro stack seen group libs hst hpot
    cases stack with
    | nil => simp [collectLoop]
    | cons c cs =>
      unfold collectLoop
      by_cases hc : c ∈ seen
      · rw [if_pos hc]
        apply ih
        · intro p hp
          exact hst p (List.mem_cons_of_mem _ hp)
        · simp only [List.length_cons] at hpot
          omega
      · rw [if_neg hc]
        simp only
        apply ih
        · intro p hp
          by_cases hcol : color = 0
          · -- no cell is pushed for colour 0 beyond what `scanNeighbors_length` allows;
            -- membership is read off the general shape of the scan
            subst hcol
            have : ∀ (ns st : List Position) (lb : Finset Position),
                (∀ x ∈ st, x ∈ U) → (∀ x ∈ ns, x ∈ U) →
                ∀ x ∈ (scanNeighbors b 0 (insert c seen) ns st lb).1, x ∈ U := by
              intro ns
              induction ns with
              | nil =>
                intro st lb h1 _ x hx
                simpa [scanNeighbors] using h1 x hx
              | cons n ns ihn =>
                intro st lb h1 h2 x hx
                unfold scanNeighbors at hx
                simp only at hx
                have h2t : ∀ x ∈ ns, x ∈ U := fun x hx => h2 x (List.mem_cons_of_mem _ hx)
                split_ifs at hx
                · exact ihn _ _ h1 h2t x hx
                · exact ihn _ _ h1 h2t x hx
            exact this _ _ _ (fun x hx => hst x (List.mem_cons_of_mem _ hx))
              (fun x hx => hU c x hx) p hp
          · rw [scanNeighbors_stack b color _ hcol] at hp
            rcases hp with hp | ⟨hp, _⟩
            · exact hst p (List.mem_cons_of_mem _ hp)
            · exact hU c p hp
        · have hlen := scanNeighbors_length b color (insert c seen) (neighbors b.Rows c) cs libs
          have hn := neighbors_length_le b.Rows c
          have hcU : c ∈ U \ seen := Finset.mem_sdiff.mpr ⟨hst c (List.mem_cons_self _ _), hc⟩
          have hcard : (U \ insert c seen).card + 1 = (U \ seen).card := by
            have e : U \ insert c seen = (U \ seen).erase c := by
              ext x
              simp only [Finset.mem_sdiff, Finset.mem_insert, Finset.mem_erase]
              tauto
            rw [e, Finset.card_erase_of_mem hcU]
            have : 0 < (U \ seen).card := Finset.card_pos.mpr ⟨c, hcU⟩
            omega
          simp only [List.length_cons] at hpot
          omega

theorem fillRegion_card_le (b : Board) (start : Position) :
    (fillRegion b start).card ≤ b.Rows.toNat * b.Rows.toNat + 1 := by
  unfold fillRegion
  exact le_trans (Finset.card_insert_le _ _) (Nat.add_le_add_right (squareCells_card_le _) 1)

/-- The budget `collectGroup` hands to its loop is never exhausted. -/
theorem collectLoop_budget (b : Board) (color : Int) (start : Position) :
    (collectLoop b color (loopBudget b) [start] ∅ [] ∅).isSome = true := by
  apply collectLoop_terminates b color (fillRegion b start)
  · intro p q hq
    exact Finset.mem_insert_of_mem (neighbors_subset_squareCells hq)
  · intro p hp
    rw [List.mem_singleton] at hp
    subst hp
    exact Finset.mem_insert_self _ _
  · have h := fillRegion_card_le b start
    simp only [List.length_singleton, Finset.sdiff_empty]
    unfold loopBudget
    omega

theorem LoopInv.initial (b : Board) (color : Int) (start : Position) :
    LoopInv b color start [start] ∅ [] ∅ where
  stack_reach := by
    intro p hp
    rw [List.mem_singleton] at hp
    subst hp
    exact Relation.ReflTransGen.refl
  seen_reach := by simp
  closed := by simp
  start_in := Or.inr (List.mem_singleton.mpr rfl)
  group_nodup := List.nodup_nil
  group_seen := by simp
  libs_eq := by simp

/-- What the loop returns once the invariant holds: the reachable cells, each once, and
the empty-reading neighbours of reachable cells. -/
theorem collectLoop_spec (b : Board) (color : Int) (hcol : color ≠ 0) (start : Position) :
    ∀ (budget : Nat) (stack : List Position) (seen : Finset Position) (group : List Position)
      (libs : Finset Position) (G : List Position) (L : Finset Position),
      LoopInv b color start stack seen group libs →
      collectLoop b color budget stack seen group libs = some (G, L) →
      G.Nodup ∧ (∀ p, p ∈ G ↔ Reach b color start p) ∧
        (∀ n, n ∈ L ↔ ∃ p, Reach b color start p ∧ n ∈ neighbors b.Rows p ∧
          valOrZero b n = 0) := by
  intro budget
  have done : ∀ (seen : Finset Position) (group : List Position) (libs : Finset Position),
      LoopInv b color start [] seen group libs →
      group.Nodup ∧ (∀ p, p ∈ group ↔ Reach b color start p) ∧
        (∀ n, n ∈ libs ↔ ∃ p, Reach b color start p ∧ n ∈ neighbors b.Rows p ∧
          valOrZero b n = 0) := by
    intro seen group libs inv
    have hstart : start ∈ seen := by
      rcases inv.start_in with h | h
      · exact h
      · simp at h
    have hall : ∀ p, Reach b color start p → p ∈ seen := by
      intro p hp
      induction hp with
      | refl => exact hstart
      | tail _ hl ihp =>
        rcases inv.closed _ ihp _ hl with h | h
        · exact h
        · simp at h
    refine ⟨inv.group_nodup, ?_, ?_⟩
    · intro p
      rw [inv.group_seen]
      exact ⟨inv.seen_reach p, hall p⟩
    · intro n
      rw [inv.libs_eq]
      constructor
      · rintro ⟨p, hp, h⟩
        exact ⟨p, inv.seen_reach p hp, h⟩
      · rintro ⟨p, hp, h⟩
        exact ⟨p, hall p hp, h⟩
  induction budget with
  | zero =>
    intro stack seen group libs G L inv hrun
    cases stack with
    | nil =>
      simp only [collectLoop, Option.some.injEq, Prod.mk.injEq] at hrun
      obtain ⟨rfl, rfl⟩ := hrun
      exact done _ _ _ inv
    | cons c cs => simp [collectLoop] at hrun
  | succ k ih =>
    intro stack seen group libs G L inv hrun
    cases stack with
    | nil =>
      simp only [collectLoop, Option.some.injEq, Prod.mk.injEq] at hrun
      obtain ⟨rfl, rfl⟩ := hrun
      exact done _ _ _ inv
    | cons c cs =>
      unfold collectLoop at hrun
      by_cases hc : c ∈ seen
      · rw [if_pos hc] at hrun
        refine ih cs seen group libs G L ?_ hrun
        exact
          { stack_reach := fun p hp => inv.stack_reach p (List.mem_cons_of_mem _ hp)
            seen_reach := inv.seen_reach
            closed := by
              intro p hp q hl
              rcases inv.closed p hp q hl with h | h
              · exact Or.inl h
              · rcases List.mem_cons.mp h with e | h
                · subst e
                  exact Or.inl hc
                · exact Or.inr h
            start_in := by
              rcases inv.start_in with h | h
              · exact Or.inl h
              · rcases List.mem_cons.mp h with e | h
                · rw [e]
                  exact Or.inl hc
                · exact Or.inr h
            group_nodup := inv.group_nodup
            group_seen := inv.group_seen
            libs_eq := inv.libs_eq }
      · rw [if_neg hc] at hrun
        simp only at hrun
        refine ih _ _ _ _ G L ?_ hrun
        have hcr : Reach b color start c := inv.stack_reach c (List.mem_cons_self _ _)
        exact
          { stack_reach := by
              intro p hp
              rw [scanNeighbors_stack b color _ hcol] at hp
              rcases hp with hp | ⟨hp, hv, _⟩
              · exact inv.stack_reach p (List.mem_cons_of_mem _ hp)
              · exact Relation.ReflTransGen.tail hcr ⟨hp, hv⟩
            seen_reach := by
              intro p hp
              rcases Finset.mem_insert.mp hp with e | hp
              · rw [e]
                exact hcr
              · exact inv.seen_reach p hp
            closed := by
              intro p hp q hl
              rw [scanNeighbors_stack b color _ hcol]
              by_cases hq : q ∈ insert c seen
              · exact Or.inl hq
              · right
                rcases Finset.mem_insert.mp hp with e | hp
                · subst e
                  exact Or.inr ⟨hl.1, hl.2, hq⟩
                · rcases inv.closed p hp q hl with h | h
                  · exact absurd (Finset.mem_insert_of_mem h) hq
                  · rcases List.mem_cons.mp h with e | h
                    · subst e
                      exact absurd (Finset.mem_insert_self _ _) hq
                    · exact Or.inl h
            start_in := by
              rcases inv.start_in with h | h
              · exact Or.inl (Finset.mem_insert_of_mem h)
              · rcases List.mem_cons.mp h with e | h
                · rw [e]
                  exact Or.inl (Finset.mem_insert_self _ _)
                · right
                  rw [scanNeighbors_stack b color _ hcol]
                  exact Or.inl h
            group_nodup := by
              rw [List.nodup_append]
              refine ⟨inv.group_nodup, List.nodup_singleton c, ?_⟩
              intro x hx hx2
              rw [List.mem_singleton] at hx2
              subst hx2
              exact hc ((inv.group_seen x).mp hx)
            group_seen := by
              intro p
              rw [List.mem_append, List.mem_singleton, Finset.mem_insert, inv.group_seen]
              tauto
            libs_eq := by
              intro n
              rw [scanNeighbors_liberties, inv.libs_eq]
              constructor
              · rintro (⟨p, hp, h⟩ | ⟨h1, h2⟩)
                · exact ⟨p, Finset.mem_insert_of_mem hp, h⟩
                · exact ⟨c, Finset.mem_insert_self _ _, h1, h2⟩
              · rintro ⟨p, hp, h⟩
                rcases Finset.mem_insert.mp hp with e | hp
                · subst e
                  exact Or.inr h
                · exact Or.inl ⟨p, hp, h⟩ } 

/-- `collectGroup` on an occupied in-range start, in the code's own terms: it succeeds, and
returns the cells reachable by `Link`, each once, with the neighbours of those cells that
read as 0. -/
theorem collectGroup_reach {b : Board} {start : Position} (hin : b.InBounds start)
    (hne : valOrZero b start ≠ 0) :
    ∃ G L, collectGroup b start = .ok (G, L) ∧ G.Nodup ∧
      (∀ p, p ∈ G ↔ Reach b (valOrZero b start) start p) ∧
      (∀ n, n ∈ L ↔ ∃ p, Reach b (valOrZero b start) start p ∧ n ∈ neighbors b.Rows p ∧
        valOrZero b n = 0) := by
  unfold collectGroup
  rw [Get_eq_ok_valOrZero hin]
  simp only
  rw [if_neg hne]
  have hsome := collectLoop_budget b (valOrZero b start) start
  cases hrun : collectLoop b (valOrZero b start) (loopBudget b) [start] ∅ [] ∅ with
  | none => rw [hrun] at hsome; simp at hsome
  | some r =>
    obtain ⟨G, L⟩ := r
    exact ⟨G, L, rfl,
      collectLoop_spec b _ hne start _ _ _ _ _ G L (LoopInv.initial b _ start) hrun⟩

theorem collectGroup_empty {b : Board} {start : Position} (hin : b.InBounds start)
    (he : valOrZero b start = 0) :
    collectGroup b start = .error (.noStone start.Row start.Col) := by
  unfold collectGroup
  rw [Get_eq_ok_valOrZero hin]
  simp only
  rw [if_pos he]

theorem collectGroup_outside {b : Board} {start : Position} (hout : ¬ b.InBounds start) :
    collectGroup b start = .error (.indexOutOfBounds start.Row start.Col) := by
  unfold collectGroup
  rw [Board.Get_error hout]

/-- Every cell the fill reaches from a start of colour `color` reads as `color`. -/
theorem Reach.sameColor {b : Board} {color : Int} {start p : Position}
    (h : Reach b color start p) (hs : valOrZero b start = color) : valOrZero b p = color := by
  induction h with
  | refl => exact hs
  | tail _ hl _ => exact hl.2

/-- Every cell the fill reaches lies in the square `[0, Rows)²` when the start does. -/
theorem Reach.inSquare {b : Board} {color : Int} {start p : Position}
    (h : Reach b color start p) (hs : start ∈ squareCells b.Rows.toNat) :
    p ∈ squareCells b.Rows.toNat := by
  induction h with
  | refl => exact hs
  | tail _ hl _ => exact neighbors_subset_squareCells hl.1

/-- `neighbors` is symmetric between cells of the square it is bounded by. -/
theorem neighbors_symm {size : Int} {p q : Position} (h : q ∈ neighbors size p)
    (hp : p ∈ squareCells size.toNat) : p ∈ neighbors size q := by
  rw [mem_neighbors_iff] at h ⊢
  rw [mem_squareCells] at hp
  exact ⟨h.1.symm, by omega⟩

/-! ### Geometric reading on square boards -/

theorem Get_ok_iff {b : Board} {p : Position} {v : Int} :
    b.Get p = .ok v ↔ b.InBounds p ∧ valOrZero b p = v := by
  by_cases h : b.InBounds p
  · rw [Get_eq_ok_valOrZero h]
    constructor
    · intro e
      injection e with e
      exact ⟨h, e⟩
    · rintro ⟨_, e⟩
      rw [e]
  · rw [Board.Get_error h]
    constructor
    · intro e
      cases e
    · rintro ⟨h2, _⟩
      exact absurd h2 h

theorem mem_neighbors_square {b : Board} (hsq : b.Rows = b.Cols) {p q : Position} :
    q ∈ neighbors b.Rows p ↔ Adjacent p q ∧ b.InBounds q := by
  rw [mem_neighbors_iff]
  unfold Board.InBounds
  rw [← hsq]

theorem Link_iff_ColorStep {b : Board} (hsq : b.Rows = b.Cols) {color : Int}
    {p q : Position} : Link b color p q ↔ ColorStep b color p q := by
  unfold Link ColorStep
  rw [mem_neighbors_square hsq, Get_ok_iff]
  constructor
  · rintro ⟨⟨h1, h2⟩, h3⟩
    exact ⟨h1, h2, h3⟩
  · rintro ⟨h1, h2, h3⟩
    exact ⟨⟨h1, h2⟩, h3⟩

theorem Reach_iff_Connected {b : Board} (hsq : b.Rows = b.Cols) {color : Int}
    {start p : Position} :
    Reach b color start p ↔ Connected b color start p := by
  unfold Reach Connected
  have e : Link b color = ColorStep b color := by
    funext x y
    exact propext (Link_iff_ColorStep hsq)
  rw [e]

theorem liberty_iff {b : Board} (hsq : b.Rows = b.Cols) {color : Int}
    {start n : Position} :
    (∃ p, Reach b color start p ∧ n ∈ neighbors b.Rows p ∧ valOrZero b n = 0) ↔
      LibertyOf b color start n := by
  unfold LibertyOf
  constructor
  · rintro ⟨p, hp, hn, hv⟩
    rw [mem_neighbors_square hsq] at hn
    exact ⟨Get_ok_iff.mpr ⟨hn.2, hv⟩, p, (Reach_iff_Connected hsq).mp hp, hn.1⟩
  · rintro ⟨hg, p, hp, hadj⟩
    rw [Get_ok_iff] at hg
    exact ⟨p, (Reach_iff_Connected hsq).mpr hp,
      (mem_neighbors_square hsq).mpr ⟨hadj, hg.1⟩, hg.2⟩

/-- `collectGroup` on a square board, in geometric terms. -/
theorem collectGroup_square {b : Board} (hsq : b.Rows = b.Cols) {start : Position}
    {color : Int} (hget : b.Get start = .ok color) (hc : color ≠ 0) :
    ∃ group libs, collectGroup b start = .ok (group, libs) ∧ group.Nodup ∧
      (∀ q, q ∈ group ↔ Connected b color start q) ∧
      (∀ n, n ∈ libs ↔ LibertyOf b color start n) := by
  obtain ⟨hin, hv⟩ := Get_ok_iff.mp hget
  obtain ⟨G, L, hrun, hnd, hG, hL⟩ := collectGroup_reach hin (by rw [hv]; exact hc)
  rw [hv] at hG hL
  refine ⟨G, L, hrun, hnd, ?_, ?_⟩
  · intro q
    rw [hG, Reach_iff_Connected hsq]
  · intro n
    rw [hL, liberty_iff hsq]

/-! ## The capture loop of `PlayMove` -/

/-- Clearing a list of in-range cells succeeds and zeroes exactly those cells. -/
theorem clearGroup_spec : ∀ (group : List Position) (w : Board),
    (∀ p ∈ group, w.InBounds p) →
    ∃ w2, clearGroup group w = .ok w2 ∧ w2.Rows = w.Rows ∧ w2.Cols = w.Cols ∧
      ∀ q, valOrZero w2 q = if q ∈ group then 0 else valOrZero w q := by
  intro group
  induction group with
  | nil =>
    intro w _
    exact ⟨w, rfl, rfl, rfl, by simp⟩
  | cons p ps ih =>
    intro w hin
    have hp : w.InBounds p := hin p (List.mem_cons_self _ _)
    unfold clearGroup
    rw [SetAt_inBounds hp]
    simp only
    obtain ⟨w2, hrun, hr, hc, hv⟩ := ih (w.writeAt (p.Row * w.Cols + p.Col) 0)
      (fun q hq => hin q (List.mem_cons_of_mem _ hq))
    refine ⟨w2, hrun, hr, hc, ?_⟩
    intro q
    rw [hv, valOrZero_writeAt hp]
    by_cases h1 : q ∈ ps
    · rw [if_pos h1, if_pos (List.mem_cons_of_mem _ h1)]
    · rw [if_neg h1]
      by_cases h2 : q = p
      · rw [if_pos h2, if_pos (by rw [h2]; exact List.mem_cons_self _ _)]
      · rw [if_neg h2, if_neg]
        intro h
        rcases List.mem_cons.mp h with e | h
        · exact h2 e
        · exact h1 h

/-- With opponent colour 0 (a mover that is neither Black nor White) the capture loop
either fails or changes nothing, and it succeeds only if no listed neighbour reads 0. -/
theorem captureLoop_zero : ∀ (ns : List Position) (w : Board) (t : Int) (w2 : Board)
    (t2 : Int), captureLoop 0 ns w t = .ok (w2, t2) →
    w2 = w ∧ t2 = t ∧ ∀ n ∈ ns, valOrZero w n ≠ 0 := by
  intro ns
  induction ns with
  | nil =>
    intro w t w2 t2 h
    simp only [captureLoop, Except.ok.injEq, Prod.mk.injEq] at h
    exact ⟨h.1.symm, h.2.symm, by simp⟩
  | cons n ns ih =>
    intro w t w2 t2 h
    unfold captureLoop at h
    by_cases hv : valOrZero w n = 0
    · rw [if_neg (by simpa using hv)] at h
      by_cases hin : w.InBounds n
      · rw [collectGroup_empty hin hv] at h
        cases h
      · rw [collectGroup_outside hin] at h
        cases h
    · rw [if_pos hv] at h
      obtain ⟨h1, h2, h3⟩ := ih w t w2 t2 h
      refine ⟨h1, h2, ?_⟩
      intro m hm
      rcases List.mem_cons.mp hm with e | hm
      · rw [e]
        exact hv
      · exact h3 m hm

/-- For a real opponent colour the capture loop never fails, keeps the dimensions, never
lowers the running total, and leaves alone every cell that does not read as the opponent's
colour. -/
theorem captureLoop_keeps {opp : Int} (hopp : opp ≠ 0) : ∀ (ns : List Position) (w : Board)
    (t : Int), ∃ w2 t2, captureLoop opp ns w t = .ok (w2, t2) ∧ w2.Rows = w.Rows ∧
      w2.Cols = w.Cols ∧ t ≤ t2 ∧
      ∀ q, valOrZero w q ≠ opp → valOrZero w2 q = valOrZero w q := by
  intro ns
  induction ns with
  | nil =>
    intro w t
    exact ⟨w, t, rfl, rfl, rfl, le_refl _, fun _ _ => rfl⟩
  | cons n ns ih =>
    intro w t
    unfold captureLoop
    by_cases hv : valOrZero w n = opp
    · rw [if_neg (by simpa using hv)]
      have hne : valOrZero w n ≠ 0 := by rw [hv]; exact hopp
      have hin := inBounds_of_valOrZero_ne hne
      obtain ⟨G, L, hrun, _, hG, _⟩ := collectGroup_reach hin hne
      rw [hrun]
      simp only
      by_cases hL : L.card = 0
      · rw [if_pos hL]
        have hGin : ∀ p ∈ G, w.InBounds p := by
          intro p hp
          apply inBounds_of_valOrZero_ne
          rw [((hG p).mp hp).sameColor rfl]
          exact hne
        obtain ⟨w1, hclr, hr1, hc1, hv1⟩ := clearGroup_spec G w hGin
        rw [hclr]
        simp only
        obtain ⟨w2, t2, hrun2, hr2, hc2, ht2, hv2⟩ := ih w1 (t + (G.length : Int))
        refine ⟨w2, t2, hrun2, hr2.trans hr1, hc2.trans hc1, by omega, ?_⟩
        intro q hq
        have hqG : q ∉ G := by
          intro hmem
          apply hq
          rw [((hG q).mp hmem).sameColor rfl, hv]
        have e1 : valOrZero w1 q = valOrZero w q := by rw [hv1, if_neg hqG]
        rw [hv2 q (by rw [e1]; exact hq), e1]
      · rw [if_neg hL]
        exact ih w t
    · rw [if_pos hv]
      exact ih w t

theorem Dead.oppColor {b : Board} {opp : Int} {ns : List Position} {q : Position}
    (h : Dead b opp ns q) : valOrZero b q = opp := by
  obtain ⟨n, _, hn, hr, _⟩ := h
  exact hr.sameColor hn

theorem Dead.link {b : Board} {opp : Int} {ns : List Position} {p q : Position}
    (h : Dead b opp ns p) (hl : Link b opp p q) : Dead b opp ns q := by
  obtain ⟨n, hmem, hn, hr, hno⟩ := h
  exact ⟨n, hmem, hn, Relation.ReflTransGen.tail hr hl, hno⟩

/-- Removing whole opponent fills does not change the fill, nor the existence of a
liberty, of an opponent stone that is still on the board. -/
theorem reach_stable {b1 w : Board} {opp : Int} (hopp : opp ≠ 0) (hr : w.Rows = b1.Rows)
    (D : Position → Prop)
    (hD0 : ∀ q, D q → valOrZero w q = 0)
    (hD1 : ∀ q, ¬ D q → valOrZero w q = valOrZero b1 q)
    (hDc : ∀ q, D q → valOrZero b1 q = opp)
    (hDl : ∀ p q, D p → Link b1 opp p q → D q)
    {n : Position} (hn : valOrZero w n = opp) (hsq : n ∈ squareCells b1.Rows.toNat) :
    (∀ q, Reach w opp n q ↔ Reach b1 opp n q) ∧
      ((∃ p e, Reach w opp n p ∧ e ∈ neighbors w.Rows p ∧ valOrZero w e = 0) ↔
        (∃ p e, Reach b1 opp n p ∧ e ∈ neighbors b1.Rows p ∧ valOrZero b1 e = 0)) := by
  have alive : ∀ q, valOrZero w q = opp → ¬ D q ∧ valOrZero b1 q = opp := by
    intro q hq
    have hnd : ¬ D q := by
      intro hd
      rw [hD0 q hd] at hq
      exact hopp hq.symm
    exact ⟨hnd, by rw [← hD1 q hnd]; exact hq⟩
  have hn1 : valOrZero b1 n = opp := (alive n hn).2
  have fwd : ∀ q, Reach w opp n q → Reach b1 opp n q := by
    intro q hq
    induction hq with
    | refl => exact Relation.ReflTransGen.refl
    | tail _ hl ih =>
      refine Relation.ReflTransGen.tail ih ⟨?_, (alive _ hl.2).2⟩
      rw [← hr]
      exact hl.1
  have bwd : ∀ q, Reach b1 opp n q → Reach w opp n q ∧ ¬ D q := by
    intro q hq
    induction hq with
    | refl => exact ⟨Relation.ReflTransGen.refl, (alive n hn).1⟩
    | @tail p q hp hl ih =>
      have hpsq : p ∈ squareCells b1.Rows.toNat := Reach.inSquare hp hsq
      have hpc : valOrZero b1 p = opp := Reach.sameColor hp hn1
      have hnd : ¬ D q := by
        intro hd
        exact ih.2 (hDl q p hd ⟨neighbors_symm hl.1 hpsq, hpc⟩)
      refine ⟨Relation.ReflTransGen.tail ih.1 ⟨?_, ?_⟩, hnd⟩
      · rw [hr]
        exact hl.1
      · rw [hD1 q hnd]
        exact hl.2
  refine ⟨fun q => ⟨fwd q, fun h => (bwd q h).1⟩, ?_⟩
  constructor
  · rintro ⟨p, e, hp, he, hv⟩
    have hp1 := fwd p hp
    refine ⟨p, e, hp1, by rw [← hr]; exact he, ?_⟩
    have hnd : ¬ D e := by
      intro hd
      have hpsq : p ∈ squareCells b1.Rows.toNat := Reach.inSquare hp1 hsq
      have he1 : e ∈ neighbors b1.Rows p := by rw [← hr]; exact he
      have : D p := hDl e p hd ⟨neighbors_symm he1 hpsq, hp1.sameColor hn1⟩
      exact (bwd p hp1).2 this
    rw [← hD1 e hnd]
    exact hv
  · rintro ⟨p, e, hp, he, hv⟩
    refine ⟨p, e, (bwd p hp).1, by rw [hr]; exact he, ?_⟩
    have hnd : ¬ D e := by
      intro hd
      rw [hDc e hd] at hv
      exact hopp hv
    rw [hD1 e hnd]
    exact hv

theorem CaptureInv.relist {b1 : Board} {opp : Int} {done done2 : List Position} {w : Board}
    {total : Int} (h : ∀ q, Dead b1 opp done2 q ↔ Dead b1 opp done q)
    (inv : CaptureInv b1 opp done w total) : CaptureInv b1 opp done2 w total where
  rows := inv.rows
  cols := inv.cols
  cleared := fun q hq => inv.cleared q ((h q).mp hq)
  kept := fun q hq => inv.kept q (fun hd => hq ((h q).mpr hd))
  count := by
    obtain ⟨S, hS, ht⟩ := inv.count
    exact ⟨S, fun q => (hS q).trans (h q).symm, ht⟩

theorem CaptureInv.start (b1 : Board) (opp : Int) : CaptureInv b1 opp [] b1 0 where
  rows := rfl
  cols := rfl
  cleared := by
    rintro q ⟨n, hn, _⟩
    simp at hn
  kept := fun _ _ => rfl
  count := ⟨∅, by
    intro q
    constructor
    · intro h
      simp at h
    · rintro ⟨n, hn, _⟩
      simp at hn, by simp⟩

theorem Dead_snoc {b : Board} {opp : Int} {done : List Position} {n q : Position} :
    Dead b opp (done ++ [n]) q ↔ Dead b opp done q ∨ DeadFrom b opp n q := by
  unfold Dead
  constructor
  · rintro ⟨m, hm, h⟩
    rcases List.mem_append.mp hm with hm | hm
    · exact Or.inl ⟨m, hm, h⟩
    · rw [List.mem_singleton] at hm
      subst hm
      exact Or.inr h
  · rintro (⟨m, hm, h⟩ | h)
    · exact ⟨m, List.mem_append_left _ hm, h⟩
    · exact ⟨n, List.mem_append_right _ (List.mem_singleton.mpr rfl), h⟩

/-- The capture loop succeeds and maintains its invariant. -/
theorem captureLoop_inv {b1 : Board} {opp : Int} (hopp : opp ≠ 0) :
    ∀ (ns done : List Position) (w : Board) (total : Int),
      (∀ n ∈ ns, n ∈ squareCells b1.Rows.toNat) → CaptureInv b1 opp done w total →
      ∃ w2 total2, captureLoop opp ns w total = .ok (w2, total2) ∧
        CaptureInv b1 opp (done ++ ns) w2 total2 := by
  intro ns
  induction ns with
  | nil =>
    intro done w total _ inv
    exact ⟨w, total, rfl, by rw [List.append_nil]; exact inv⟩
  | cons n ns ih =>
    intro done w total hns inv
    have hnsq := hns n (List.mem_cons_self _ _)
    have hrest : ∀ m ∈ ns, m ∈ squareCells b1.Rows.toNat :=
      fun m hm => hns m (List.mem_cons_of_mem _ hm)
    have happ : done ++ n :: ns = (done ++ [n]) ++ ns := by simp
    rw [happ]
    unfold captureLoop
    by_cases hv : valOrZero w n = opp
    · rw [if_neg (by simpa using hv)]
      have hne : valOrZero w n ≠ 0 := by rw [hv]; exact hopp
      have hin := inBounds_of_valOrZero_ne hne
      obtain ⟨G, L, hrun, hnd, hG, hL⟩ := collectGroup_reach hin hne
      rw [hv] at hG hL
      obtain ⟨hst1, hst2⟩ := reach_stable hopp inv.rows (Dead b1 opp done) inv.cleared inv.kept
        (fun q h => h.oppColor) (fun p q h hl => h.link hl) hv hnsq
      have hnD : ¬ Dead b1 opp done n := by
        intro hd
        rw [inv.cleared n hd] at hv
        exact hopp hv.symm
      have hn1 : valOrZero b1 n = opp := by rw [← inv.kept n hnD]; exact hv
      rw [hrun]
      simp only
      by_cases hcard : L.card = 0
      · rw [if_pos hcard]
        have hLe : L = ∅ := Finset.card_eq_zero.mp hcard
        have hno : NoLib b1 opp n := by
          intro p e hp he hz
          have : ∃ p e, Reach w opp n p ∧ e ∈ neighbors w.Rows p ∧ valOrZero w e = 0 :=
            hst2.mpr ⟨p, e, hp, he, hz⟩
          obtain ⟨p2, e2, h1, h2, h3⟩ := this
          have : e2 ∈ L := (hL e2).mpr ⟨p2, h1, h2, h3⟩
          rw [hLe] at this
          simp at this
        have hGin : ∀ p ∈ G, w.InBounds p := by
          intro p hp
          apply inBounds_of_valOrZero_ne
          rw [((hG p).mp hp).sameColor hv]
          exact hopp
        obtain ⟨w1, hclr, hr1, hc1, hv1⟩ := clearGroup_spec G w hGin
        rw [hclr]
        simp only
        have hGiff : ∀ q, q ∈ G ↔ DeadFrom b1 opp n q := by
          intro q
          rw [hG, hst1]
          exact ⟨fun h => ⟨hn1, h, hno⟩, fun h => h.2.1⟩
        apply ih (done ++ [n]) w1 (total + (G.length : Int)) hrest
        exact
          { rows := hr1.trans inv.rows
            cols := hc1.trans inv.cols
            cleared := by
              intro q hq
              rw [hv1]
              by_cases hqG : q ∈ G
              · rw [if_pos hqG]
              · rw [if_neg hqG]
                rcases Dead_snoc.mp hq with h | h
                · exact inv.cleared q h
                · exact absurd ((hGiff q).mpr h) hqG
            kept := by
              intro q hq
              have h1 : ¬ Dead b1 opp done q := fun h => hq (Dead_snoc.mpr (Or.inl h))
              have h2 : q ∉ G := fun h => hq (Dead_snoc.mpr (Or.inr ((hGiff q).mp h)))
              rw [hv1, if_neg h2]
              exact inv.kept q h1
            count := by
              obtain ⟨S, hS, ht⟩ := inv.count
              refine ⟨S ∪ G.toFinset, ?_, ?_⟩
              · intro q
                rw [Finset.mem_union, List.mem_toFinset, hS, hGiff, Dead_snoc]
              · have hdisj : Disjoint S G.toFinset := by
                  rw [Finset.disjoint_left]
                  intro q hq1 hq2
                  rw [List.mem_toFinset] at hq2
                  have h0 := inv.cleared q ((hS q).mp hq1)
                  have h1 := ((hG q).mp hq2).sameColor hv
                  rw [h0] at h1
                  exact hopp h1.symm
                rw [Finset.card_union_of_disjoint hdisj, List.toFinset_card_of_nodup hnd, ht]
                push_cast
                rfl }
      · rw [if_neg hcard]
        apply ih (done ++ [n]) w total hrest
        apply CaptureInv.relist _ inv
        intro q
        rw [Dead_snoc]
        constructor
        · rintro (h | ⟨_, _, hno⟩)
          · exact h
          · exfalso
            obtain ⟨e, he⟩ := Finset.card_pos.mp (Nat.pos_of_ne_zero hcard)
            obtain ⟨p, hp, hen, hez⟩ := (hL e).mp he
            obtain ⟨p2, e2, h1, h2, h3⟩ := hst2.mp ⟨p, e, hp, hen, hez⟩
            exact hno p2 e2 h1 h2 h3
        · exact Or.inl
    · rw [if_pos hv]
      apply ih (done ++ [n]) w total hrest
      apply CaptureInv.relist _ inv
      intro q
      rw [Dead_snoc]
      constructor
      · rintro (h | ⟨hn1, hr, hno⟩)
        · exact h
        · have hD : Dead b1 opp done n := by
            by_contra hnD
            rw [inv.kept n hnD] at hv
            exact hv hn1
          obtain ⟨m, hm, hm1, hmr, hmno⟩ := hD
          exact ⟨m, hm, hm1, Relation.ReflTransGen.trans hmr hr, hmno⟩
      · exact Or.inl

/-! ## `PlayMove` as a whole -/

/-- What an accepted `PlayMove` went through. -/
theorem PlayMove_accepted {g : Game} {pos : Position} {r : MoveResult}
    (h : (g.PlayMove pos).2 = .ok r) :
    g.ToPlay ≠ None ∧
    (0 ≤ pos.Row ∧ pos.Row < g.Size ∧ 0 ≤ pos.Col ∧ pos.Col < g.Size) ∧
    ∃ b1 w total grp libs,
      g.Board.Set pos g.ToPlay = .ok b1 ∧
      captureLoop (other g.ToPlay) (neighbors g.Size pos) b1 0 = .ok (w, total) ∧
      collectGroup w pos = .ok (grp, libs) ∧ libs.card ≠ 0 ∧
      serialize w (other g.ToPlay) ∉ g.history ∧
      r = ⟨total⟩ ∧ (g.PlayMove pos).1 = committed g w total := by
  unfold Game.PlayMove at h ⊢
  rw [Board.Clone_eq] at h ⊢
  by_cases h1 : g.ToPlay = None
  · rw [if_pos h1] at h
    cases h
  rw [if_neg h1] at h ⊢
  simp only at h ⊢
  by_cases h2 : pos.Row < 0 ∨ pos.Row ≥ g.Size ∨ pos.Col < 0 ∨ pos.Col ≥ g.Size
  · rw [if_pos h2] at h
    cases h
  rw [if_neg h2] at h ⊢
  refine ⟨h1, by omega, ?_⟩
  cases h3 : g.Board.Set pos g.ToPlay with
  | error e => rw [h3] at h; simp at h
  | ok b1 =>
    rw [h3] at h
    simp only at h
    cases h4 : captureLoop (other g.ToPlay) (neighbors g.Size pos) b1 0 with
    | error e => rw [h4] at h; simp at h
    | ok wt =>
      obtain ⟨w, total⟩ := wt
      rw [h4] at h
      simp only at h
      cases h5 : collectGroup w pos with
      | error e => rw [h5] at h; simp at h
      | ok gl =>
        obtain ⟨grp, libs⟩ := gl
        rw [h5] at h
        simp only at h
        by_cases h6 : libs.card = 0
        · rw [if_pos h6] at h
          cases h
        rw [if_neg h6] at h
        by_cases h7 : serialize w (other g.ToPlay) ∈ g.history
        · rw [if_pos h7] at h
          cases h
        rw [if_neg h7] at h
        simp only [Except.ok.injEq] at h
        refine ⟨b1, w, total, grp, libs, rfl, h4, h5, h6, h7, h.symm, ?_⟩
        simp only [h4, h5, if_neg h6, if_neg h7]
        rfl

/-- A rejected `PlayMove` hands back the session it was given. -/
theorem PlayMove_rejected {g : Game} {pos : Position} {e : Err}
    (h : (g.PlayMove pos).2 = .error e) : (g.PlayMove pos).1 = g := by
  unfold Game.PlayMove at h ⊢
  split_ifs at h ⊢ with h1 h2
  · rfl
  · rfl
  · simp only at h ⊢
    split at h
    · rfl
    · split at h
      · rfl
      · split at h
        · rfl
        · split_ifs at h ⊢
          · rfl
          · rfl

theorem other_ne_self {m : Int} (h : m ≠ None) : other m ≠ m := by
  have h0 : m ≠ 0 := h
  unfold other
  by_cases h1 : m = Black
  · rw [if_pos h1, h1]
    decide
  · rw [if_neg h1]
    by_cases h2 : m = White
    · rw [if_pos h2, h2]
      decide
    · rw [if_neg h2]
      exact fun e => h0 e.symm

theorem placed_inBounds {b : Board} {pos : Position} (hin : b.InBounds pos) (m : Int) :
    placed b pos m = b.writeAt (pos.Row * b.Cols + pos.Col) m := by
  unfold placed
  rw [SetAt_inBounds hin]

theorem placed_Rows (b : Board) (pos : Position) (m : Int) : (placed b pos m).Rows = b.Rows := by
  unfold placed Board.SetAt
  split <;> rename_i h
  · split at h
    · cases h
    · injection h with h
      rw [← h]
      rfl
  · rfl

theorem placed_Cols (b : Board) (pos : Position) (m : Int) : (placed b pos m).Cols = b.Cols := by
  unfold placed Board.SetAt
  split <;> rename_i h
  · split at h
    · cases h
    · injection h with h
      rw [← h]
      rfl
  · rfl

theorem placed_valOrZero {b : Board} {pos : Position} (hin : b.InBounds pos) (m : Int)
    (q : Position) : valOrZero (placed b pos m) q = if q = pos then m else valOrZero b q := by
  rw [placed_inBounds hin, valOrZero_writeAt hin]

/-- Reading the board with a stone placed. -/
theorem placed_Get {b : Board} {pos : Position} (hin : b.InBounds pos) (m : Int)
    (q : Position) : (placed b pos m).Get q = if q = pos then .ok m else b.Get q := by
  have hdim : ∀ x, (placed b pos m).InBounds x ↔ b.InBounds x := by
    intro x
    unfold Board.InBounds
    rw [placed_Rows, placed_Cols]
  by_cases hq : b.InBounds q
  · rw [Get_eq_ok_valOrZero ((hdim q).mpr hq), placed_valOrZero hin, Get_eq_ok_valOrZero hq]
    split_ifs <;> rfl
  · rw [Board.Get_error (fun h => hq ((hdim q).mp h)), Board.Get_error hq]
    have : q ≠ pos := by
      intro e
      rw [e] at hq
      exact hq hin
    rw [if_neg this]

theorem Set_eq_placed {b : Board} {pos : Position} (hin : b.InBounds pos)
    (he : b.Get pos = .ok 0) (m : Int) : b.Set pos m = .ok (placed b pos m) := by
  rw [placed_inBounds hin]
  exact Set_inBounds_empty hin (Get_ok_iff.mp he).2 m

theorem Connected.inBounds {b : Board} {color : Int} {n q : Position}
    (h : Connected b color n q) (hn : b.InBounds n) : b.InBounds q := by
  induction h with
  | refl => exact hn
  | tail _ hl _ => exact (Get_ok_iff.mp hl.2).1

/-- On a square board the code's notion of a dead cell is the geometric one. -/
theorem Dead_iff_CapturedCell {b1 : Board} (hsq : b1.Rows = b1.Cols) {opp : Int}
    {pos q : Position} :
    Dead b1 opp (neighbors b1.Rows pos) q ↔ CapturedCell b1 opp pos q := by
  unfold Dead DeadFrom CapturedCell
  constructor
  · rintro ⟨n, hn, hv, hr, hno⟩
    rw [mem_neighbors_square hsq] at hn
    refine ⟨n, hn.1, Get_ok_iff.mpr ⟨hn.2, hv⟩, (Reach_iff_Connected hsq).mp hr, ?_⟩
    rintro ⟨e, he⟩
    obtain ⟨p, hp, hen, hez⟩ := (liberty_iff hsq).mpr he
    exact hno p e hp hen hez
  · rintro ⟨n, hadj, hg, hc, hno⟩
    obtain ⟨hin, hv⟩ := Get_ok_iff.mp hg
    refine ⟨n, (mem_neighbors_square hsq).mpr ⟨hadj, hin⟩, hv,
      (Reach_iff_Connected hsq).mpr hc, ?_⟩
    intro p e hp hen hez
    exact hno ⟨e, (liberty_iff hsq).mp ⟨p, hp, hen, hez⟩⟩

/-- With opponent colour 0 the capture loop succeeds when no listed neighbour reads 0. -/
theorem captureLoop_zero_ok : ∀ (ns : List Position) (w : Board) (t : Int),
    (∀ n ∈ ns, valOrZero w n ≠ 0) → captureLoop 0 ns w t = .ok (w, t) := by
  intro ns
  induction ns with
  | nil =>
    intro w t _
    rfl
  | cons n ns ih =>
    intro w t h
    unfold captureLoop
    rw [if_pos (h n (List.mem_cons_self _ _))]
    exact ih w t (fun m hm => h m (List.mem_cons_of_mem _ hm))

/-- With opponent colour 0 the capture loop fails when a listed neighbour reads 0. -/
theorem captureLoop_zero_error {ns : List Position} {w : Board} {t : Int} {n : Position}
    (hn : n ∈ ns) (hv : valOrZero w n = 0) :
    ∃ r c, captureLoop 0 ns w t = .error (.noStone r c) ∨
      captureLoop 0 ns w t = .error (.indexOutOfBounds r c) := by
  induction ns with
  | nil => simp at hn
  | cons x xs ih =>
    unfold captureLoop
    by_cases hx : valOrZero w x = 0
    · rw [if_neg (by simpa using hx)]
      by_cases hin : w.InBounds x
      · rw [collectGroup_empty hin hx]
        exact ⟨_, _, Or.inl rfl⟩
      · rw [collectGroup_outside hin]
        exact ⟨_, _, Or.inr rfl⟩
    · rw [if_pos hx]
      rcases List.mem_cons.mp hn with e | hm
      · rw [e] at hv
        exact absurd hv hx
      · exact ih hm

/-- Whatever the opponent colour, a capture loop that succeeded on the neighbours of `pos`
(taken with the board's row count) satisfies the loop invariant at its end. -/
theorem captureLoop_result {b1 : Board} {opp : Int} {pos : Position} {w : Board}
    {total : Int} (h : captureLoop opp (neighbors b1.Rows pos) b1 0 = .ok (w, total)) :
    CaptureInv b1 opp (neighbors b1.Rows pos) w total := by
  by_cases hopp : opp = 0
  · subst hopp
    obtain ⟨h1, h2, h3⟩ := captureLoop_zero _ _ _ _ _ h
    subst h1; subst h2
    have hnone : ∀ q, ¬ Dead w 0 (neighbors w.Rows pos) q := by
      rintro q ⟨n, hn, hv, _⟩
      exact h3 n hn hv
    exact
      { rows := rfl
        cols := rfl
        cleared := fun q hq => absurd hq (hnone q)
        kept := fun _ _ => rfl
        count := ⟨∅, fun q => ⟨fun hq => by simp at hq, fun hq => absurd hq (hnone q)⟩,
          by simp⟩ }
  · obtain ⟨w2, t2, hrun, inv⟩ := captureLoop_inv hopp (neighbors b1.Rows pos) [] b1 0
      (fun n hn => neighbors_subset_squareCells hn) (CaptureInv.start b1 opp)
    rw [h] at hrun
    injection hrun with hrun
    injection hrun with e1 e2
    subst e1; subst e2
    simpa using inv

/-- What a successful `Set` says about its arguments. -/
theorem Set_ok_inv {b b1 : Board} {pos : Position} {m : Int} (h : b.Set pos m = .ok b1) :
    b.InBounds pos ∧ b.Get pos = .ok 0 ∧ b1 = placed b pos m := by
  by_cases hin : b.InBounds pos
  · by_cases hv : valOrZero b pos = 0
    · rw [Set_eq_placed hin (Get_ok_iff.mpr ⟨hin, hv⟩)] at h
      injection h with h
      exact ⟨hin, Get_ok_iff.mpr ⟨hin, hv⟩, h.symm⟩
    · rw [Set_inBounds_occupied hin hv] at h
      cases h
  · unfold Board.Set at h
    rw [Board.index_error hin] at h
    cases h

/-- From the loop invariant to the geometric description of the scratch board. -/
theorem afterCapture_of_inv {b : Board} (hsq : b.Rows = b.Cols) {pos : Position}
    (hin : b.InBounds pos) {m : Int} (hm : m ≠ None) {w : Board} {total : Int}
    (inv : CaptureInv (placed b pos m) (other m) (neighbors b.Rows pos) w total) :
    AfterCapture b pos m w ∧
      ∃ S : Finset Position,
        (∀ q, q ∈ S ↔ CapturedCell (placed b pos m) (other m) pos q) ∧
          total = (S.card : Int) := by
  have hsq1 : (placed b pos m).Rows = (placed b pos m).Cols := by
    rw [placed_Rows, placed_Cols]
    exact hsq
  have hD : ∀ q, Dead (placed b pos m) (other m) (neighbors b.Rows pos) q ↔
      CapturedCell (placed b pos m) (other m) pos q := by
    intro q
    have := @Dead_iff_CapturedCell (placed b pos m) hsq1 (other m) pos q
    rw [placed_Rows] at this
    exact this
  have hwin : ∀ q, w.InBounds q ↔ b.InBounds q := by
    intro q
    unfold Board.InBounds
    rw [inv.rows, inv.cols, placed_Rows, placed_Cols]
  have hpos1 : valOrZero (placed b pos m) pos = m := by
    rw [placed_valOrZero hin, if_pos rfl]
  have hnotpos : ¬ Dead (placed b pos m) (other m) (neighbors b.Rows pos) pos := by
    intro hd
    have := hd.oppColor
    rw [hpos1] at this
    exact other_ne_self hm this.symm
  refine ⟨⟨by rw [inv.rows, placed_Rows], by rw [inv.cols, placed_Cols], ?_, ?_, ?_⟩, ?_⟩
  · rw [Get_ok_iff]
    exact ⟨(hwin pos).mpr hin, by rw [inv.kept pos hnotpos, hpos1]⟩
  · intro q hq
    have hqin : b.InBounds q := by
      obtain ⟨n, _, hg, hc, _⟩ := hq
      have h1 := hc.inBounds (Get_ok_iff.mp hg).1
      unfold Board.InBounds at h1 ⊢
      rw [placed_Rows, placed_Cols] at h1
      exact h1
    rw [Get_ok_iff]
    exact ⟨(hwin q).mpr hqin, inv.cleared q ((hD q).mpr hq)⟩
  · intro q hne hq
    have hk := inv.kept q (fun hd => hq ((hD q).mp hd))
    rw [placed_valOrZero hin, if_neg hne] at hk
    by_cases hqin : b.InBounds q
    · rw [Get_eq_ok_valOrZero ((hwin q).mpr hqin), Get_eq_ok_valOrZero hqin, hk]
    · rw [Board.Get_error hqin, Board.Get_error (fun h => hqin ((hwin q).mp h))]
  · obtain ⟨S, hS, ht⟩ := inv.count
    exact ⟨S, fun q => (hS q).trans (hD q), ht⟩

/-- Two boards that both fit the description of the post-capture board read alike. -/
theorem AfterCapture.same_reading {b : Board} {pos : Position} {m : Int} {w w2 : Board}
    (h : AfterCapture b pos m w) (h2 : AfterCapture b pos m w2) (q : Position) :
    w.Get q = w2.Get q := by
  obtain ⟨_, _, a3, a4, a5⟩ := h
  obtain ⟨_, _, c3, c4, c5⟩ := h2
  by_cases hq : q = pos
  · rw [hq, a3, c3]
  · by_cases hc : CapturedCell (placed b pos m) (other m) pos q
    · rw [a4 q hc, c4 q hc]
    · rw [a5 q hq hc, c5 q hq hc]

theorem Connected.sameReading {a b : Board} (h : ∀ q, a.Get q = b.Get q) {color : Int}
    {s p : Position} (hc : Connected a color s p) : Connected b color s p := by
  induction hc with
  | refl => exact Relation.ReflTransGen.refl
  | tail _ hl ih =>
    refine Relation.ReflTransGen.tail ih ⟨hl.1, ?_⟩
    rw [← h]
    exact hl.2

theorem LibertyOf.transfer {a b : Board} (h : ∀ q, a.Get q = b.Get q) {color : Int}
    {s e : Position} (hl : LibertyOf a color s e) : LibertyOf b color s e := by
  obtain ⟨h1, p, hp, hadj⟩ := hl
  exact ⟨by rw [← h]; exact h1, p, hp.sameReading h, hadj⟩

/-- The capture loop of an in-range placement on a square session either succeeds or the
opponent colour is 0 and a neighbour of `pos` is empty. -/
theorem captureLoop_square_cases (b1 : Board) (opp : Int) (ns : List Position) :
    (∃ w total, captureLoop opp ns b1 0 = .ok (w, total)) ∨
      (opp = 0 ∧ (∃ n ∈ ns, valOrZero b1 n = 0) ∧
        ∃ r c, captureLoop opp ns b1 0 = .error (.noStone r c) ∨
          captureLoop opp ns b1 0 = .error (.indexOutOfBounds r c)) := by
  by_cases hopp : opp = 0
  · subst hopp
    by_cases hn : ∃ n ∈ ns, valOrZero b1 n = 0
    · obtain ⟨n, hmem, hv⟩ := hn
      exact Or.inr ⟨rfl, ⟨n, hmem, hv⟩, captureLoop_zero_error hmem hv⟩
    · left
      refine ⟨b1, 0, captureLoop_zero_ok ns b1 0 ?_⟩
      intro n hmem hv
      exact hn ⟨n, hmem, hv⟩
  · obtain ⟨w, t, h, _⟩ := captureLoop_keeps hopp ns b1 0
    exact Or.inl ⟨w, t, h⟩

/-- The scratch board after a successful capture loop still holds the mover's stone at
`pos`, whatever the session's `Size`. -/
theorem captureLoop_keeps_stone {b : Board} {pos : Position} (hin : b.InBounds pos)
    {m : Int} (hm : m ≠ None) {ns : List Position} {w : Board} {total : Int}
    (h : captureLoop (other m) ns (placed b pos m) 0 = .ok (w, total)) :
    w.Get pos = .ok m ∧ 0 ≤ total := by
  have hpos1 : valOrZero (placed b pos m) pos = m := by
    rw [placed_valOrZero hin, if_pos rfl]
  have hin1 : (placed b pos m).InBounds pos := by
    unfold Board.InBounds
    rw [placed_Rows, placed_Cols]
    exact hin
  by_cases hopp : other m = 0
  · rw [hopp] at h
    obtain ⟨h1, h2, _⟩ := captureLoop_zero _ _ _ _ _ h
    rw [h1, h2]
    exact ⟨Get_ok_iff.mpr ⟨hin1, hpos1⟩, le_refl _⟩
  · obtain ⟨w2, t2, hrun, hr, hc, ht, hv⟩ := captureLoop_keeps hopp ns (placed b pos m) 0
    rw [h] at hrun
    injection hrun with hrun
    injection hrun with e1 e2
    subst e1; subst e2
    refine ⟨Get_ok_iff.mpr ⟨?_, ?_⟩, ht⟩
    · unfold Board.InBounds at hin1 ⊢
      rw [hr, hc]
      exact hin1
    · rw [hv pos (by rw [hpos1]; exact (other_ne_self hm).symm), hpos1]

/-- The mover's tally in the committed session: the `int` sum when stones were captured,
the old tally otherwise. -/
theorem committed_Captures_wrap (g : Game) (w : Board) (total : Int) :
    (committed g w total).Captures g.ToPlay =
      if 0 < total then wrapInt (g.Captures g.ToPlay + total) else g.Captures g.ToPlay := by
  unfold committed
  simp only
  by_cases ht : total > 0
  · rw [if_pos ht, if_pos ht]
    simp
  · rw [if_neg ht, if_neg ht]

/-- The mover's tally in the committed session when the sum stays within `int`. -/
theorem committed_Captures_mover (g : Game) (w : Board) {total : Int} (h : 0 ≤ total)
    (hlo : minInt ≤ g.Captures g.ToPlay) (hhi : g.Captures g.ToPlay + total ≤ maxInt) :
    (committed g w total).Captures g.ToPlay = g.Captures g.ToPlay + total := by
  rw [committed_Captures_wrap]
  by_cases ht : 0 < total
  · rw [if_pos ht]
    exact wrapInt_eq (by omega) hhi
  · rw [if_neg ht]
    omega

theorem committed_Captures_other (g : Game) (w : Board) (total : Int) {c : Color}
    (hc : c ≠ g.ToPlay) : (committed g w total).Captures c = g.Captures c := by
  unfold committed
  simp only
  by_cases ht : total > 0
  · rw [if_pos ht]
    simp [hc]
  · rw [if_neg ht]

/-- The run of `PlayMove` on an active square session at an in-range empty cell, up to the
suicide check: either the capture loop failed (only possible for a mover that is neither
Black nor White, next to an empty cell), or the scratch board is the post-capture board
and the result is decided by the liberty set of the placed stone. -/
theorem PlayMove_square_run {g : Game} {pos : Position} (hact : g.ToPlay ≠ None)
    (hsq : g.Board.Rows = g.Size ∧ g.Board.Cols = g.Size) (hin : g.Board.InBounds pos)
    (hemp : g.Board.Get pos = .ok 0) :
    (∃ w total grp libs,
        captureLoop (other g.ToPlay) (neighbors g.Size pos) (placed g.Board pos g.ToPlay) 0 =
          .ok (w, total) ∧
        AfterCapture g.Board pos g.ToPlay w ∧
        collectGroup w pos = .ok (grp, libs) ∧
        (∀ e, e ∈ libs ↔ LibertyOf w g.ToPlay pos e) ∧
        ((g.PlayMove pos).2 = .error .suicide ↔ libs.card = 0)) ∨
      (other g.ToPlay = 0 ∧ (∃ n ∈ neighbors g.Size pos,
          valOrZero (placed g.Board pos g.ToPlay) n = 0) ∧
        (g.PlayMove pos).2 ≠ .error .suicide) := by
  have hrange : ¬ (pos.Row < 0 ∨ pos.Row ≥ g.Size ∨ pos.Col < 0 ∨ pos.Col ≥ g.Size) := by
    unfold Board.InBounds at hin
    rw [hsq.1, hsq.2] at hin
    omega
  have hsqb : g.Board.Rows = g.Board.Cols := hsq.1.trans hsq.2.symm
  have hunf : (g.PlayMove pos).2 =
      (match captureLoop (other g.ToPlay) (neighbors g.Size pos)
          (placed g.Board pos g.ToPlay) 0 with
        | .error e => (g, Except.error e)
        | .ok (working, totalCaptured) =>
          match collectGroup working pos with
          | .error e => (g, .error e)
          | .ok (_, libs) =>
            if libs.card = 0 then (g, .error .suicide)
            else if serialize working (other g.ToPlay) ∈ g.history then (g, .error .superko)
            else (committed g working totalCaptured, .ok (MoveResult.mk totalCaptured))).2 := by
    unfold Game.PlayMove
    rw [if_neg hact, if_neg hrange, Board.Clone_eq, Set_eq_placed hin hemp]
    rfl
  rcases captureLoop_square_cases (placed g.Board pos g.ToPlay) (other g.ToPlay)
      (neighbors g.Size pos) with ⟨w, total, hloop⟩ | ⟨hopp, hn, r, c, herr⟩
  · left
    have hloop2 := hloop
    rw [← hsq.1, ← placed_Rows g.Board pos g.ToPlay] at hloop2
    have inv := captureLoop_result hloop2
    rw [placed_Rows] at inv
    obtain ⟨hafter, _⟩ := afterCapture_of_inv hsqb hin hact inv
    have hwsq : w.Rows = w.Cols := by
      rw [hafter.1, hafter.2.1]
      exact hsqb
    obtain ⟨grp, libs, hcg, _, _, hlibs⟩ :=
      collectGroup_square hwsq hafter.2.2.1 (show g.ToPlay ≠ 0 from hact)
    refine ⟨w, total, grp, libs, hloop, hafter, hcg, hlibs, ?_⟩
    rw [hunf, hloop]
    simp only
    rw [hcg]
    simp only
    by_cases hc : libs.card = 0
    · rw [if_pos hc]
      simp [hc]
    · rw [if_neg hc]
      by_cases hh : serialize w (other g.ToPlay) ∈ g.history
      · rw [if_pos hh]
        simp [hc]
      · rw [if_neg hh]
        simp [hc]
  · right
    refine ⟨hopp, hn, ?_⟩
    rw [hunf]
    rcases herr with herr | herr <;> rw [herr] <;> simp

/-- **C1** (atomicity of rejection). Whenever `PlayMove` returns an error, whichever one,
the session it leaves behind is the session it was given: the board, the side to move, the
capture tallies, the consecutive-pass counter, the move counter and the history set are all
unchanged, also when captures had been made on the scratch board before a later check
failed. -/
theorem PlayMove_rejection_atomic (g : Game) (pos : Position) (e : Err)
    (h : (g.PlayMove pos).2 = .error e) :
    (g.PlayMove pos).1 = g ∧
      (g.PlayMove pos).1.Board = g.Board ∧
      (g.PlayMove pos).1.ToPlay = g.ToPlay ∧
      (g.PlayMove pos).1.Captures = g.Captures ∧
      (g.PlayMove pos).1.ConsecutivePasses = g.ConsecutivePasses ∧
      (g.PlayMove pos).1.moveNumber = g.moveNumber ∧
      (g.PlayMove pos).1.history = g.history := by
  have hs := PlayMove_rejected h
  rw [hs]
  exact ⟨rfl, rfl, rfl, rfl, rfl, rfl, rfl⟩

/-- **C2** (capture correctness). On a session whose board is `Size × Size`, an accepted
`PlayMove pos` by the mover `m = g.ToPlay` commits the previous board with `pos` set to `m`
and with exactly the cells cleared that belong to an opponent group orthogonally adjacent to
`pos` without a liberty once `pos` is occupied, every other cell unchanged
(`AfterCapture`); the returned `Captured` is the number of those cells, each counted once;
and the mover's tally becomes the `int` sum of the old tally and that count (it is left as
it was when nothing was captured), which is the old tally plus the count whenever that sum
does not exceed the largest `int`. -/
theorem PlayMove_capture_correct (g : Game) (pos : Position) (r : MoveResult)
    (hsq : g.Board.Rows = g.Size ∧ g.Board.Cols = g.Size)
    (hacc : (g.PlayMove pos).2 = .ok r) :
    AfterCapture g.Board pos g.ToPlay (g.PlayMove pos).1.Board ∧
      (∃ S : Finset Position,
        (∀ q, q ∈ S ↔
          CapturedCell (placed g.Board pos g.ToPlay) (other g.ToPlay) pos q) ∧
        r.Captured = (S.card : Int)) ∧
      (g.PlayMove pos).1.Captures g.ToPlay =
        (if 0 < r.Captured then wrapInt (g.Captures g.ToPlay + r.Captured)
          else g.Captures g.ToPlay) ∧
      (minInt ≤ g.Captures g.ToPlay → g.Captures g.ToPlay + r.Captured ≤ maxInt →
        (g.PlayMove pos).1.Captures g.ToPlay = g.Captures g.ToPlay + r.Captured) := by
  obtain ⟨hact, _, b1, w, total, grp, libs, hset, hloop, _, _, _, hr, hstate⟩ :=
    PlayMove_accepted hacc
  obtain ⟨hin, _, hb1⟩ := Set_ok_inv hset
  subst hb1
  have hsqb : g.Board.Rows = g.Board.Cols := hsq.1.trans hsq.2.symm
  rw [← hsq.1, ← placed_Rows g.Board pos g.ToPlay] at hloop
  have inv := captureLoop_result hloop
  rw [placed_Rows] at inv
  obtain ⟨hafter, S, hS, ht⟩ := afterCapture_of_inv hsqb hin hact inv
  rw [hstate, hr]
  refine ⟨hafter, ⟨S, hS, ht⟩, committed_Captures_wrap g w total, ?_⟩
  intro hlo hhi
  exact committed_Captures_mover g w (by rw [ht]; exact Int.natCast_nonneg _) hlo hhi

/-- **C3** (suicide rule). On an active session whose board is `Size × Size`, for an
in-range empty `pos`: a board as described by `AfterCapture` (stone placed, liberty-free
adjacent opponent groups removed) exists, and `PlayMove pos` is rejected with the suicide
error exactly when on that board the group of `pos` has no orthogonally adjacent empty
cell. -/
theorem PlayMove_suicide_iff (g : Game) (pos : Position) (hact : g.ToPlay ≠ None)
    (hsq : g.Board.Rows = g.Size ∧ g.Board.Cols = g.Size) (hin : g.Board.InBounds pos)
    (hemp : g.Board.Get pos = .ok 0) :
    (∃ w, AfterCapture g.Board pos g.ToPlay w) ∧
      ∀ w, AfterCapture g.Board pos g.ToPlay w →
        ((g.PlayMove pos).2 = .error .suicide ↔ ¬ ∃ e, LibertyOf w g.ToPlay pos e) := by
  have hsqb : g.Board.Rows = g.Board.Cols := hsq.1.trans hsq.2.symm
  rcases PlayMove_square_run hact hsq hin hemp with
    ⟨wc, total, grp, libs, _, hafter, _, hlibs, hiff⟩ | ⟨hopp, ⟨n, hn, hv⟩, hnot⟩
  · refine ⟨⟨wc, hafter⟩, ?_⟩
    intro w hw
    rw [hiff, Finset.card_eq_zero]
    constructor
    · rintro hempty ⟨e, he⟩
      have : e ∈ libs := (hlibs e).mpr (he.transfer (hw.same_reading hafter))
      rw [hempty] at this
      simp at this
    · intro hno
      apply Finset.eq_empty_of_forall_not_mem
      intro e he
      exact hno ⟨e, ((hlibs e).mp he).transfer (hafter.same_reading hw)⟩
  · -- opponent colour 0 and an empty neighbour: no opponent group is removed, the
    -- placed stone has that neighbour as a liberty, and the call fails otherwise
    have hpos1 : valOrZero (placed g.Board pos g.ToPlay) pos = g.ToPlay := by
      rw [placed_valOrZero hin, if_pos rfl]
    have hnpos : n ≠ pos := by
      intro e
      rw [e, hpos1] at hv
      exact hact hv
    have hnb : Adjacent pos n ∧ g.Board.InBounds n := by
      rw [← hsq.1] at hn
      exact (mem_neighbors_square hsqb).mp hn
    have hn0 : g.Board.Get n = .ok 0 := by
      rw [placed_valOrZero hin, if_neg hnpos] at hv
      exact Get_ok_iff.mpr ⟨hnb.2, hv⟩
    have hb1 : AfterCapture g.Board pos g.ToPlay (placed g.Board pos g.ToPlay) := by
      refine ⟨placed_Rows _ _ _, placed_Cols _ _ _, ?_, ?_, ?_⟩
      · rw [placed_Get hin, if_pos rfl]
      · rintro q ⟨x, _, hx, hc, _⟩
        rw [hopp] at hx hc
        have hxin := (Get_ok_iff.mp hx).1
        have : valOrZero (placed g.Board pos g.ToPlay) q = 0 := by
          cases hc with
          | refl => exact (Get_ok_iff.mp hx).2
          | tail _ hl => exact (Get_ok_iff.mp hl.2).2
        exact Get_ok_iff.mpr ⟨hc.inBounds hxin, this⟩
      · intro q hq _
        rw [placed_Get hin, if_neg hq]
    refine ⟨⟨_, hb1⟩, ?_⟩
    intro w hw
    constructor
    · intro h
      exact absurd h hnot
    · intro hno
      exfalso
      apply hno
      refine ⟨n, ?_, pos, Relation.ReflTransGen.refl, hnb.1⟩
      rw [hw.same_reading hb1, placed_Get hin, if_neg hnpos]
      exact hn0

/-- **C5** (commit on success). After an accepted `PlayMove pos` by the mover
`m = g.ToPlay`: the side to move is the opponent of `m`, the move counter is the `int`
successor of the old one (one more, unless the old one is the largest `int`), the
consecutive-pass counter is 0, the history is the old history plus the signature of the new
board with the opponent to move, the cell at `pos` holds `m`, the mover's tally is the
`int` sum of the old tally and the returned `Captured` (the old tally plus `Captured`
whenever that does not exceed the largest `int`), and every other tally (the opponent's in
particular) is unchanged. -/
theorem PlayMove_commit (g : Game) (pos : Position) (r : MoveResult)
    (hacc : (g.PlayMove pos).2 = .ok r) :
    (g.PlayMove pos).1.ToPlay = other g.ToPlay ∧
      (g.PlayMove pos).1.moveNumber = wrapInt (g.moveNumber + 1) ∧
      (minInt ≤ g.moveNumber → g.moveNumber < maxInt →
        (g.PlayMove pos).1.moveNumber = g.moveNumber + 1) ∧
      (g.PlayMove pos).1.ConsecutivePasses = 0 ∧
      (g.PlayMove pos).1.history =
        insert (serialize (g.PlayMove pos).1.Board (other g.ToPlay)) g.history ∧
      (g.PlayMove pos).1.Board.Get pos = .ok g.ToPlay ∧
      0 ≤ r.Captured ∧
      (g.PlayMove pos).1.Captures g.ToPlay =
        (if 0 < r.Captured then wrapInt (g.Captures g.ToPlay + r.Captured)
          else g.Captures g.ToPlay) ∧
      (minInt ≤ g.Captures g.ToPlay → g.Captures g.ToPlay + r.Captured ≤ maxInt →
        (g.PlayMove pos).1.Captures g.ToPlay = g.Captures g.ToPlay + r.Captured) ∧
      (g.PlayMove pos).1.Captures (other g.ToPlay) = g.Captures (other g.ToPlay) ∧
      (∀ c, c ≠ g.ToPlay → (g.PlayMove pos).1.Captures c = g.Captures c) := by
  obtain ⟨hact, _, b1, w, total, grp, libs, hset, hloop, _, _, _, hr, hstate⟩ :=
    PlayMove_accepted hacc
  obtain ⟨hin, _, hb1⟩ := Set_ok_inv hset
  subst hb1
  obtain ⟨hstone, htot⟩ := captureLoop_keeps_stone hin hact hloop
  rw [hstate, hr]
  refine ⟨rfl, rfl, ?_, rfl, rfl, hstone, htot, committed_Captures_wrap g w total, ?_,
    committed_Captures_other g w total (other_ne_self hact), ?_⟩
  · intro hlo hhi
    exact wrapInt_eq (by unfold minInt at *; omega) (by unfold maxInt at *; omega)
  · intro hlo hhi
    exact committed_Captures_mover g w htot hlo hhi
  · intro c hc
    exact committed_Captures_other g w total hc

/-! ## Signatures -/

theorem foldl_append_singleton {α β : Type} (f : α → β) (xs : List α) (s : List β) :
    xs.foldl (fun s x => s ++ [f x]) s = s ++ xs.map f := by
  induction xs generalizing s with
  | nil => simp
  | cons x xs ih => simp [ih]

theorem foldl_append_flatMap {α β : Type} (f : α → List β) (xs : List α) (s : List β) :
    xs.foldl (fun s x => s ++ f x) s = s ++ xs.flatMap f := by
  induction xs generalizing s with
  | nil => simp
  | cons x xs ih => simp [ih]

theorem inBounds_of_range {b : Board} {r c : Nat} (hr : r ∈ List.range b.Rows.toNat)
    (hc : c ∈ List.range b.Cols.toNat) : b.InBounds ⟨(r : Int), (c : Int)⟩ := by
  rw [List.mem_range] at hr hc
  unfold Board.InBounds
  simp only
  omega

/-- The signature is the digit of the side to move followed by the digits of the cells in
row-major order. -/
theorem serialize_eq (b : Board) (toPlay : Color) :
    serialize b toPlay = digitByte toPlay :: (rowMajor b).map digitByte := by
  unfold serialize Board.ForEach rowMajor
  have inner : ∀ (s : List Nat) (r : Nat),
      (List.range b.Cols.toNat).foldl
          (fun (s : List Nat) (c : Nat) =>
            s ++ [digitByte (b.cellAt ((r : Int) * b.Cols + (c : Int)))]) s =
        s ++ (List.range b.Cols.toNat).map
          (fun (c : Nat) => digitByte (b.cellAt ((r : Int) * b.Cols + (c : Int)))) :=
    fun s r => foldl_append_singleton _ _ s
  have outer : (List.range b.Rows.toNat).foldl
        (fun (s : List Nat) (r : Nat) => (List.range b.Cols.toNat).foldl
          (fun (s : List Nat) (c : Nat) =>
            s ++ [digitByte (b.cellAt ((r : Int) * b.Cols + (c : Int)))]) s)
        [digitByte toPlay] =
      [digitByte toPlay] ++ (List.range b.Rows.toNat).flatMap
        (fun (r : Nat) => (List.range b.Cols.toNat).map
          (fun (c : Nat) => digitByte (b.cellAt ((r : Int) * b.Cols + (c : Int))))) := by
    rw [← foldl_append_flatMap]
    apply List.foldl_ext
    intro s r _
    exact inner s r
  rw [outer, List.singleton_append, List.map_flatMap]
  congr 1
  apply List.flatMap_congr
  intro r hr
  rw [List.map_map]
  apply List.map_congr_left
  intro c hc
  simp only [Function.comp]
  rw [valOrZero_inBounds (inBounds_of_range hr hc)]

theorem flatMap_rows_inj {α β : Type} {f g : α → List β} :
    ∀ (l : List α), (∀ r ∈ l, (f r).length = (g r).length) →
      l.flatMap f = l.flatMap g → ∀ r ∈ l, f r = g r := by
  intro l
  induction l with
  | nil => simp
  | cons x xs ih =>
    intro hlen h r hr
    rw [List.flatMap_cons, List.flatMap_cons] at h
    obtain ⟨h1, h2⟩ := List.append_inj h (hlen x (List.mem_cons_self _ _))
    rcases List.mem_cons.mp hr with e | hr
    · rw [e]
      exact h1
    · exact ih (fun r hr => hlen r (List.mem_cons_of_mem _ hr)) h2 r hr

theorem digitByte_inj {u v : Int} (hu : u = 0 ∨ u = 1 ∨ u = 2) (hv : v = 0 ∨ v = 1 ∨ v = 2)
    (h : digitByte u = digitByte v) : u = v := by
  rcases hu with rfl | rfl | rfl <;> rcases hv with rfl | rfl | rfl <;>
    first
      | rfl
      | (exfalso; revert h; decide)

/-- Boards of the same dimensions have the same row-major listing exactly when they read
alike at every cell. -/
theorem rowMajor_digits_eq_iff {b1 b2 : Board} (hr : b1.Rows = b2.Rows)
    (hc : b1.Cols = b2.Cols) :
    (rowMajor b1).map digitByte = (rowMajor b2).map digitByte ↔
      ∀ p, b1.InBounds p → digitByte (valOrZero b1 p) = digitByte (valOrZero b2 p) := by
  unfold rowMajor
  rw [List.map_flatMap, List.map_flatMap, hr, hc]
  constructor
  · intro h p hp
    have hrow := flatMap_rows_inj (List.range b2.Rows.toNat) (by intro r _; simp) h
      p.Row.toNat (by
        rw [List.mem_range]
        unfold Board.InBounds at hp
        omega)
    rw [List.map_map, List.map_map, List.map_inj_left] at hrow
    have hcell := hrow p.Col.toNat (by
      rw [List.mem_range]
      unfold Board.InBounds at hp
      omega)
    simp only [Function.comp] at hcell
    have e : (⟨(p.Row.toNat : Int), (p.Col.toNat : Int)⟩ : Position) = p := by
      unfold Board.InBounds at hp
      cases p with
      | mk r c =>
        simp only at hp
        simp only [Position.mk.injEq]
        omega
    rw [e] at hcell
    exact hcell
  · intro h
    apply List.flatMap_congr
    intro r hr2
    rw [List.map_map, List.map_map]
    apply List.map_congr_left
    intro c hc2
    simp only [Function.comp]
    apply h
    rw [← hr, ← hc] at *
    exact inBounds_of_range hr2 hc2

/-- **C8** (signature injectivity). For boards of the same dimensions whose cells are all
0, 1 or 2 and sides to move among None, Black, White, the signatures agree exactly when the
sides agree and the boards hold the same value at every coordinate; and the signature is
the digit of the side followed by the digits of the cells in row-major order. -/
theorem serialize_injective (b1 b2 : Board) (c1 c2 : Color) (hr : b1.Rows = b2.Rows)
    (hc : b1.Cols = b2.Cols)
    (h1 : ∀ p v, b1.Get p = .ok v → v = 0 ∨ v = 1 ∨ v = 2)
    (h2 : ∀ p v, b2.Get p = .ok v → v = 0 ∨ v = 1 ∨ v = 2)
    (hc1 : c1 = None ∨ c1 = Black ∨ c1 = White)
    (hc2 : c2 = None ∨ c2 = Black ∨ c2 = White) :
    (serialize b1 c1 = serialize b2 c2 ↔ c1 = c2 ∧ ∀ p, b1.Get p = b2.Get p) ∧
      serialize b1 c1 = digitByte c1 :: (rowMajor b1).map digitByte := by
  refine ⟨?_, serialize_eq b1 c1⟩
  have hdim : ∀ p, b1.InBounds p ↔ b2.InBounds p := by
    intro p
    unfold Board.InBounds
    rw [hr, hc]
  rw [serialize_eq, serialize_eq, List.cons.injEq, rowMajor_digits_eq_iff hr hc]
  constructor
  · rintro ⟨hside, hcells⟩
    refine ⟨digitByte_inj hc1 hc2 hside, ?_⟩
    intro p
    by_cases hp : b1.InBounds p
    · have hp2 := (hdim p).mp hp
      rw [Get_eq_ok_valOrZero hp, Get_eq_ok_valOrZero hp2]
      congr 1
      exact digitByte_inj (h1 p _ (Get_eq_ok_valOrZero hp)) (h2 p _ (Get_eq_ok_valOrZero hp2))
        (hcells p hp)
    · rw [Board.Get_error hp, Board.Get_error (fun h => hp ((hdim p).mpr h))]
  · rintro ⟨hside, hcells⟩
    refine ⟨by rw [hside], ?_⟩
    intro p hp
    have := hcells p
    rw [Get_eq_ok_valOrZero hp, Get_eq_ok_valOrZero ((hdim p).mp hp)] at this
    injection this with this
    rw [this]

/-! ## Sessions over time -/

theorem step_history_mono (g : Game) (op : Op) : g.history ⊆ (g.step op).history := by
  cases op with
  | play pos =>
    simp only [Game.step]
    cases hres : (g.PlayMove pos).2 with
    | error e => rw [PlayMove_rejected hres]
    | ok r =>
      obtain ⟨_, _, b1, w, total, grp, libs, _, _, _, _, _, _, hstate⟩ := PlayMove_accepted hres
      rw [hstate]
      exact Finset.subset_insert _ _
  | pass =>
    simp only [Game.step]
    unfold Game.Pass
    split_ifs
    · exact Finset.Subset.refl _
    · exact Finset.subset_insert _ _

theorem step_signature_mem (g : Game) (op : Op) (h : g.signature ∈ g.history) :
    (g.step op).signature ∈ (g.step op).history := by
  cases op with
  | play pos =>
    simp only [Game.step]
    cases hres : (g.PlayMove pos).2 with
    | error e =>
      rw [PlayMove_rejected hres]
      exact h
    | ok r =>
      obtain ⟨_, _, b1, w, total, grp, libs, _, _, _, _, _, _, hstate⟩ := PlayMove_accepted hres
      rw [hstate]
      exact Finset.mem_insert_self _ _
  | pass =>
    simp only [Game.step]
    unfold Game.Pass
    split_ifs
    · exact h
    · exact Finset.mem_insert_self _ _

theorem run_history_mono (ops : List Op) : ∀ g : Game, g.history ⊆ (g.run ops).history := by
  induction ops with
  | nil => intro g; exact Finset.Subset.refl _
  | cons op ops ih =>
    intro g
    exact Finset.Subset.trans (step_history_mono g op) (ih (g.step op))

/-- Every position a session went through has its signature in the history. -/
theorem run_signatures_recorded (ops : List Op) : ∀ (g : Game), g.signature ∈ g.history →
    ∀ k, (g.run (ops.take k)).signature ∈ (g.run ops).history := by
  induction ops with
  | nil =>
    intro g h k
    simpa [Game.run] using h
  | cons op ops ih =>
    intro g h k
    cases k with
    | zero => exact run_history_mono (op :: ops) g h
    | succ k => exact ih (g.step op) (step_signature_mem g op h) k

/-- What a successful `NewGame` returns. -/
theorem NewGame_ok {size : Int} {g : Game} (h : NewGame size = .ok g) :
    5 ≤ size ∧ g.Board.Rows = size ∧ g.Board.Cols = size ∧
      g.Board.cells = List.replicate (size * size).toNat 0 ∧ g.Size = size ∧
      g.ToPlay = Black ∧ g.Captures = (fun _ => 0) ∧ g.ConsecutivePasses = 0 ∧
      g.moveNumber = 0 ∧ g.history = {serialize g.Board Black} ∧
      g.lastHash = serialize g.Board Black := by
  unfold NewGame at h
  split at h
  · cases h
  · rename_i hs
    split at h
    · injection h with h
      subst h
      rename_i hfit
      exact ⟨by omega, rfl, rfl, NewBoard_cells ⟨by omega, by omega, hfit⟩, rfl, rfl, rfl,
        rfl, rfl, rfl, rfl⟩
    · cases h

/-- `NewGame` returns a session only for a size whose square is an `int`. -/
theorem NewGame_fits {size : Int} {g : Game} (h : NewGame size = .ok g) :
    size * size ≤ maxInt := by
  unfold NewGame at h
  split at h
  · cases h
  · split at h
    · assumption
    · cases h

/-- **C4** (superko). In a session started by `NewGame` and driven by any sequence of
`PlayMove` and `Pass` calls, an accepted `PlayMove` produces a pair (board, side to move)
different from the pair held after every prefix of the calls made so far (the initial
position included); hence a placement recreating an earlier pair is not accepted. -/
theorem PlayMove_never_repeats (size : Int) (g0 : Game) (hnew : NewGame size = .ok g0)
    (ops : List Op) (pos : Position) (r : MoveResult)
    (hacc : ((g0.run ops).PlayMove pos).2 = .ok r) (k : Nat) :
    (((g0.run ops).PlayMove pos).1.Board, ((g0.run ops).PlayMove pos).1.ToPlay) ≠
      ((g0.run (ops.take k)).Board, (g0.run (ops.take k)).ToPlay) := by
  have h0 : g0.signature ∈ g0.history := by
    obtain ⟨_, _, _, _, _, ht, _, _, _, hh, _⟩ := NewGame_ok hnew
    unfold Game.signature
    rw [hh, ht]
    exact Finset.mem_singleton_self _
  have hrec := run_signatures_recorded ops g0 h0 k
  obtain ⟨_, _, b1, w, total, grp, libs, _, _, _, _, hfresh, _, hstate⟩ := PlayMove_accepted hacc
  rw [hstate]
  intro heq
  injection heq with hb ht
  apply hfresh
  unfold Game.signature at hrec
  unfold committed at hb ht
  simp only at hb ht
  rw [hb, ht]
  exact hrec

/-! ## The group resolver, session construction and passing; concrete sessions -/

theorem NewBoard_Get {rows cols : Int} (h : 0 < rows ∧ 0 < cols ∧ rows * cols ≤ maxInt)
    {p : Position}
    (hp : (NewBoard rows cols h).InBounds p) : (NewBoard rows cols h).Get p = .ok 0 := by
  rw [Board.Get_ok hp]
  have hlt := (Board.index_lt hp).2
  unfold Board.cellAt
  rw [List.getD_eq_getElem?_getD, List.getElem?_eq_getElem hlt]
  simp only [Option.getD_some]
  have hmem : (NewBoard rows cols h).cells[(p.Row * (NewBoard rows cols h).Cols + p.Col).toNat] ∈
      (NewBoard rows cols h).cells := List.getElem_mem _
  have hall : ∀ v ∈ (NewBoard rows cols h).cells, v = 0 := by
    intro v hv
    rw [NewBoard_cells h] at hv
    exact (List.mem_replicate.mp hv).2
  rw [hall _ hmem]

theorem Get_mem_cells {b : Board} {p : Position} {v : Int} (h : b.Get p = .ok v) :
    v ∈ b.cells := by
  obtain ⟨hin, hv⟩ := Get_ok_iff.mp h
  rw [valOrZero_inBounds hin] at hv
  unfold Board.cellAt at hv
  have hlt := (Board.index_lt hin).2
  rw [List.getD_eq_getElem?_getD, List.getElem?_eq_getElem hlt] at hv
  simp only [Option.getD_some] at hv
  rw [← hv]
  exact List.getElem_mem _

/-- A board whose cell slice only holds 0, 1 and 2 reads only those values. -/
theorem Get_range_of_cells {b : Board} (h : ∀ v ∈ b.cells, v = 0 ∨ v = 1 ∨ v = 2) :
    ∀ p v, b.Get p = .ok v → v = 0 ∨ v = 1 ∨ v = 2 :=
  fun _ v hg => h v (Get_mem_cells hg)

/-- **C6** (group membership). On a square board, `collectGroup` at an in-range cell
holding a non-empty colour succeeds and its group lists, each exactly once, precisely the
cells connected to the start by a path of orthogonally adjacent cells of that colour; at an
empty start and at an out-of-range start it returns an error. -/
theorem collectGroup_group (b : Board) (hsq : b.Rows = b.Cols) (start : Position) :
    (∀ color, b.Get start = .ok color → color ≠ 0 →
      ∃ group libs, collectGroup b start = .ok (group, libs) ∧ group.Nodup ∧
        (∀ q, q ∈ group ↔ Connected b color start q) ∧
        (∀ q, Connected b color start q → group.count q = 1)) ∧
      (b.Get start = .ok 0 → collectGroup b start = .error (.noStone start.Row start.Col)) ∧
      (¬ b.InBounds start →
        collectGroup b start = .error (.indexOutOfBounds start.Row start.Col)) := by
  refine ⟨?_, ?_, ?_⟩
  · intro color hget hc
    obtain ⟨group, libs, hrun, hnd, hmem, _⟩ := collectGroup_square hsq hget hc
    exact ⟨group, libs, hrun, hnd, hmem,
      fun q hq => List.count_eq_one_of_mem hnd ((hmem q).mpr hq)⟩
  · intro hget
    obtain ⟨hin, hv⟩ := Get_ok_iff.mp hget
    exact collectGroup_empty hin hv
  · intro hout
    exact collectGroup_outside hout

/-- **C7** (liberty set). On a square board, for an in-range occupied start, the liberty
set `collectGroup` returns is exactly the set of empty cells of the board orthogonally
adjacent to a cell of the start's group; being a set, its size is the number of distinct
such cells, however many group cells border each. -/
theorem collectGroup_liberties (b : Board) (hsq : b.Rows = b.Cols) (start : Position)
    (color : Int) (hget : b.Get start = .ok color) (hc : color ≠ 0) :
    ∃ group libs, collectGroup b start = .ok (group, libs) ∧
      (∀ n, n ∈ libs ↔ LibertyOf b color start n) ∧
      (∀ S : Finset Position, (∀ n, n ∈ S ↔ LibertyOf b color start n) →
        libs.card = S.card) := by
  obtain ⟨group, libs, hrun, _, _, hlibs⟩ := collectGroup_square hsq hget hc
  refine ⟨group, libs, hrun, hlibs, ?_⟩
  intro S hS
  congr 1
  ext n
  rw [hlibs, hS]

/-- **C10** (pass). With no side to move `Pass` changes nothing. With a side to move it
replaces the move counter and the consecutive-pass counter by their `int` successors (one
more each, unless the counter is the largest `int`, which wraps to the smallest), hands the
move to the other side, keeps the board and the tallies, and adds the signature of the
unchanged board with the new side to move to the history, whether or not it was there
already. Hence two passes in a row by Black and White, from a pass counter of 0, leave the
board as it was and the counter at 2. -/
theorem Pass_spec (g : Game) :
    (g.ToPlay = None → g.Pass = g) ∧
      (g.ToPlay ≠ None →
        g.Pass.moveNumber = wrapInt (g.moveNumber + 1) ∧
        (minInt ≤ g.moveNumber → g.moveNumber < maxInt →
          g.Pass.moveNumber = g.moveNumber + 1) ∧
        g.Pass.ConsecutivePasses = wrapInt (g.ConsecutivePasses + 1) ∧
        (minInt ≤ g.ConsecutivePasses → g.ConsecutivePasses < maxInt →
          g.Pass.ConsecutivePasses = g.ConsecutivePasses + 1) ∧
        g.Pass.ToPlay = other g.ToPlay ∧
        g.Pass.Board = g.Board ∧
        g.Pass.Captures = g.Captures ∧
        g.Pass.history = insert (serialize g.Board (other g.ToPlay)) g.history) ∧
      (g.ToPlay = Black ∨ g.ToPlay = White → g.ConsecutivePasses = 0 →
        g.Pass.Pass.Board = g.Board ∧ g.Pass.Pass.ConsecutivePasses = 2 ∧
        g.Pass.Pass.ToPlay = g.ToPlay) := by
  have hstep : ∀ x : Game, x.ToPlay ≠ None →
      x.Pass.moveNumber = wrapInt (x.moveNumber + 1) ∧
      x.Pass.ConsecutivePasses = wrapInt (x.ConsecutivePasses + 1) ∧
      x.Pass.ToPlay = other x.ToPlay ∧
      x.Pass.Board = x.Board ∧
      x.Pass.Captures = x.Captures ∧
      x.Pass.history = insert (serialize x.Board (other x.ToPlay)) x.history := by
    intro x hx
    unfold Game.Pass
    rw [if_neg hx]
    exact ⟨rfl, rfl, rfl, rfl, rfl, rfl⟩
  refine ⟨?_, ?_, ?_⟩
  · intro h
    unfold Game.Pass
    rw [if_pos h]
  · intro hx
    obtain ⟨b1, b2, b3, b4, b5, b6⟩ := hstep g hx
    refine ⟨b1, ?_, b2, ?_, b3, b4, b5, b6⟩
    · intro hlo hhi
      rw [b1]
      exact wrapInt_eq (by unfold minInt at *; omega) (by unfold maxInt at *; omega)
    · intro hlo hhi
      rw [b2]
      exact wrapInt_eq (by unfold minInt at *; omega) (by unfold maxInt at *; omega)
  · intro hside hzero
    have h1 : g.ToPlay ≠ None := by
      rcases hside with h | h <;> rw [h] <;> decide
    have h2 : other g.ToPlay ≠ None := by
      rcases hside with h | h <;> rw [h] <;> decide
    have h3 : other (other g.ToPlay) = g.ToPlay := by
      rcases hside with h | h <;> rw [h] <;> decide
    obtain ⟨_, a2, a3, a4, _, _⟩ := hstep g h1
    rw [← a3] at h2
    obtain ⟨_, c2, c3, c4, _, _⟩ := hstep g.Pass h2
    refine ⟨by rw [c4, a4], by rw [c2, a2, hzero]; decide, by rw [c3, a3, h3]⟩

/-! ## The theorems at concrete sessions -/

theorem opening_eq : NewGame 5 = .ok opening := rfl

/-- C1 at the ko: White's retake at (0,1) captures a stone on the scratch board, is then
rejected as a repetition, and leaves the session untouched. -/
theorem PlayMove_rejection_atomic_witness :
    ((koFight.PlayMove ⟨0, 1⟩).2 = .error .superko ∧
      (match captureLoop (other koFight.ToPlay) (neighbors koFight.Size ⟨0, 1⟩)
          (placed koFight.Board ⟨0, 1⟩ koFight.ToPlay) 0 with
        | .ok (_, total) => total
        | .error _ => 0) = 1) ∧
      ((koFight.PlayMove ⟨0, 1⟩).1 = koFight ∧
        (koFight.PlayMove ⟨0, 1⟩).1.Board = koFight.Board ∧
        (koFight.PlayMove ⟨0, 1⟩).1.ToPlay = koFight.ToPlay ∧
        (koFight.PlayMove ⟨0, 1⟩).1.Captures = koFight.Captures ∧
        (koFight.PlayMove ⟨0, 1⟩).1.ConsecutivePasses = koFight.ConsecutivePasses ∧
        (koFight.PlayMove ⟨0, 1⟩).1.moveNumber = koFight.moveNumber ∧
        (koFight.PlayMove ⟨0, 1⟩).1.history = koFight.history) :=
  ⟨⟨by decide, by decide⟩, PlayMove_rejection_atomic koFight ⟨0, 1⟩ .superko (by decide)⟩

/-- C2 at the corner trap: Black's stone at (1,1) takes the three White stones, which
touch (1,1) through two neighbours and are counted once. -/
theorem PlayMove_capture_correct_witness :
    ((cornerTrap.Board.Rows = cornerTrap.Size ∧ cornerTrap.Board.Cols = cornerTrap.Size) ∧
      (cornerTrap.PlayMove ⟨1, 1⟩).2 = .ok ⟨3⟩) ∧
      (AfterCapture cornerTrap.Board ⟨1, 1⟩ cornerTrap.ToPlay
          (cornerTrap.PlayMove ⟨1, 1⟩).1.Board ∧
        (∃ S : Finset Position,
          (∀ q, q ∈ S ↔ CapturedCell (placed cornerTrap.Board ⟨1, 1⟩ cornerTrap.ToPlay)
            (other cornerTrap.ToPlay) ⟨1, 1⟩ q) ∧
          (MoveResult.mk 3).Captured = (S.card : Int)) ∧
        (cornerTrap.PlayMove ⟨1, 1⟩).1.Captures cornerTrap.ToPlay =
          (if 0 < (MoveResult.mk 3).Captured then
            wrapInt (cornerTrap.Captures cornerTrap.ToPlay + (MoveResult.mk 3).Captured)
            else cornerTrap.Captures cornerTrap.ToPlay) ∧
        (minInt ≤ cornerTrap.Captures cornerTrap.ToPlay →
          cornerTrap.Captures cornerTrap.ToPlay + (MoveResult.mk 3).Captured ≤ maxInt →
          (cornerTrap.PlayMove ⟨1, 1⟩).1.Captures cornerTrap.ToPlay =
            cornerTrap.Captures cornerTrap.ToPlay + (MoveResult.mk 3).Captured)) :=
  ⟨⟨by decide, by decide⟩,
    PlayMove_capture_correct cornerTrap ⟨1, 1⟩ ⟨3⟩ (by decide) (by decide)⟩

/-- C3 at the corner eye: White's stone at (0,0) would have no liberty. -/
theorem PlayMove_suicide_iff_witness :
    ((cornerEye.ToPlay ≠ None ∧
      (cornerEye.Board.Rows = cornerEye.Size ∧ cornerEye.Board.Cols = cornerEye.Size) ∧
      cornerEye.Board.InBounds ⟨0, 0⟩ ∧ cornerEye.Board.Get ⟨0, 0⟩ = .ok 0) ∧
      (cornerEye.PlayMove ⟨0, 0⟩).2 = .error .suicide) ∧
      ((∃ w, AfterCapture cornerEye.Board ⟨0, 0⟩ cornerEye.ToPlay w) ∧
        ∀ w, AfterCapture cornerEye.Board ⟨0, 0⟩ cornerEye.ToPlay w →
          ((cornerEye.PlayMove ⟨0, 0⟩).2 = .error .suicide ↔
            ¬ ∃ e, LibertyOf w cornerEye.ToPlay ⟨0, 0⟩ e)) :=
  ⟨⟨⟨by decide, by decide, by decide, by decide⟩, by decide⟩,
    PlayMove_suicide_iff cornerEye ⟨0, 0⟩ (by decide) (by decide) (by decide) (by decide)⟩

/-- C4 at the ko: Black's capture at (0,2), accepted after six calls, gave a position
different from the one held after the first four. -/
theorem PlayMove_never_repeats_witness :
    (NewGame 5 = .ok opening ∧
      ((opening.run [.play ⟨0, 0⟩, .play ⟨0, 3⟩, .play ⟨1, 1⟩, .play ⟨1, 2⟩, .play ⟨4, 4⟩,
        .play ⟨0, 1⟩]).PlayMove ⟨0, 2⟩).2 = .ok ⟨1⟩) ∧
      (((opening.run [.play ⟨0, 0⟩, .play ⟨0, 3⟩, .play ⟨1, 1⟩, .play ⟨1, 2⟩, .play ⟨4, 4⟩,
          .play ⟨0, 1⟩]).PlayMove ⟨0, 2⟩).1.Board,
        ((opening.run [.play ⟨0, 0⟩, .play ⟨0, 3⟩, .play ⟨1, 1⟩, .play ⟨1, 2⟩, .play ⟨4, 4⟩,
          .play ⟨0, 1⟩]).PlayMove ⟨0, 2⟩).1.ToPlay) ≠
        ((opening.run (([.play ⟨0, 0⟩, .play ⟨0, 3⟩, .play ⟨1, 1⟩, .play ⟨1, 2⟩,
          .play ⟨4, 4⟩, .play ⟨0, 1⟩] : List Op).take 4)).Board,
         (opening.run (([.play ⟨0, 0⟩, .play ⟨0, 3⟩, .play ⟨1, 1⟩, .play ⟨1, 2⟩,
          .play ⟨4, 4⟩, .play ⟨0, 1⟩] : List Op).take 4)).ToPlay) :=
  ⟨⟨opening_eq, by decide⟩,
    PlayMove_never_repeats 5 opening opening_eq _ ⟨0, 2⟩ ⟨1⟩ (by decide) 4⟩

/-- C5 at the corner: the commit of Black's capturing stone at (1,0). -/
theorem PlayMove_commit_witness :
    (cornerAtari.PlayMove ⟨1, 0⟩).2 = .ok ⟨1⟩ ∧
      ((cornerAtari.PlayMove ⟨1, 0⟩).1.ToPlay = other cornerAtari.ToPlay ∧
        (cornerAtari.PlayMove ⟨1, 0⟩).1.moveNumber = wrapInt (cornerAtari.moveNumber + 1) ∧
        (minInt ≤ cornerAtari.moveNumber → cornerAtari.moveNumber < maxInt →
          (cornerAtari.PlayMove ⟨1, 0⟩).1.moveNumber = cornerAtari.moveNumber + 1) ∧
        (cornerAtari.PlayMove ⟨1, 0⟩).1.ConsecutivePasses = 0 ∧
        (cornerAtari.PlayMove ⟨1, 0⟩).1.history =
          insert (serialize (cornerAtari.PlayMove ⟨1, 0⟩).1.Board (other cornerAtari.ToPlay))
            cornerAtari.history ∧
        (cornerAtari.PlayMove ⟨1, 0⟩).1.Board.Get ⟨1, 0⟩ = .ok cornerAtari.ToPlay ∧
        0 ≤ (MoveResult.mk 1).Captured ∧
        (cornerAtari.PlayMove ⟨1, 0⟩).1.Captures cornerAtari.ToPlay =
          (if 0 < (MoveResult.mk 1).Captured then
            wrapInt (cornerAtari.Captures cornerAtari.ToPlay + (MoveResult.mk 1).Captured)
            else cornerAtari.Captures cornerAtari.ToPlay) ∧
        (minInt ≤ cornerAtari.Captures cornerAtari.ToPlay →
          cornerAtari.Captures cornerAtari.ToPlay + (MoveResult.mk 1).Captured ≤ maxInt →
          (cornerAtari.PlayMove ⟨1, 0⟩).1.Captures cornerAtari.ToPlay =
            cornerAtari.Captures cornerAtari.ToPlay + (MoveResult.mk 1).Captured) ∧
        (cornerAtari.PlayMove ⟨1, 0⟩).1.Captures (other cornerAtari.ToPlay) =
          cornerAtari.Captures (other cornerAtari.ToPlay) ∧
        (∀ c, c ≠ cornerAtari.ToPlay →
          (cornerAtari.PlayMove ⟨1, 0⟩).1.Captures c = cornerAtari.Captures c)) :=
  ⟨by decide, PlayMove_commit cornerAtari ⟨1, 0⟩ ⟨1⟩ (by decide)⟩

/-- C6 on the bent board: the Black group of the corner has three cells. -/
theorem collectGroup_group_witness :
    (bentBoard.Rows = bentBoard.Cols ∧
      collectGroup bentBoard ⟨0, 0⟩ =
        .ok ([⟨0, 0⟩, ⟨0, 1⟩, ⟨1, 0⟩], {⟨1, 1⟩, ⟨0, 2⟩, ⟨2, 0⟩})) ∧
      ((∀ color, bentBoard.Get ⟨0, 0⟩ = .ok color → color ≠ 0 →
        ∃ group libs, collectGroup bentBoard ⟨0, 0⟩ = .ok (group, libs) ∧ group.Nodup ∧
          (∀ q, q ∈ group ↔ Connected bentBoard color ⟨0, 0⟩ q) ∧
          (∀ q, Connected bentBoard color ⟨0, 0⟩ q → group.count q = 1)) ∧
        (bentBoard.Get ⟨0, 0⟩ = .ok 0 →
          collectGroup bentBoard ⟨0, 0⟩ =
            .error (.noStone (⟨0, 0⟩ : Position).Row (⟨0, 0⟩ : Position).Col)) ∧
        (¬ bentBoard.InBounds ⟨0, 0⟩ →
          collectGroup bentBoard ⟨0, 0⟩ =
            .error (.indexOutOfBounds (⟨0, 0⟩ : Position).Row (⟨0, 0⟩ : Position).Col))) :=
  ⟨⟨by decide, by decide⟩, collectGroup_group bentBoard (by decide) ⟨0, 0⟩⟩

/-- C7 on the bent board: the empty cell (1,1) borders two cells of the corner group and is
one of its three liberties. -/
theorem collectGroup_liberties_witness :
    ((bentBoard.Rows = bentBoard.Cols ∧ bentBoard.Get ⟨0, 0⟩ = .ok 1 ∧ (1 : Int) ≠ 0) ∧
      (match collectGroup bentBoard ⟨0, 0⟩ with
        | .ok (_, libs) => libs.card
        | .error _ => 0) = 3) ∧
      ∃ group libs, collectGroup bentBoard ⟨0, 0⟩ = .ok (group, libs) ∧
        (∀ n, n ∈ libs ↔ LibertyOf bentBoard 1 ⟨0, 0⟩ n) ∧
        (∀ S : Finset Position, (∀ n, n ∈ S ↔ LibertyOf bentBoard 1 ⟨0, 0⟩ n) →
          libs.card = S.card) :=
  ⟨⟨⟨by decide, by decide, by decide⟩, by decide⟩,
    collectGroup_liberties bentBoard (by decide) ⟨0, 0⟩ 1 (by decide) (by decide)⟩

/-- C8 on two 4 × 4 boards with Black to move: the bent board and the empty board have
different signatures. -/
theorem serialize_injective_witness :
    ((bentBoard.Rows = (NewBoard 4 4 (by decide)).Rows ∧
      bentBoard.Cols = (NewBoard 4 4 (by decide)).Cols ∧
      (∀ v ∈ bentBoard.cells, v = 0 ∨ v = 1 ∨ v = 2) ∧
      (∀ v ∈ (NewBoard 4 4 (by decide)).cells, v = 0 ∨ v = 1 ∨ v = 2) ∧
      (Black = None ∨ Black = Black ∨ Black = White)) ∧
      serialize bentBoard Black =
        [49, 49, 49, 48, 50, 49, 48, 50, 50, 48, 48, 48, 48, 48, 48, 48, 49] ∧
      serialize bentBoard Black ≠ serialize (NewBoard 4 4 (by decide)) Black) ∧
      ((serialize bentBoard Black = serialize (NewBoard 4 4 (by decide)) Black ↔
          Black = Black ∧ ∀ p, bentBoard.Get p = (NewBoard 4 4 (by decide)).Get p) ∧
        serialize bentBoard Black = digitByte Black :: (rowMajor bentBoard).map digitByte) :=
  ⟨⟨⟨by decide, by decide, by decide, by decide, by decide⟩, by decide, by decide⟩,
    serialize_injective bentBoard (NewBoard 4 4 (by decide)) Black Black (by decide)
      (by decide) (Get_range_of_cells (by decide)) (Get_range_of_cells (by decide))
      (by decide) (by decide)⟩

/-- C10 at the opening position: two passes. -/
theorem Pass_spec_witness :
    ((opening.ToPlay = Black ∨ opening.ToPlay = White) ∧ opening.ConsecutivePasses = 0) ∧
      (opening.Pass.Pass.Board = opening.Board ∧ opening.Pass.Pass.ConsecutivePasses = 2 ∧
        opening.Pass.Pass.ToPlay = opening.ToPlay) :=
  ⟨⟨by decide, by decide⟩, (Pass_spec opening).2.2 (by decide) (by decide)⟩

/-! ## The grid's writes with the receiver threaded through; placement preconditions -/

end gogame

namespace engine

/-- The two embeddings of `Set` agree. -/
theorem Board.Set_eq_SetRun (b : Board) (pos : Position) (v : Int) :
    b.Set pos v =
      (match b.SetRun pos v with
        | (b2, none) => Except.ok b2
        | (_, some e) => Except.error e) := by
  unfold Board.Set Board.SetRun
  cases b.index pos with
  | error e => rfl
  | ok idx =>
    simp only
    split_ifs <;> rfl

/-- The two embeddings of `SetAt` agree. -/
theorem Board.SetAt_eq_SetAtRun (b : Board) (pos : Position) (v : Int) :
    b.SetAt pos v =
      (match b.SetAtRun pos v with
        | (b2, none) => Except.ok b2
        | (_, some e) => Except.error e) := by
  unfold Board.SetAt Board.SetAtRun
  cases b.index pos with
  | error e => rfl
  | ok idx => rfl

end engine

namespace gogame

open engine

theorem Get_writeAt {b : Board} {p : Position} (h : b.InBounds p) (v : Int) (q : Position) :
    (b.writeAt (p.Row * b.Cols + p.Col) v).Get q = if q = p then .ok v else b.Get q := by
  have e := placed_Get h v q
  rw [placed_inBounds h] at e
  exact e

theorem SetRun_outside {b : Board} {pos : Position} (h : ¬ b.InBounds pos) (v : Int) :
    b.SetRun pos v = (b, some (.indexOutOfBounds pos.Row pos.Col)) := by
  unfold Board.SetRun
  rw [Board.index_error h]

theorem SetRun_occupied {b : Board} {pos : Position} (h : b.InBounds pos)
    (hv : valOrZero b pos ≠ 0) (v : Int) :
    b.SetRun pos v = (b, some (.occupied pos.Row pos.Col)) := by
  unfold Board.SetRun
  rw [Board.index_ok h]
  rw [valOrZero_inBounds h] at hv
  simp [hv]

theorem SetRun_empty {b : Board} {pos : Position} (h : b.InBounds pos)
    (hv : valOrZero b pos = 0) (v : Int) :
    b.SetRun pos v = (b.writeAt (pos.Row * b.Cols + pos.Col) v, none) := by
  unfold Board.SetRun
  rw [Board.index_ok h]
  rw [valOrZero_inBounds h] at hv
  simp [hv]

theorem SetAtRun_outside {b : Board} {pos : Position} (h : ¬ b.InBounds pos) (v : Int) :
    b.SetAtRun pos v = (b, some (.indexOutOfBounds pos.Row pos.Col)) := by
  unfold Board.SetAtRun
  rw [Board.index_error h]

theorem SetAtRun_inside {b : Board} {pos : Position} (h : b.InBounds pos) (v : Int) :
    b.SetAtRun pos v = (b.writeAt (pos.Row * b.Cols + pos.Col) v, none) := by
  unfold Board.SetAtRun
  rw [Board.index_ok h]

theorem Set_outside {b : Board} {pos : Position} (h : ¬ b.InBounds pos) (v : Int) :
    b.Set pos v = .error (.indexOutOfBounds pos.Row pos.Col) := by
  unfold Board.Set
  rw [Board.index_error h]

theorem SetAt_outside {b : Board} {pos : Position} (h : ¬ b.InBounds pos) (v : Int) :
    b.SetAt pos v = .error (.indexOutOfBounds pos.Row pos.Col) := by
  unfold Board.SetAt
  rw [Board.index_error h]

/-- The errors `Set` can return, with their causes. -/
theorem Set_error_inv {b : Board} {pos : Position} {v : Int} {e : Err}
    (h : b.Set pos v = .error e) :
    (e = .indexOutOfBounds pos.Row pos.Col ∧ ¬ b.InBounds pos) ∨
      (e = .occupied pos.Row pos.Col ∧ b.InBounds pos ∧ valOrZero b pos ≠ 0) := by
  by_cases hin : b.InBounds pos
  · by_cases hv : valOrZero b pos = 0
    · rw [Set_inBounds_empty hin hv] at h
      cases h
    · rw [Set_inBounds_occupied hin hv] at h
      injection h with h
      exact Or.inr ⟨h.symm, hin, hv⟩
  · rw [Set_outside hin] at h
    injection h with h
    exact Or.inl ⟨h.symm, hin⟩

/-- The errors `collectGroup` can return. -/
theorem collectGroup_error_kind {b : Board} {start : Position} {e : Err}
    (h : collectGroup b start = .error e) :
    (∃ r c, e = .indexOutOfBounds r c) ∨ (∃ r c, e = .noStone r c) := by
  by_cases hin : b.InBounds start
  · by_cases hv : valOrZero b start = 0
    · rw [collectGroup_empty hin hv] at h
      injection h with h
      exact Or.inr ⟨_, _, h.symm⟩
    · obtain ⟨G, L, hrun, _⟩ := collectGroup_reach hin hv
      rw [hrun] at h
      cases h
  · rw [collectGroup_outside hin] at h
    injection h with h
    exact Or.inl ⟨_, _, h.symm⟩

/-- The errors the clearing loop can return. -/
theorem clearGroup_error_kind : ∀ (group : List Position) (w : Board) (e : Err),
    clearGroup group w = .error e → ∃ r c, e = .indexOutOfBounds r c := by
  intro group
  induction group with
  | nil =>
    intro w e h
    cases h
  | cons p ps ih =>
    intro w e h
    unfold clearGroup at h
    by_cases hin : w.InBounds p
    · rw [SetAt_inBounds hin] at h
      exact ih _ e h
    · rw [SetAt_outside hin] at h
      injection h with h
      exact ⟨_, _, h.symm⟩

/-- The errors the capture loop can return. -/
theorem captureLoop_error_kind (opp : Int) : ∀ (ns : List Position) (w : Board) (t : Int)
    (e : Err), captureLoop opp ns w t = .error e →
    (∃ r c, e = .indexOutOfBounds r c) ∨ (∃ r c, e = .noStone r c) := by
  intro ns
  induction ns with
  | nil =>
    intro w t e h
    cases h
  | cons n ns ih =>
    intro w t e h
    unfold captureLoop at h
    split_ifs at h with hv
    · exact ih w t e h
    · cases hcg : collectGroup w n with
      | error e2 =>
        rw [hcg] at h
        injection h with h
        rw [← h]
        exact collectGroup_error_kind hcg
      | ok gl =>
        obtain ⟨G, L⟩ := gl
        rw [hcg] at h
        simp only at h
        split_ifs at h with hL
        · cases hclr : clearGroup G w with
          | error e2 =>
            rw [hclr] at h
            injection h with h
            rw [← h]
            exact Or.inl (clearGroup_error_kind G w e2 hclr)
          | ok w2 =>
            rw [hclr] at h
            exact ih _ _ e h
        · exact ih w t e h

theorem PlayMove_finished {g : Game} (h : g.ToPlay = None) (pos : Position) :
    g.PlayMove pos = (g, .error .finished) := by
  unfold Game.PlayMove
  rw [if_pos h]

theorem PlayMove_outOfBounds {g : Game} (h : g.ToPlay ≠ None) {pos : Position}
    (hout : pos.Row < 0 ∨ pos.Row ≥ g.Size ∨ pos.Col < 0 ∨ pos.Col ≥ g.Size) :
    g.PlayMove pos = (g, .error .outOfBounds) := by
  unfold Game.PlayMove
  rw [if_neg h]
  simp only
  rw [if_pos hout]

theorem PlayMove_set_error {g : Game} (h : g.ToPlay ≠ None) {pos : Position}
    (hin : ¬ (pos.Row < 0 ∨ pos.Row ≥ g.Size ∨ pos.Col < 0 ∨ pos.Col ≥ g.Size)) {e : Err}
    (hset : g.Board.Set pos g.ToPlay = .error e) : g.PlayMove pos = (g, .error e) := by
  unfold Game.PlayMove
  rw [if_neg h]
  simp only
  rw [if_neg hin, Board.Clone_eq, hset]

/-- `PlayMove` once the stone is on the scratch board. -/
theorem PlayMove_after_set {g : Game} (h : g.ToPlay ≠ None) {pos : Position}
    (hin : ¬ (pos.Row < 0 ∨ pos.Row ≥ g.Size ∨ pos.Col < 0 ∨ pos.Col ≥ g.Size))
    {b1 : Board} (hset : g.Board.Set pos g.ToPlay = .ok b1) :
    g.PlayMove pos =
      (match captureLoop (other g.ToPlay) (neighbors g.Size pos) b1 0 with
        | .error e => (g, Except.error e)
        | .ok (working, totalCaptured) =>
          match collectGroup working pos with
          | .error e => (g, .error e)
          | .ok (_, libs) =>
            if libs.card = 0 then (g, .error .suicide)
            else if serialize working (other g.ToPlay) ∈ g.history then (g, .error .superko)
            else (committed g working totalCaptured, .ok (MoveResult.mk totalCaptured))) := by
  unfold Game.PlayMove
  rw [if_neg h]
  simp only
  rw [if_neg hin, Board.Clone_eq, hset]
  rfl

/-- The errors `PlayMove` can return once the stone is on the scratch board. -/
theorem PlayMove_late_error {g : Game} (h : g.ToPlay ≠ None) {pos : Position}
    (hin : ¬ (pos.Row < 0 ∨ pos.Row ≥ g.Size ∨ pos.Col < 0 ∨ pos.Col ≥ g.Size))
    {b1 : Board} (hset : g.Board.Set pos g.ToPlay = .ok b1) {e : Err}
    (he : (g.PlayMove pos).2 = .error e) :
    e = .suicide ∨ e = .superko ∨ (∃ r c, e = .indexOutOfBounds r c) ∨
      (∃ r c, e = .noStone r c) := by
  rw [PlayMove_after_set h hin hset] at he
  cases hloop : captureLoop (other g.ToPlay) (neighbors g.Size pos) b1 0 with
  | error e2 =>
    rw [hloop] at he
    simp only at he
    injection he with he
    rw [← he]
    exact Or.inr (Or.inr (captureLoop_error_kind _ _ _ _ _ hloop))
  | ok wt =>
    obtain ⟨w, total⟩ := wt
    rw [hloop] at he
    simp only at he
    cases hcg : collectGroup w pos with
    | error e2 =>
      rw [hcg] at he
      simp only at he
      injection he with he
      rw [← he]
      exact Or.inr (Or.inr (collectGroup_error_kind hcg))
    | ok gl =>
      obtain ⟨G, L⟩ := gl
      rw [hcg] at he
      simp only at he
      split_ifs at he
      · injection he with he
        exact Or.inl he.symm
      · injection he with he
        exact Or.inr (Or.inl he.symm)

/-- Every error `PlayMove` returns is one of the source's messages: the budget of the
embedded flood-fill loop is never the cause. -/
theorem PlayMove_error_kind {g : Game} {pos : Position} {e : Err}
    (he : (g.PlayMove pos).2 = .error e) :
    e = .finished ∨ e = .outOfBounds ∨ e = .suicide ∨ e = .superko ∨
      (∃ r c, e = .indexOutOfBounds r c) ∨ (∃ r c, e = .occupied r c) ∨
      (∃ r c, e = .noStone r c) := by
  by_cases h : g.ToPlay = None
  · rw [PlayMove_finished h] at he
    injection he with he
    exact Or.inl he.symm
  · by_cases hin : pos.Row < 0 ∨ pos.Row ≥ g.Size ∨ pos.Col < 0 ∨ pos.Col ≥ g.Size
    · rw [PlayMove_outOfBounds h hin] at he
      injection he with he
      exact Or.inr (Or.inl he.symm)
    · cases hset : g.Board.Set pos g.ToPlay with
      | error e2 =>
        rw [PlayMove_set_error h hin hset] at he
        injection he with he
        rw [← he]
        rcases Set_error_inv hset with ⟨h1, _⟩ | ⟨h1, _⟩
        · exact Or.inr (Or.inr (Or.inr (Or.inr (Or.inl ⟨_, _, h1⟩))))
        · exact Or.inr (Or.inr (Or.inr (Or.inr (Or.inr (Or.inl ⟨_, _, h1⟩)))))
      | ok b1 =>
        rcases PlayMove_late_error h hin hset he with h1 | h1 | h1 | h1
        · exact Or.inr (Or.inr (Or.inl h1))
        · exact Or.inr (Or.inr (Or.inr (Or.inl h1)))
        · exact Or.inr (Or.inr (Or.inr (Or.inr (Or.inl h1))))
        · exact Or.inr (Or.inr (Or.inr (Or.inr (Or.inr (Or.inr h1)))))

/-- What a successful `collectGroup` says about its arguments and its result. -/
theorem collectGroup_ok_inv {b : Board} {start : Position} {G : List Position}
    {L : Finset Position} (h : collectGroup b start = .ok (G, L)) :
    b.InBounds start ∧ valOrZero b start ≠ 0 ∧ G.Nodup ∧
      (∀ p, p ∈ G ↔ Reach b (valOrZero b start) start p) ∧
      (∀ n, n ∈ L ↔ ∃ p, Reach b (valOrZero b start) start p ∧ n ∈ neighbors b.Rows p ∧
        valOrZero b n = 0) := by
  have hin : b.InBounds start := by
    by_contra hout
    rw [collectGroup_outside hout] at h
    cases h
  have hv : valOrZero b start ≠ 0 := by
    intro h0
    rw [collectGroup_empty hin h0] at h
    cases h
  obtain ⟨G2, L2, hrun, hnd, hG, hL⟩ := collectGroup_reach hin hv
  rw [hrun] at h
  injection h with h
  injection h with h1 h2
  subst h1; subst h2
  exact ⟨hin, hv, hnd, hG, hL⟩

/-- At a start on the board `collectGroup` can only fail because the cell is empty. -/
theorem collectGroup_error_inBounds {b : Board} {start : Position} {e : Err}
    (hin : b.InBounds start) (h : collectGroup b start = .error e) :
    e = .noStone start.Row start.Col := by
  by_cases h0 : valOrZero b start = 0
  · rw [collectGroup_empty hin h0] at h
    injection h with h
    exact h.symm
  · obtain ⟨G, L, hrun, _⟩ := collectGroup_reach hin h0
    rw [hrun] at h
    cases h

/-- The capture loop keeps the dimensions of the scratch board. -/
theorem captureLoop_dims (opp : Int) : ∀ (ns : List Position) (w : Board) (t : Int)
    (w2 : Board) (t2 : Int), captureLoop opp ns w t = .ok (w2, t2) →
    w2.Rows = w.Rows ∧ w2.Cols = w.Cols := by
  intro ns w t w2 t2 h
  by_cases hopp : opp = 0
  · subst hopp
    obtain ⟨h1, _, _⟩ := captureLoop_zero ns w t w2 t2 h
    rw [h1]
    exact ⟨rfl, rfl⟩
  · obtain ⟨w3, t3, hrun, hr, hc, _, _⟩ := captureLoop_keeps hopp ns w t
    rw [h] at hrun
    injection hrun with hrun
    injection hrun with e1 e2
    subst e1
    exact ⟨hr, hc⟩

/-- Over neighbours that lie on the board the capture loop can only fail at an empty
cell. -/
theorem captureLoop_error_inBounds (opp : Int) : ∀ (ns : List Position) (w : Board)
    (t : Int) (e : Err), (∀ n ∈ ns, w.InBounds n) → captureLoop opp ns w t = .error e →
    ∃ r c, e = .noStone r c := by
  intro ns
  induction ns with
  | nil =>
    intro w t e _ h
    cases h
  | cons n ns ih =>
    intro w t e hin h
    have hn := hin n (List.mem_cons_self _ _)
    have hrest : ∀ m ∈ ns, w.InBounds m := fun m hm => hin m (List.mem_cons_of_mem _ hm)
    unfold captureLoop at h
    split_ifs at h with hv
    · exact ih w t e hrest h
    · cases hcg : collectGroup w n with
      | error e2 =>
        rw [hcg] at h
        injection h with h
        rw [← h]
        exact ⟨_, _, collectGroup_error_inBounds hn hcg⟩
      | ok gl =>
        obtain ⟨G, L⟩ := gl
        rw [hcg] at h
        simp only at h
        obtain ⟨_, hv0, _, hG, _⟩ := collectGroup_ok_inv hcg
        split_ifs at h with hL
        · have hGin : ∀ p ∈ G, w.InBounds p := by
            intro p hp
            apply inBounds_of_valOrZero_ne
            rw [((hG p).mp hp).sameColor rfl]
            exact hv0
          obtain ⟨w1, hclr, hr1, hc1, _⟩ := clearGroup_spec G w hGin
          rw [hclr] at h
          simp only at h
          refine ih w1 _ e ?_ h
          intro m hm
          have := hrest m hm
          unfold Board.InBounds at this ⊢
          rw [hr1, hc1]
          exact this
        · exact ih w t e hrest h

/-- On a session whose board is `Size × Size` no call of `PlayMove` fails inside the grid's
index computation. -/
theorem PlayMove_square_no_index_error {g : Game} {pos : Position}
    (hsq : g.Board.Rows = g.Size ∧ g.Board.Cols = g.Size) (r c : Int) :
    (g.PlayMove pos).2 ≠ .error (.indexOutOfBounds r c) := by
  intro he
  by_cases hact : g.ToPlay = None
  · rw [PlayMove_finished hact] at he
    cases he
  by_cases hout : pos.Row < 0 ∨ pos.Row ≥ g.Size ∨ pos.Col < 0 ∨ pos.Col ≥ g.Size
  · rw [PlayMove_outOfBounds hact hout] at he
    cases he
  have hin : g.Board.InBounds pos := by
    unfold Board.InBounds
    rw [hsq.1, hsq.2]
    omega
  have hsqb : g.Board.Rows = g.Board.Cols := hsq.1.trans hsq.2.symm
  cases hset : g.Board.Set pos g.ToPlay with
  | error e2 =>
    rw [PlayMove_set_error hact hout hset] at he
    injection he with he
    rcases Set_error_inv hset with ⟨_, h2⟩ | ⟨h1, _⟩
    · exact h2 hin
    · rw [h1] at he
      cases he
  | ok b1 =>
    obtain ⟨_, _, hb1⟩ := Set_ok_inv hset
    rw [PlayMove_after_set hact hout hset] at he
    have hnb : ∀ n ∈ neighbors g.Size pos, b1.InBounds n := by
      intro n hn
      rw [← hsq.1] at hn
      have := ((mem_neighbors_square hsqb).mp hn).2
      rw [hb1]
      unfold Board.InBounds at this ⊢
      rw [placed_Rows, placed_Cols]
      exact this
    cases hloop : captureLoop (other g.ToPlay) (neighbors g.Size pos) b1 0 with
    | error e2 =>
      rw [hloop] at he
      simp only at he
      injection he with he
      obtain ⟨r2, c2, h1⟩ := captureLoop_error_inBounds _ _ _ _ _ hnb hloop
      rw [h1] at he
      cases he
    | ok wt =>
      obtain ⟨w, total⟩ := wt
      rw [hloop] at he
      simp only at he
      obtain ⟨hr, hc⟩ := captureLoop_dims _ _ _ _ _ _ hloop
      have hwin : w.InBounds pos := by
        unfold Board.InBounds at hin ⊢
        rw [hr, hc, hb1, placed_Rows, placed_Cols]
        exact hin
      cases hcg : collectGroup w pos with
      | error e2 =>
        rw [hcg] at he
        simp only at he
        injection he with he
        rw [collectGroup_error_inBounds hwin hcg] at he
        cases he
      | ok gl =>
        obtain ⟨G, L⟩ := gl
        rw [hcg] at he
        simp only at he
        split_ifs at he <;> cases he

/-- **C11** (placement preconditions). With no side to move `PlayMove` returns the
game-finished error for every `pos`. With a side to move it returns its out-of-bounds error
exactly when a coordinate of `pos` lies outside `[0, Size)`, and the already-occupied error
(always for `pos` itself) exactly when `pos` is inside `[0, Size)²` and the board holds a
non-empty value there; nothing later in the call can produce or prevent either. On a
session whose board is `Size × Size` the grid's own out-of-range error never comes out of
`PlayMove`, so there is no other out-of-bounds failure. -/
theorem PlayMove_preconditions (g : Game) (pos : Position) :
    (g.ToPlay = None → (g.PlayMove pos).2 = .error .finished) ∧
      (g.ToPlay ≠ None →
        ((g.PlayMove pos).2 = .error .outOfBounds ↔
          (pos.Row < 0 ∨ pos.Row ≥ g.Size ∨ pos.Col < 0 ∨ pos.Col ≥ g.Size)) ∧
        ((g.PlayMove pos).2 = .error (.occupied pos.Row pos.Col) ↔
          (0 ≤ pos.Row ∧ pos.Row < g.Size ∧ 0 ≤ pos.Col ∧ pos.Col < g.Size) ∧
            ∃ v, g.Board.Get pos = .ok v ∧ v ≠ 0) ∧
        (∀ r c, (g.PlayMove pos).2 = .error (.occupied r c) → r = pos.Row ∧ c = pos.Col)) ∧
      (g.Board.Rows = g.Size ∧ g.Board.Cols = g.Size →
        ∀ r c, (g.PlayMove pos).2 ≠ .error (.indexOutOfBounds r c)) := by
  refine ⟨fun h => by rw [PlayMove_finished h], ?_,
    fun hsq r c => PlayMove_square_no_index_error hsq r c⟩
  intro hact
  -- the outcome when `pos` is inside `[0, Size)²`
  have inside : ¬ (pos.Row < 0 ∨ pos.Row ≥ g.Size ∨ pos.Col < 0 ∨ pos.Col ≥ g.Size) →
      ∀ e, (g.PlayMove pos).2 = .error e →
        (e = .occupied pos.Row pos.Col ∧ g.Board.InBounds pos ∧ valOrZero g.Board pos ≠ 0) ∨
        ((∀ r c, e ≠ .occupied r c) ∧ e ≠ .outOfBounds) := by
    intro hin e he
    cases hset : g.Board.Set pos g.ToPlay with
    | error e2 =>
      rw [PlayMove_set_error hact hin hset] at he
      injection he with he
      subst he
      rcases Set_error_inv hset with ⟨h1, _⟩ | ⟨h1, h2, h3⟩
      · right
        rw [h1]
        exact ⟨fun _ _ hh => (nomatch hh), fun hh => (nomatch hh)⟩
      · exact Or.inl ⟨h1, h2, h3⟩
    | ok b1 =>
      right
      rcases PlayMove_late_error hact hin hset he with h1 | h1 | ⟨r, c, h1⟩ | ⟨r, c, h1⟩ <;>
        rw [h1] <;> exact ⟨fun _ _ hh => (nomatch hh), fun hh => (nomatch hh)⟩
  refine ⟨?_, ?_, ?_⟩
  · constructor
    · intro he
      by_contra hin
      rcases inside hin _ he with ⟨h1, _⟩ | ⟨_, h2⟩
      · cases h1
      · exact h2 rfl
    · intro hout
      rw [PlayMove_outOfBounds hact hout]
  · constructor
    · intro he
      have hin : ¬ (pos.Row < 0 ∨ pos.Row ≥ g.Size ∨ pos.Col < 0 ∨ pos.Col ≥ g.Size) := by
        intro hout
        rw [PlayMove_outOfBounds hact hout] at he
        cases he
      rcases inside hin _ he with ⟨_, h2, h3⟩ | ⟨h1, _⟩
      · exact ⟨by omega, valOrZero g.Board pos, Get_eq_ok_valOrZero h2, h3⟩
      · exact absurd rfl (h1 _ _)
    · rintro ⟨hin, v, hget, hv⟩
      obtain ⟨hb, hval⟩ := Get_ok_iff.mp hget
      rw [PlayMove_set_error hact (by omega)
        (Set_inBounds_occupied hb (by rw [hval]; exact hv) g.ToPlay)]
  · intro r c he
    have hin : ¬ (pos.Row < 0 ∨ pos.Row ≥ g.Size ∨ pos.Col < 0 ∨ pos.Col ≥ g.Size) := by
      intro hout
      rw [PlayMove_outOfBounds hact hout] at he
      cases he
    rcases inside hin _ he with ⟨h1, _⟩ | ⟨h1, _⟩
    · injection h1 with h1 h2
      exact ⟨h1, h2⟩
    · exact absurd rfl (h1 _ _)

/-- **C12** (conditional write). `Set pos v` fails with the out-of-range error when `pos`
is outside `[0, Rows) × [0, Cols)` and with the already-occupied error when `pos` is in
range and its cell is non-zero, and in both cases the receiver is left as it was; otherwise
it succeeds, after which the cell at `pos` reads `v` and every other cell reads as
before. -/
theorem Board_Set_spec (b : Board) (pos : Position) (v : Int) :
    (¬ b.InBounds pos →
        b.Set pos v = .error (.indexOutOfBounds pos.Row pos.Col) ∧
        b.SetRun pos v = (b, some (.indexOutOfBounds pos.Row pos.Col))) ∧
      (b.InBounds pos → ∀ c, b.Get pos = .ok c → c ≠ 0 →
        b.Set pos v = .error (.occupied pos.Row pos.Col) ∧
        b.SetRun pos v = (b, some (.occupied pos.Row pos.Col))) ∧
      (b.InBounds pos → b.Get pos = .ok 0 →
        ∃ b2, b.Set pos v = .ok b2 ∧ b.SetRun pos v = (b2, none) ∧
          b2.Rows = b.Rows ∧ b2.Cols = b.Cols ∧ b2.Get pos = .ok v ∧
          ∀ q, q ≠ pos → b2.Get q = b.Get q) := by
  refine ⟨?_, ?_, ?_⟩
  · intro hout
    exact ⟨Set_outside hout v, SetRun_outside hout v⟩
  · intro hin c hget hc
    have hv : valOrZero b pos ≠ 0 := by
      rw [(Get_ok_iff.mp hget).2]
      exact hc
    exact ⟨Set_inBounds_occupied hin hv v, SetRun_occupied hin hv v⟩
  · intro hin hget
    have hv : valOrZero b pos = 0 := (Get_ok_iff.mp hget).2
    refine ⟨_, Set_inBounds_empty hin hv v, SetRun_empty hin hv v, rfl, rfl, ?_, ?_⟩
    · rw [Get_writeAt hin, if_pos rfl]
    · intro q hq
      rw [Get_writeAt hin, if_neg hq]

/-- C11 at the ko: (0,5) is off the board, (0,0) is taken, and the retake at (0,1), in
range and empty, fails for neither reason. -/
theorem PlayMove_preconditions_witness :
    (koFight.ToPlay ≠ None ∧
      (koFight.PlayMove ⟨0, 5⟩).2 = .error .outOfBounds ∧
      (koFight.PlayMove ⟨0, 0⟩).2 = .error (.occupied 0 0) ∧
      (koFight.PlayMove ⟨0, 1⟩).2 = .error .superko) ∧
      (((koFight.PlayMove ⟨0, 5⟩).2 = .error .outOfBounds ↔
          ((⟨0, 5⟩ : Position).Row < 0 ∨ (⟨0, 5⟩ : Position).Row ≥ koFight.Size ∨
            (⟨0, 5⟩ : Position).Col < 0 ∨ (⟨0, 5⟩ : Position).Col ≥ koFight.Size)) ∧
        ((koFight.PlayMove ⟨0, 5⟩).2 =
            .error (.occupied (⟨0, 5⟩ : Position).Row (⟨0, 5⟩ : Position).Col) ↔
          (0 ≤ (⟨0, 5⟩ : Position).Row ∧ (⟨0, 5⟩ : Position).Row < koFight.Size ∧
            0 ≤ (⟨0, 5⟩ : Position).Col ∧ (⟨0, 5⟩ : Position).Col < koFight.Size) ∧
            ∃ v, koFight.Board.Get ⟨0, 5⟩ = .ok v ∧ v ≠ 0) ∧
        (∀ r c, (koFight.PlayMove ⟨0, 5⟩).2 = .error (.occupied r c) →
          r = (⟨0, 5⟩ : Position).Row ∧ c = (⟨0, 5⟩ : Position).Col)) :=
  ⟨⟨by decide, by decide, by decide, by decide⟩,
    (PlayMove_preconditions koFight ⟨0, 5⟩).2.1 (by decide)⟩

/-- C12 on the bent board: a write to the empty cell (1,1). -/
theorem Board_Set_spec_witness :
    (bentBoard.InBounds ⟨1, 1⟩ ∧ bentBoard.Get ⟨1, 1⟩ = .ok 0 ∧
      bentBoard.Set ⟨0, 0⟩ 2 = .error (.occupied 0 0) ∧
      bentBoard.Set ⟨0, 4⟩ 2 = .error (.indexOutOfBounds 0 4)) ∧
      ∃ b2, bentBoard.Set ⟨1, 1⟩ 2 = .ok b2 ∧ bentBoard.SetRun ⟨1, 1⟩ 2 = (b2, none) ∧
        b2.Rows = bentBoard.Rows ∧ b2.Cols = bentBoard.Cols ∧ b2.Get ⟨1, 1⟩ = .ok 2 ∧
        ∀ q, q ≠ ⟨1, 1⟩ → b2.Get q = bentBoard.Get q :=
  ⟨⟨by decide, by decide, by decide, by decide⟩,
    (Board_Set_spec bentBoard ⟨1, 1⟩ 2).2.2 (by decide) (by decide)⟩

/-! ## The 3 × 3 capture scenario -/

/-- What `TestCaptureSingleStone` asserts does not hold of the code: the seven placements
are accepted, but afterwards B2 is not empty and Black's tally is not 1. -/
theorem capture_scenario_as_stated_fails :
    ¬ ((∀ r ∈ playResults emptyThree captureScenario, ∃ m, r = .ok m) ∧
        (emptyThree.run (captureScenario.map Op.play)).Board.Get ⟨1, 1⟩ = .ok 0 ∧
        (emptyThree.run (captureScenario.map Op.play)).Captures Black = 1) := by
  rintro ⟨_, h, _⟩
  revert h
  decide

/-- **C14** (the 3 × 3 scenario, as the code plays it). `NewGame 3`, with which
`TestCaptureSingleStone` starts, returns the size error. On the empty 3 × 3 board with
Black to move, the placements A2, B2, B1, C3, C2, C1, B3 are all accepted; the sixth, White
at C1, takes the Black stone at C2, and nothing else is taken. After the last placement B2
still holds the White stone, C2 is empty, White's tally is 1 and Black's is 0, where the
test asserts B2 empty and a tally of 1 for Black. -/
theorem capture_scenario_outcome :
    NewGame 3 = .error .boardSize ∧
      playResults emptyThree captureScenario =
        [.ok ⟨0⟩, .ok ⟨0⟩, .ok ⟨0⟩, .ok ⟨0⟩, .ok ⟨0⟩, .ok ⟨1⟩, .ok ⟨0⟩] ∧
      (emptyThree.run (captureScenario.map Op.play)).Board.Get ⟨1, 1⟩ = .ok White ∧
      (emptyThree.run (captureScenario.map Op.play)).Board.Get ⟨1, 2⟩ = .ok 0 ∧
      (emptyThree.run (captureScenario.map Op.play)).Captures White = 1 ∧
      (emptyThree.run (captureScenario.map Op.play)).Captures Black = 0 := by
  refine ⟨rfl, by decide, by decide, by decide, by decide, by decide⟩

/-! ## Suicide after capture resolution -/

/-- The outcome of `PlayMove` on an active square session at an in-range empty cell whose
capture loop ended with the scratch board `w` and the count `total`: `w` is the
post-capture board, `total` counts the captured cells, and the result is the suicide error
when the placed stone has no liberty on `w`, otherwise the superko error or acceptance
according to the history. -/
theorem PlayMove_square_outcome {g : Game} {pos : Position} (hact : g.ToPlay ≠ None)
    (hsq : g.Board.Rows = g.Size ∧ g.Board.Cols = g.Size) (hin : g.Board.InBounds pos)
    (hemp : g.Board.Get pos = .ok 0) {w : Board} {total : Int}
    (hloop : captureLoop (other g.ToPlay) (neighbors g.Size pos)
      (placed g.Board pos g.ToPlay) 0 = .ok (w, total)) :
    AfterCapture g.Board pos g.ToPlay w ∧
      (∃ S : Finset Position,
        (∀ q, q ∈ S ↔ CapturedCell (placed g.Board pos g.ToPlay) (other g.ToPlay) pos q) ∧
        total = (S.card : Int)) ∧
      ((¬ ∃ e, LibertyOf w g.ToPlay pos e) → g.PlayMove pos = (g, .error .suicide)) ∧
      ((∃ e, LibertyOf w g.ToPlay pos e) → serialize w (other g.ToPlay) ∈ g.history →
        g.PlayMove pos = (g, .error .superko)) ∧
      ((∃ e, LibertyOf w g.ToPlay pos e) → serialize w (other g.ToPlay) ∉ g.history →
        g.PlayMove pos = (committed g w total, .ok ⟨total⟩)) := by
  have hrange : ¬ (pos.Row < 0 ∨ pos.Row ≥ g.Size ∨ pos.Col < 0 ∨ pos.Col ≥ g.Size) := by
    unfold Board.InBounds at hin
    rw [hsq.1, hsq.2] at hin
    omega
  have hsqb : g.Board.Rows = g.Board.Cols := hsq.1.trans hsq.2.symm
  have hloop2 := hloop
  rw [← hsq.1, ← placed_Rows g.Board pos g.ToPlay] at hloop2
  have inv := captureLoop_result hloop2
  rw [placed_Rows] at inv
  obtain ⟨hafter, hS⟩ := afterCapture_of_inv hsqb hin hact inv
  have hwsq : w.Rows = w.Cols := by
    rw [hafter.1, hafter.2.1]
    exact hsqb
  obtain ⟨grp, libs, hcg, _, _, hlibs⟩ :=
    collectGroup_square hwsq hafter.2.2.1 (show g.ToPlay ≠ 0 from hact)
  have hunf := PlayMove_after_set hact hrange (Set_eq_placed hin hemp g.ToPlay)
  rw [hloop] at hunf
  simp only at hunf
  rw [hcg] at hunf
  simp only at hunf
  have hcard : libs.card = 0 ↔ ¬ ∃ e, LibertyOf w g.ToPlay pos e := by
    rw [Finset.card_eq_zero]
    constructor
    · rintro hempty ⟨e, he⟩
      have := (hlibs e).mpr he
      rw [hempty] at this
      simp at this
    · intro hno
      apply Finset.eq_empty_of_forall_not_mem
      intro e he
      exact hno ⟨e, (hlibs e).mp he⟩
  refine ⟨hafter, hS, ?_, ?_, ?_⟩
  · intro hno
    rw [hunf, if_pos (hcard.mpr hno)]
  · intro hlib hhist
    rw [hunf, if_neg (fun h => (hcard.mp h) hlib), if_pos hhist]
  · intro hlib hhist
    rw [hunf, if_neg (fun h => (hcard.mp h) hlib), if_neg hhist]

/-- Reading the board with the stone placed next to reading the board before. -/
theorem placed_Get_ne {b : Board} {pos : Position} (hin : b.InBounds pos) (m : Int)
    {q : Position} (hq : q ≠ pos) : (placed b pos m).Get q = b.Get q := by
  rw [placed_Get hin, if_neg hq]

/-- A path through cells of a colour the empty cell `pos` does not get is still a path
once `pos` is occupied by another colour. -/
theorem Connected.after_placing {b : Board} {pos : Position} (hin : b.InBounds pos)
    (hemp : b.Get pos = .ok 0) (m : Int) {c : Int} (hc : c ≠ 0) {n p : Position}
    (h : Connected b c n p) : Connected (placed b pos m) c n p := by
  induction h with
  | refl => exact Relation.ReflTransGen.refl
  | @tail x y _ hl ih =>
    refine Relation.ReflTransGen.tail ih ⟨hl.1, ?_⟩
    have hy : y ≠ pos := by
      intro e
      have h2 := hl.2
      rw [e, hemp] at h2
      injection h2 with h0
      exact hc h0.symm
    rw [placed_Get_ne hin m hy]
    exact hl.2

/-- **C15** (a surrounded point is suicide). On an active session whose board is
`Size × Size`, at an in-range empty `pos`: if every in-range orthogonal neighbour of `pos`
holds a stone of the opponent whose group has a liberty other than `pos`, then `PlayMove`
fails with the suicide error and leaves the session, its board included, as it was. -/
theorem PlayMove_surrounded_suicide (g : Game) (pos : Position) (hact : g.ToPlay ≠ None)
    (hsq : g.Board.Rows = g.Size ∧ g.Board.Cols = g.Size) (hin : g.Board.InBounds pos)
    (hemp : g.Board.Get pos = .ok 0)
    (hsur : ∀ n, Adjacent pos n → g.Board.InBounds n →
      g.Board.Get n = .ok (other g.ToPlay) ∧ other g.ToPlay ≠ None ∧
        ∃ e, e ≠ pos ∧ LibertyOf g.Board (other g.ToPlay) n e) :
    (g.PlayMove pos).2 = .error .suicide ∧ (g.PlayMove pos).1 = g ∧
      (g.PlayMove pos).1.Board = g.Board := by
  have hsqb : g.Board.Rows = g.Board.Cols := hsq.1.trans hsq.2.symm
  have hnbr : ∀ n, n ∈ neighbors g.Size pos → Adjacent pos n ∧ g.Board.InBounds n := by
    intro n hn
    rw [← hsq.1] at hn
    exact (mem_neighbors_square hsqb).mp hn
  have hdim : ∀ q, (placed g.Board pos g.ToPlay).InBounds q ↔ g.Board.InBounds q := by
    intro q
    unfold Board.InBounds
    rw [placed_Rows, placed_Cols]
  have hadjne : ∀ n, Adjacent pos n → n ≠ pos := by
    intro n hadj e
    rw [e] at hadj
    unfold Adjacent at hadj
    omega
  -- no opponent group next to `pos` is without a liberty
  have hnocap : ∀ q, ¬ CapturedCell (placed g.Board pos g.ToPlay) (other g.ToPlay) pos q := by
    rintro q ⟨n, hadj, hget, _, hno⟩
    have hnin : g.Board.InBounds n := (hdim n).mp (Get_ok_iff.mp hget).1
    obtain ⟨_, hopp, e, hepos, hle, p, hp, hpe⟩ := hsur n hadj hnin
    apply hno
    refine ⟨e, ?_, p, hp.after_placing hin hemp g.ToPlay hopp, hpe⟩
    rw [placed_Get_ne hin _ hepos]
    exact hle
  have hb1 : AfterCapture g.Board pos g.ToPlay (placed g.Board pos g.ToPlay) := by
    refine ⟨placed_Rows _ _ _, placed_Cols _ _ _, ?_, ?_, ?_⟩
    · rw [placed_Get hin, if_pos rfl]
    · intro q hq
      exact absurd hq (hnocap q)
    · intro q hq _
      exact placed_Get_ne hin _ hq
  -- the capture loop succeeds
  have hloop : ∃ w total, captureLoop (other g.ToPlay) (neighbors g.Size pos)
      (placed g.Board pos g.ToPlay) 0 = .ok (w, total) := by
    rcases captureLoop_square_cases (placed g.Board pos g.ToPlay) (other g.ToPlay)
        (neighbors g.Size pos) with h | ⟨hopp, ⟨n, hn, _⟩, _⟩
    · exact h
    · obtain ⟨hadj, hnin⟩ := hnbr n hn
      exact absurd hopp (hsur n hadj hnin).2.1
  obtain ⟨w, total, hloop⟩ := hloop
  obtain ⟨hafter, _, hsui, _, _⟩ := PlayMove_square_outcome hact hsq hin hemp hloop
  -- the placed stone stands alone and has no empty neighbour
  have hno : ¬ ∃ e, LibertyOf w g.ToPlay pos e := by
    rintro ⟨e, he⟩
    obtain ⟨hge, p, hp, hpe⟩ := he.transfer (hafter.same_reading hb1)
    have hpp : p = pos := by
      clear hpe
      induction hp with
      | refl => rfl
      | @tail x y _ hl ih =>
        rw [ih] at hl
        have hy := hadjne y hl.1
        have hyin : g.Board.InBounds y := (hdim y).mp (Get_ok_iff.mp hl.2).1
        have h1 := hl.2
        rw [placed_Get_ne hin _ hy, (hsur y hl.1 hyin).1] at h1
        injection h1 with h1
        exact absurd h1 (other_ne_self hact)
    rw [hpp] at hpe
    have hein : g.Board.InBounds e := (hdim e).mp (Get_ok_iff.mp hge).1
    rw [placed_Get_ne hin _ (hadjne e hpe), (hsur e hpe hein).1] at hge
    injection hge with h0
    exact (hsur e hpe hein).2.1 h0
  rw [hsui hno]
  exact ⟨rfl, rfl, rfl⟩

/-- **C17** (a capturing placement is never suicide). On an active session whose board is
`Size × Size`, at an in-range empty `pos`: if the capture loop of `PlayMove` ends with a
positive count, the placed stone has a liberty on the post-capture board, the result is not
the suicide error, and the call is either rejected by the superko check or accepted with
that count. -/
theorem PlayMove_capture_not_suicide (g : Game) (pos : Position) (hact : g.ToPlay ≠ None)
    (hsq : g.Board.Rows = g.Size ∧ g.Board.Cols = g.Size) (hin : g.Board.InBounds pos)
    (hemp : g.Board.Get pos = .ok 0) (w : Board) (total : Int)
    (hloop : captureLoop (other g.ToPlay) (neighbors g.Size pos)
      (placed g.Board pos g.ToPlay) 0 = .ok (w, total))
    (hpos : 0 < total) :
    (∃ e, LibertyOf w g.ToPlay pos e) ∧
      (g.PlayMove pos).2 ≠ .error .suicide ∧
      ((g.PlayMove pos).2 = .error .superko ∨ (g.PlayMove pos).2 = .ok ⟨total⟩) := by
  obtain ⟨hafter, ⟨S, hS, ht⟩, _, hko, hok⟩ := PlayMove_square_outcome hact hsq hin hemp hloop
  have hne : S.Nonempty := by
    rw [← Finset.card_pos]
    rw [ht] at hpos
    exact_mod_cast hpos
  obtain ⟨q, hq⟩ := hne
  obtain ⟨n, hadj, hget, _, hno⟩ := (hS q).mp hq
  have hncap : CapturedCell (placed g.Board pos g.ToPlay) (other g.ToPlay) pos n :=
    ⟨n, hadj, hget, Relation.ReflTransGen.refl, hno⟩
  have hlib : ∃ e, LibertyOf w g.ToPlay pos e :=
    ⟨n, hafter.2.2.2.1 n hncap, pos, Relation.ReflTransGen.refl, hadj⟩
  refine ⟨hlib, ?_, ?_⟩
  · by_cases hh : serialize w (other g.ToPlay) ∈ g.history
    · rw [hko hlib hh]
      exact fun h => nomatch h
    · rw [hok hlib hh]
      exact fun h => nomatch h
  · by_cases hh : serialize w (other g.ToPlay) ∈ g.history
    · rw [hko hlib hh]
      exact Or.inl rfl
    · rw [hok hlib hh]
      exact Or.inr rfl

/-! ## Order independence of the capture loop -/

theorem boardCells_card_le (b : Board) : (boardCells b).card ≤ b.Rows.toNat * b.Cols.toNat := by
  unfold boardCells
  refine le_trans Finset.card_image_le ?_
  simp [Finset.card_product]

theorem mem_boardCells {b : Board} {p : Position} : p ∈ boardCells b ↔ b.InBounds p := by
  unfold boardCells Board.InBounds
  simp only [Finset.mem_image, Finset.mem_product, Finset.mem_range, Prod.exists]
  constructor
  · rintro ⟨r, c, ⟨hr, hc⟩, rfl⟩
    simp only
    omega
  · rintro ⟨h1, h2, h3, h4⟩
    refine ⟨p.Row.toNat, p.Col.toNat, ⟨by omega, by omega⟩, ?_⟩
    cases p with
    | mk r c =>
      simp only at h1 h3
      simp only [Position.mk.injEq]
      omega

/-- A step of the fill to a stone is a step along a same-colour path, on every board. -/
theorem Link.toColorStep {b : Board} {color : Int} (hc : color ≠ 0) {p q : Position}
    (h : Link b color p q) : ColorStep b color p q := by
  refine ⟨(mem_neighbors_iff.mp h.1).1, Get_ok_iff.mpr ⟨?_, h.2⟩⟩
  apply inBounds_of_valOrZero_ne
  rw [h.2]
  exact hc

/-- A step along a same-colour path is a step of the fill when the board has no more
columns than rows. -/
theorem ColorStep.toLink {b : Board} (hcr : b.Cols ≤ b.Rows) {color : Int} {p q : Position}
    (h : ColorStep b color p q) : Link b color p q := by
  obtain ⟨hin, hv⟩ := Get_ok_iff.mp h.2
  refine ⟨mem_neighbors_iff.mpr ⟨h.1, ?_⟩, hv⟩
  unfold Board.InBounds at hin
  omega

theorem Reach.toConnected {b : Board} {color : Int} (hc : color ≠ 0) {s p : Position}
    (h : Reach b color s p) : Connected b color s p := by
  induction h with
  | refl => exact Relation.ReflTransGen.refl
  | tail _ hl ih => exact Relation.ReflTransGen.tail ih (hl.toColorStep hc)

theorem Connected.toReach {b : Board} (hcr : b.Cols ≤ b.Rows) {color : Int} {s p : Position}
    (h : Connected b color s p) : Reach b color s p := by
  induction h with
  | refl => exact Relation.ReflTransGen.refl
  | tail _ hl ih => exact Relation.ReflTransGen.tail ih (hl.toLink hcr)

/-- On the tall board the liberty set of the corner stone holds two coordinates outside the
board although the group has no empty neighbour; on the wide board the group of the corner
stone misses the Black stone next to it. -/
theorem collectGroup_rectangular_fails :
    (tallBoard.Get ⟨0, 0⟩ = .ok 1 ∧
      collectGroup tallBoard ⟨0, 0⟩ = .ok ([⟨0, 0⟩, ⟨1, 0⟩], {⟨0, 1⟩, ⟨1, 1⟩}) ∧
      ¬ tallBoard.InBounds ⟨0, 1⟩ ∧ tallBoard.Get ⟨0, 1⟩ ≠ .ok 0) ∧
      (wideBoard.Get ⟨0, 0⟩ = .ok 1 ∧
        collectGroup wideBoard ⟨0, 0⟩ = .ok ([⟨0, 0⟩], ∅) ∧
        Connected wideBoard 1 ⟨0, 0⟩ ⟨0, 1⟩ ∧ (⟨0, 1⟩ : Position) ∉ [(⟨0, 0⟩ : Position)]) := by
  refine ⟨⟨by decide, by decide, by decide, by decide⟩, by decide, by decide, ?_, by decide⟩
  exact Relation.ReflTransGen.single ⟨by decide, by decide⟩

/-- **C18** (group resolution on boards of any shape, as the code does it). For every
board and every in-range occupied start, `collectGroup` succeeds, lists no cell twice, and
every cell of the returned group belongs to the connected same-colour component of the
start. When the board has no more columns than rows the group is the whole component; when
it has no more rows than columns every coordinate of the returned liberty set is an
in-range empty cell; on a square board both hold. -/
theorem collectGroup_rectangular (b : Board) (start : Position) (color : Int)
    (hget : b.Get start = .ok color) (hc : color ≠ 0) :
    ∃ group libs, collectGroup b start = .ok (group, libs) ∧ group.Nodup ∧
      (∀ q, q ∈ group → Connected b color start q) ∧
      (b.Cols ≤ b.Rows → ∀ q, Connected b color start q → q ∈ group) ∧
      (b.Rows ≤ b.Cols → ∀ n, n ∈ libs → b.Get n = .ok 0) ∧
      (∀ n, n ∈ libs → b.InBounds n → b.Get n = .ok 0) := by
  obtain ⟨hin, hv⟩ := Get_ok_iff.mp hget
  obtain ⟨G, L, hrun, hnd, hG, hL⟩ := collectGroup_reach hin (by rw [hv]; exact hc)
  rw [hv] at hG hL
  refine ⟨G, L, hrun, hnd, ?_, ?_, ?_, ?_⟩
  · intro q hq
    exact ((hG q).mp hq).toConnected hc
  · intro hcr q hq
    exact (hG q).mpr (hq.toReach hcr)
  · intro hrc n hn
    obtain ⟨p, _, hnp, hz⟩ := (hL n).mp hn
    have hb := (mem_neighbors_iff.mp hnp).2
    refine Get_ok_iff.mpr ⟨?_, hz⟩
    unfold Board.InBounds
    omega
  · intro n hn hnin
    obtain ⟨p, _, _, hz⟩ := (hL n).mp hn
    exact Get_ok_iff.mpr ⟨hnin, hz⟩

/-- C18 on the tall board (two rows, one column): the group of the corner stone is the
whole component. -/
theorem collectGroup_rectangular_witness :
    (tallBoard.Get ⟨0, 0⟩ = .ok 1 ∧ (1 : Int) ≠ 0 ∧ tallBoard.Cols ≤ tallBoard.Rows) ∧
      ∃ group libs, collectGroup tallBoard ⟨0, 0⟩ = .ok (group, libs) ∧ group.Nodup ∧
        (∀ q, q ∈ group → Connected tallBoard 1 ⟨0, 0⟩ q) ∧
        (tallBoard.Cols ≤ tallBoard.Rows →
          ∀ q, Connected tallBoard 1 ⟨0, 0⟩ q → q ∈ group) ∧
        (tallBoard.Rows ≤ tallBoard.Cols → ∀ n, n ∈ libs → tallBoard.Get n = .ok 0) ∧
        (∀ n, n ∈ libs → tallBoard.InBounds n → tallBoard.Get n = .ok 0) :=
  ⟨⟨by decide, by decide, by decide⟩,
    collectGroup_rectangular tallBoard ⟨0, 0⟩ 1 (by decide) (by decide)⟩

/-- The group `collectGroup` returns has no repetition and fits on the board. -/
theorem collectGroup_group_bound {b : Board} {start : Position} {group : List Position}
    {libs : Finset Position} (h : collectGroup b start = .ok (group, libs)) :
    group.Nodup ∧ group.length ≤ b.Rows.toNat * b.Cols.toNat ∧
      (group.length : Int) ≤ b.Rows * b.Cols := by
  have hin : b.InBounds start := by
    by_contra hout
    rw [collectGroup_outside hout] at h
    cases h
  have hv : valOrZero b start ≠ 0 := by
    intro h0
    rw [collectGroup_empty hin h0] at h
    cases h
  obtain ⟨G, L, hrun, hnd, hG, _⟩ := collectGroup_reach hin hv
  rw [hrun] at h
  injection h with h
  injection h with h1 h2
  subst h1
  have hsub : G.toFinset ⊆ boardCells b := by
    intro q hq
    rw [List.mem_toFinset] at hq
    rw [mem_boardCells]
    apply inBounds_of_valOrZero_ne
    rw [((hG q).mp hq).sameColor rfl]
    exact hv
  have hcard := Finset.card_le_card hsub
  rw [List.toFinset_card_of_nodup hnd] at hcard
  have hnat := le_trans hcard (boardCells_card_le b)
  refine ⟨hnd, hnat, ?_⟩
  have hr : ((b.Rows.toNat : Nat) : Int) = b.Rows := Int.toNat_of_nonneg (by
    unfold Board.InBounds at hin
    omega)
  have hcq : ((b.Cols.toNat : Nat) : Int) = b.Cols := Int.toNat_of_nonneg (by
    unfold Board.InBounds at hin
    omega)
  rw [← hr, ← hcq]
  exact_mod_cast hnat

/-- A loop that ended within its budget ends with the same result under any larger
budget. -/
theorem collectLoop_more_budget (b : Board) (color : Int) : ∀ (k : Nat)
    (stack : List Position) (seen : Finset Position) (group : List Position)
    (libs : Finset Position) (r : List Position × Finset Position),
    collectLoop b color k stack seen group libs = some r →
    ∀ k2, k ≤ k2 → collectLoop b color k2 stack seen group libs = some r := by
  intro k
  induction k with
  | zero =>
    intro stack seen group libs r h k2 _
    cases stack with
    | nil =>
      cases k2 <;> simpa [collectLoop] using h
    | cons c cs => simp [collectLoop] at h
  | succ k ih =>
    intro stack seen group libs r h k2 hk
    cases stack with
    | nil =>
      cases k2 <;> simpa [collectLoop] using h
    | cons c cs =>
      cases k2 with
      | zero => omega
      | succ j =>
        unfold collectLoop at h ⊢
        split_ifs at h ⊢
        · exact ih _ _ _ _ r h j (by omega)
        · exact ih _ _ _ _ r h j (by omega)

/-! ## The side to move along a session -/

theorem other_side {c : Color} (h : c = Black ∨ c = White) :
    other c = Black ∨ other c = White := by
  rcases h with h | h <;> rw [h] <;> decide

theorem side_ne_None {c : Color} (h : c = Black ∨ c = White) : c ≠ None := by
  rcases h with h | h <;> rw [h] <;> decide

/-- One call keeps the side to move among Black and White. -/
theorem step_side (g : Game) (op : Op) (h : g.ToPlay = Black ∨ g.ToPlay = White) :
    (g.step op).ToPlay = Black ∨ (g.step op).ToPlay = White := by
  cases op with
  | play pos =>
    simp only [Game.step]
    cases hres : (g.PlayMove pos).2 with
    | error e =>
      rw [PlayMove_rejected hres]
      exact h
    | ok r =>
      obtain ⟨_, _, b1, w, total, grp, libs, _, _, _, _, _, _, hstate⟩ := PlayMove_accepted hres
      rw [hstate]
      exact other_side h
  | pass =>
    simp only [Game.step]
    unfold Game.Pass
    rw [if_neg (side_ne_None h)]
    exact other_side h

/-- Any sequence of calls keeps the side to move among Black and White. -/
theorem run_side (ops : List Op) : ∀ g : Game, (g.ToPlay = Black ∨ g.ToPlay = White) →
    ((g.run ops).ToPlay = Black ∨ (g.run ops).ToPlay = White) := by
  induction ops with
  | nil => intro g h; exact h
  | cons op ops ih =>
    intro g h
    exact ih (g.step op) (step_side g op h)

theorem run_append (g : Game) (xs ys : List Op) : g.run (xs ++ ys) = (g.run xs).run ys := by
  unfold Game.run
  rw [List.foldl_append]

/-- The counters after a `Pass` on a session with a side to move. -/
theorem Pass_counters {g : Game} (h : g.ToPlay ≠ None) :
    g.Pass.moveNumber = wrapInt (g.moveNumber + 1) ∧
      g.Pass.ConsecutivePasses = wrapInt (g.ConsecutivePasses + 1) := by
  unfold Game.Pass
  rw [if_neg h]
  exact ⟨rfl, rfl⟩

/-- What one call does to the two counters. -/
theorem step_counters (g : Game) (op : Op) :
    ((g.step op).moveNumber = g.moveNumber ∨
        (g.step op).moveNumber = wrapInt (g.moveNumber + 1)) ∧
      ((g.step op).ConsecutivePasses = g.ConsecutivePasses ∨
        (g.step op).ConsecutivePasses = 0 ∨
        (g.step op).ConsecutivePasses = wrapInt (g.ConsecutivePasses + 1)) := by
  cases op with
  | play pos =>
    simp only [Game.step]
    cases hres : (g.PlayMove pos).2 with
    | error e =>
      rw [PlayMove_rejected hres]
      exact ⟨Or.inl rfl, Or.inl rfl⟩
    | ok r =>
      obtain ⟨_, _, b1, w, total, grp, libs, _, _, _, _, _, _, hstate⟩ := PlayMove_accepted hres
      rw [hstate]
      exact ⟨Or.inr rfl, Or.inr (Or.inl rfl)⟩
  | pass =>
    simp only [Game.step]
    by_cases h : g.ToPlay = None
    · have : g.Pass = g := by
        unfold Game.Pass
        rw [if_pos h]
      rw [this]
      exact ⟨Or.inl rfl, Or.inl rfl⟩
    · obtain ⟨h1, h2⟩ := Pass_counters h
      exact ⟨Or.inr h1, Or.inr (Or.inr h2)⟩

/-- Counters that are values of `int` stay so along any sequence of calls. -/
theorem run_counters_range (ops : List Op) : ∀ g : Game,
    (minInt ≤ g.moveNumber ∧ g.moveNumber ≤ maxInt) →
    (minInt ≤ g.ConsecutivePasses ∧ g.ConsecutivePasses ≤ maxInt) →
    (minInt ≤ (g.run ops).moveNumber ∧ (g.run ops).moveNumber ≤ maxInt) ∧
      (minInt ≤ (g.run ops).ConsecutivePasses ∧ (g.run ops).ConsecutivePasses ≤ maxInt) := by
  induction ops with
  | nil => intro g h1 h2; exact ⟨h1, h2⟩
  | cons op ops ih =>
    intro g h1 h2
    obtain ⟨hm, hc⟩ := step_counters g op
    refine ih (g.step op) ?_ ?_
    · rcases hm with e | e <;> rw [e]
      · exact h1
      · exact wrapInt_range _
    · rcases hc with e | e | e <;> rw [e]
      · exact h2
      · decide
      · exact wrapInt_range _

/-- Counters that start non-negative grow by at most one per call, as long as the number
of calls keeps them within `int`. -/
theorem run_counters_bound (ops : List Op) : ∀ g : Game,
    0 ≤ g.moveNumber → 0 ≤ g.ConsecutivePasses →
    g.moveNumber + (ops.length : Int) ≤ maxInt →
    g.ConsecutivePasses + (ops.length : Int) ≤ maxInt →
    (0 ≤ (g.run ops).moveNumber ∧ (g.run ops).moveNumber ≤ g.moveNumber + (ops.length : Int)) ∧
      (0 ≤ (g.run ops).ConsecutivePasses ∧
        (g.run ops).ConsecutivePasses ≤ g.ConsecutivePasses + (ops.length : Int)) := by
  induction ops with
  | nil =>
    intro g h1 h2 _ _
    simp only [List.length_nil, Int.Nat.cast_ofNat_Int, add_zero]
    exact ⟨⟨h1, le_refl _⟩, ⟨h2, le_refl _⟩⟩
  | cons op ops ih =>
    intro g h1 h2 h3 h4
    rw [List.length_cons] at h3 h4
    push_cast at h3 h4
    obtain ⟨hm, hc⟩ := step_counters g op
    have em : 0 ≤ (g.step op).moveNumber ∧ (g.step op).moveNumber ≤ g.moveNumber + 1 := by
      rcases hm with e | e <;> rw [e]
      · omega
      · rw [wrapInt_eq (by unfold minInt; omega) (by omega)]
        omega
    have ec : 0 ≤ (g.step op).ConsecutivePasses ∧
        (g.step op).ConsecutivePasses ≤ g.ConsecutivePasses + 1 := by
      rcases hc with e | e | e <;> rw [e]
      · omega
      · omega
      · rw [wrapInt_eq (by unfold minInt; omega) (by omega)]
        omega
    have hrun : g.run (op :: ops) = (g.step op).run ops := rfl
    obtain ⟨⟨a1, a2⟩, ⟨a3, a4⟩⟩ := ih (g.step op) em.1 ec.1 (by omega) (by omega)
    rw [hrun, List.length_cons]
    push_cast
    exact ⟨⟨a1, by omega⟩, ⟨a3, by omega⟩⟩

/-- Passing `n` times in a row replaces the consecutive-pass counter by its `int` sum with
`n`. -/
theorem run_passes (n : Nat) : ∀ g : Game, (g.ToPlay = Black ∨ g.ToPlay = White) →
    (minInt ≤ g.ConsecutivePasses ∧ g.ConsecutivePasses ≤ maxInt) →
    (g.run (List.replicate n Op.pass)).ConsecutivePasses =
      wrapInt (g.ConsecutivePasses + n) := by
  induction n with
  | zero =>
    intro g _ hr
    simp only [List.replicate_zero, Game.run, List.foldl_nil, Int.Nat.cast_ofNat_Int, add_zero]
    exact (wrapInt_eq hr.1 hr.2).symm
  | succ k ih =>
    intro g h _
    have hstep : (g.step Op.pass).ConsecutivePasses = wrapInt (g.ConsecutivePasses + 1) :=
      (Pass_counters (side_ne_None h)).2
    have e : g.run (List.replicate (k + 1) Op.pass) =
        (g.step Op.pass).run (List.replicate k Op.pass) := rfl
    rw [e, ih (g.step Op.pass) (step_side g Op.pass h) (by rw [hstep]; exact wrapInt_range _),
      hstep, wrapInt_add_wrap]
    push_cast
    congr 1
    ring

/-- **C20** (the engine never finishes a session by itself). In every session reached from
a successful `NewGame` by a sequence of `PlayMove` and `Pass` calls the side to move is
Black or White, so `PlayMove` never returns the game-finished error there and `Pass`
always changes the session; this holds whatever the consecutive-pass counter has reached.
`Pass` replaces the move counter by its `int` successor, and `n` further passes replace the
consecutive-pass counter by its `int` sum with `n`, with a side still to move; these are
one more and `n` more as long as fewer calls were made than the largest `int`. -/
theorem session_never_finishes (size : Int) (g0 : Game) (hnew : NewGame size = .ok g0)
    (ops : List Op) :
    ((g0.run ops).ToPlay = Black ∨ (g0.run ops).ToPlay = White) ∧
      (g0.run ops).ToPlay ≠ None ∧
      (∀ pos, ((g0.run ops).PlayMove pos).2 ≠ .error .finished) ∧
      (g0.run ops).Pass ≠ g0.run ops ∧
      (g0.run ops).Pass.moveNumber = wrapInt ((g0.run ops).moveNumber + 1) ∧
      ((ops.length : Int) < maxInt →
        (g0.run ops).Pass.moveNumber = (g0.run ops).moveNumber + 1) ∧
      (∀ n : Nat,
        ((g0.run (ops ++ List.replicate n Op.pass)).ConsecutivePasses =
            wrapInt ((g0.run ops).ConsecutivePasses + n)) ∧
        ((ops.length : Int) + n ≤ maxInt →
          (g0.run (ops ++ List.replicate n Op.pass)).ConsecutivePasses =
            (g0.run ops).ConsecutivePasses + n) ∧
        ((g0.run (ops ++ List.replicate n Op.pass)).ToPlay = Black ∨
          (g0.run (ops ++ List.replicate n Op.pass)).ToPlay = White)) := by
  obtain ⟨_, _, _, _, _, ht, _, hcp, hmn, _⟩ := NewGame_ok hnew
  have h0 : g0.ToPlay = Black ∨ g0.ToPlay = White := Or.inl ht
  have hside := run_side ops g0 h0
  have hact := side_ne_None hside
  obtain ⟨hmove, _⟩ := Pass_counters hact
  have hrange := run_counters_range ops g0 (by rw [hmn]; decide) (by rw [hcp]; decide)
  refine ⟨hside, hact, ?_, ?_, hmove, ?_, ?_⟩
  · intro pos he
    have hin : ¬ (pos.Row < 0 ∨ pos.Row ≥ (g0.run ops).Size ∨ pos.Col < 0 ∨
        pos.Col ≥ (g0.run ops).Size) := by
      intro hout
      rw [PlayMove_outOfBounds hact hout] at he
      cases he
    cases hset : (g0.run ops).Board.Set pos (g0.run ops).ToPlay with
    | error e2 =>
      rw [PlayMove_set_error hact hin hset] at he
      injection he with he
      rcases Set_error_inv hset with ⟨h1, _⟩ | ⟨h1, _⟩ <;> rw [h1] at he <;> cases he
    | ok b1 =>
      rcases PlayMove_late_error hact hin hset he with h1 | h1 | ⟨r, c, h1⟩ | ⟨r, c, h1⟩ <;>
        cases h1
  · intro heq
    rw [heq] at hmove
    exact wrapInt_succ_ne _ hmove.symm
  · intro hlen
    obtain ⟨⟨b1, b2⟩, _⟩ := run_counters_bound ops g0 (by rw [hmn]) (by rw [hcp])
      (by rw [hmn]; omega) (by rw [hcp]; omega)
    rw [hmn] at b2
    rw [hmove]
    exact wrapInt_eq (by unfold minInt; omega) (by omega)
  · intro n
    rw [run_append]
    have hw := run_passes n _ hside hrange.2
    refine ⟨hw, ?_, run_side _ _ hside⟩
    intro hlen
    have hlen2 : (ops.length : Int) ≤ maxInt := by omega
    obtain ⟨_, ⟨c1, c2⟩⟩ := run_counters_bound ops g0 (by rw [hmn]) (by rw [hcp])
      (by rw [hmn]; omega) (by rw [hcp]; omega)
    rw [hcp] at c2
    rw [hw]
    exact wrapInt_eq (by unfold minInt; omega) (by omega)

/-- C20 at the opening of a 5 × 5 game, after two passes. -/
theorem session_never_finishes_witness :
    (NewGame 5 = .ok opening ∧ (opening.run [.pass, .pass]).ConsecutivePasses = 2) ∧
      (((opening.run [.pass, .pass]).ToPlay = Black ∨
          (opening.run [.pass, .pass]).ToPlay = White) ∧
        (opening.run [.pass, .pass]).ToPlay ≠ None ∧
        (∀ pos, ((opening.run [.pass, .pass]).PlayMove pos).2 ≠ .error .finished) ∧
        (opening.run [.pass, .pass]).Pass ≠ opening.run [.pass, .pass] ∧
        (opening.run [.pass, .pass]).Pass.moveNumber =
          wrapInt ((opening.run [.pass, .pass]).moveNumber + 1) ∧
        ((([.pass, .pass] : List Op).length : Int) < maxInt →
          (opening.run [.pass, .pass]).Pass.moveNumber =
            (opening.run [.pass, .pass]).moveNumber + 1) ∧
        (∀ n : Nat,
          ((opening.run ([.pass, .pass] ++ List.replicate n Op.pass)).ConsecutivePasses =
              wrapInt ((opening.run [.pass, .pass]).ConsecutivePasses + n)) ∧
          ((([.pass, .pass] : List Op).length : Int) + n ≤ maxInt →
            (opening.run ([.pass, .pass] ++ List.replicate n Op.pass)).ConsecutivePasses =
              (opening.run [.pass, .pass]).ConsecutivePasses + n) ∧
          ((opening.run ([.pass, .pass] ++ List.replicate n Op.pass)).ToPlay = Black ∨
            (opening.run ([.pass, .pass] ++ List.replicate n Op.pass)).ToPlay = White))) :=
  ⟨⟨opening_eq, by decide⟩, session_never_finishes 5 opening opening_eq [.pass, .pass]⟩

/-! ## Suicide, capture order and termination at concrete sessions -/

/-- In the corner eye both neighbours of (0,0) are Black stones with a liberty elsewhere:
(0,2) for the stone at (0,1), (2,0) for the stone at (1,0). -/
theorem cornerEye_surrounded :
    ∀ n, Adjacent ⟨0, 0⟩ n → cornerEye.Board.InBounds n →
      cornerEye.Board.Get n = .ok (other cornerEye.ToPlay) ∧ other cornerEye.ToPlay ≠ None ∧
        ∃ e, e ≠ ⟨0, 0⟩ ∧ LibertyOf cornerEye.Board (other cornerEye.ToPlay) n e := by
  intro n hadj hin
  have hrows : cornerEye.Board.Rows = 5 := by decide
  have hcols : cornerEye.Board.Cols = 5 := by decide
  have hn : n = ⟨0, 1⟩ ∨ n = ⟨1, 0⟩ := by
    unfold Board.InBounds at hin
    unfold Adjacent at hadj
    rw [hrows, hcols] at hin
    cases n with
    | mk r c =>
      simp only at hin hadj
      simp only [Position.mk.injEq]
      omega
  rcases hn with rfl | rfl
  · exact ⟨by decide, by decide, ⟨0, 2⟩, by decide, by decide, ⟨0, 1⟩,
      Relation.ReflTransGen.refl, by decide⟩
  · exact ⟨by decide, by decide, ⟨2, 0⟩, by decide, by decide, ⟨1, 0⟩,
      Relation.ReflTransGen.refl, by decide⟩

/-- C15 at the corner eye: White at (0,0) is suicide and changes nothing. -/
theorem PlayMove_surrounded_suicide_witness :
    (cornerEye.ToPlay ≠ None ∧
      (cornerEye.Board.Rows = cornerEye.Size ∧ cornerEye.Board.Cols = cornerEye.Size) ∧
      cornerEye.Board.InBounds ⟨0, 0⟩ ∧ cornerEye.Board.Get ⟨0, 0⟩ = .ok 0 ∧
      cornerEye.Board.Get ⟨0, 1⟩ = .ok Black ∧ cornerEye.Board.Get ⟨1, 0⟩ = .ok Black) ∧
      ((cornerEye.PlayMove ⟨0, 0⟩).2 = .error .suicide ∧
        (cornerEye.PlayMove ⟨0, 0⟩).1 = cornerEye ∧
        (cornerEye.PlayMove ⟨0, 0⟩).1.Board = cornerEye.Board) :=
  ⟨⟨by decide, by decide, by decide, by decide, by decide, by decide⟩,
    PlayMove_surrounded_suicide cornerEye ⟨0, 0⟩ (by decide) (by decide) (by decide)
      (by decide) cornerEye_surrounded⟩

/-- C17 at the corner trap: Black's stone at (1,1) has no empty neighbour when placed,
takes three stones and is accepted. -/
theorem PlayMove_capture_not_suicide_witness :
    (cornerTrap.ToPlay ≠ None ∧
      (cornerTrap.Board.Rows = cornerTrap.Size ∧ cornerTrap.Board.Cols = cornerTrap.Size) ∧
      cornerTrap.Board.InBounds ⟨1, 1⟩ ∧ cornerTrap.Board.Get ⟨1, 1⟩ = .ok 0 ∧
      captureLoop (other cornerTrap.ToPlay) (neighbors cornerTrap.Size ⟨1, 1⟩)
        (placed cornerTrap.Board ⟨1, 1⟩ cornerTrap.ToPlay) 0 =
          .ok ((cornerTrap.PlayMove ⟨1, 1⟩).1.Board, 3) ∧
      (0 : Int) < 3) ∧
      ((∃ e, LibertyOf (cornerTrap.PlayMove ⟨1, 1⟩).1.Board cornerTrap.ToPlay ⟨1, 1⟩ e) ∧
        (cornerTrap.PlayMove ⟨1, 1⟩).2 ≠ .error .suicide ∧
        ((cornerTrap.PlayMove ⟨1, 1⟩).2 = .error .superko ∨
          (cornerTrap.PlayMove ⟨1, 1⟩).2 = .ok ⟨3⟩)) :=
  ⟨⟨by decide, by decide, by decide, by decide, by decide, by decide⟩,
    PlayMove_capture_not_suicide cornerTrap ⟨1, 1⟩ (by decide) (by decide) (by decide)
      (by decide) (cornerTrap.PlayMove ⟨1, 1⟩).1.Board 3 (by decide) (by decide)⟩

/-! ## Termination of the flood fill -/

/-- Whenever the budgeted loop returns, it returns what the budget-free loop computes. -/
theorem collectLoop_eq_WF (b : Board) (color : Int) : ∀ (k : Nat) (stack : List Position)
    (seen : Finset Position) (group : List Position) (libs : Finset Position)
    (r : List Position × Finset Position),
    collectLoop b color k stack seen group libs = some r →
    collectLoopWF b color stack seen group libs = r := by
  intro k
  induction k with
  | zero =>
    intro stack seen group libs r h
    cases stack with
    | nil =>
      rw [collectLoopWF]
      simpa [collectLoop] using h
    | cons c cs => simp [collectLoop] at h
  | succ k ih =>
    intro stack seen group libs r h
    cases stack with
    | nil =>
      rw [collectLoopWF]
      simpa [collectLoop] using h
    | cons c cs =>
      rw [collectLoopWF]
      unfold collectLoop at h
      by_cases hc : c ∈ seen
      · rw [if_pos hc] at h
        rw [dif_pos hc]
        exact ih _ _ _ _ r h
      · rw [if_neg hc] at h
        rw [dif_neg hc]
        exact ih _ _ _ _ r h

/-- The budgeted embedding of `collectGroup` is the budget-free one. -/
theorem collectGroup_eq_WF (b : Board) (start : Position) :
    collectGroup b start = collectGroupWF b start := by
  unfold collectGroup collectGroupWF
  cases b.Get start with
  | error e => rfl
  | ok color =>
    simp only
    split_ifs with h0
    · rfl
    · have hsome := collectLoop_budget b color start
      cases hrun : collectLoop b color (loopBudget b) [start] ∅ [] ∅ with
      | none =>
        rw [hrun] at hsome
        simp at hsome
      | some r =>
        simp only
        rw [collectLoop_eq_WF b color _ _ _ _ _ r hrun]

/-- **C19** (termination). `collectGroup` is the total function `collectGroupWF`, whose
loop is defined by well-founded recursion on the stack and the seen-set: the budgeted loop
of the embedding, run with its budget or any larger one, ends with an empty stack and
returns what the budget-free loop computes, for every board, colour and start. A returned
group lists no cell twice (a cell is appended when, and only when, it is marked as seen)
and has at most `Rows * Cols` cells. Consequently `PlayMove`, which is built from
`collectGroup` and loops over finite lists, never reports an exhausted budget, for any
session and coordinate. -/
theorem collectGroup_terminates (b : Board) (start : Position) (g : Game) (pos : Position) :
    collectGroup b start = collectGroupWF b start ∧
      (∀ color k, loopBudget b ≤ k →
        collectLoop b color k [start] ∅ [] ∅ =
          some (collectLoopWF b color [start] ∅ [] ∅)) ∧
      collectGroup b start ≠ .error .loopBudget ∧
      (∀ group libs, collectGroupWF b start = .ok (group, libs) →
        group.Nodup ∧ (group.length : Int) ≤ b.Rows * b.Cols) ∧
      (g.PlayMove pos).2 ≠ .error .loopBudget := by
  refine ⟨collectGroup_eq_WF b start, ?_, ?_, ?_, ?_⟩
  · intro color k hk
    have hsome := collectLoop_budget b color start
    cases hrun : collectLoop b color (loopBudget b) [start] ∅ [] ∅ with
    | none =>
      rw [hrun] at hsome
      simp at hsome
    | some r =>
      rw [collectLoop_more_budget b color _ _ _ _ _ r hrun k hk,
        collectLoop_eq_WF b color _ _ _ _ _ r hrun]
  · intro h
    rcases collectGroup_error_kind h with ⟨r, c, h1⟩ | ⟨r, c, h1⟩ <;> cases h1
  · intro group libs h
    rw [← collectGroup_eq_WF] at h
    obtain ⟨h1, _, h3⟩ := collectGroup_group_bound h
    exact ⟨h1, h3⟩
  · intro h
    rcases PlayMove_error_kind h with h1 | h1 | h1 | h1 | ⟨r, c, h1⟩ | ⟨r, c, h1⟩ |
      ⟨r, c, h1⟩ <;> cases h1

/-- C19 on the bent board and at the ko. -/
theorem collectGroup_terminates_witness :
    collectGroupWF bentBoard ⟨0, 0⟩ =
        .ok ([⟨0, 0⟩, ⟨0, 1⟩, ⟨1, 0⟩], {⟨1, 1⟩, ⟨0, 2⟩, ⟨2, 0⟩}) ∧
      (koFight.PlayMove ⟨0, 1⟩).2 ≠ .error .loopBudget :=
  ⟨(collectGroup_terminates bentBoard ⟨0, 0⟩ koFight ⟨0, 1⟩).1 ▸ (by decide),
    (collectGroup_terminates bentBoard ⟨0, 0⟩ koFight ⟨0, 1⟩).2.2.2.2⟩

/-! ## Groups without liberties never stay on the board -/

theorem Connected.reads {b : Board} {c : Int} {s p : Position} (h : Connected b c s p)
    (hs : b.Get s = .ok c) : b.Get p = .ok c := by
  induction h with
  | refl => exact hs
  | tail _ hl _ => exact hl.2

theorem Connected.reverse {b : Board} {c : Int} {s p : Position} (h : Connected b c s p)
    (hs : b.Get s = .ok c) : Connected b c p s := by
  induction h with
  | refl => exact Relation.ReflTransGen.refl
  | @tail x y hx hl ih =>
    exact Relation.ReflTransGen.head ⟨hl.1.symm, Connected.reads hx hs⟩ ih

/-- A path of one board is a path of another board that reads the colour at every cell
the first board connects to the start. -/
theorem Connected.carry {a w : Board} {c : Int} {s : Position}
    (hw : ∀ x, Connected a c s x → w.Get x = .ok c) {p : Position}
    (h : Connected a c s p) : Connected w c s p := by
  induction h with
  | refl => exact Relation.ReflTransGen.refl
  | @tail x y hx hl ih =>
    exact Relation.ReflTransGen.tail ih ⟨hl.1, hw y (Relation.ReflTransGen.tail hx hl)⟩

theorem CapturedCell.held {b1 : Board} {opp : Int} {pos q : Position}
    (h : CapturedCell b1 opp pos q) : b1.Get q = .ok opp := by
  obtain ⟨n, _, hn, hc, _⟩ := h
  exact Connected.reads hc hn

theorem ThreeValued.of_Get {b : Board} (h : ThreeValued b) {p : Position} {v : Int}
    (hp : b.Get p = .ok v) : v = None ∨ v = Black ∨ v = White := by
  rcases h p (Get_ok_iff.mp hp).1 with e | e | e <;> rw [hp] at e <;> injection e with e
  · exact Or.inl e
  · exact Or.inr (Or.inl e)
  · exact Or.inr (Or.inr e)

/-- The rule of capture keeps every group alive: on a board where no group is without
liberty, after a stone is placed on an empty cell, the liberty-free opposing groups next to
it are taken off and the placed stone's group has a liberty, again no group is without
liberty. -/
theorem AfterCapture.alive {b : Board} {pos : Position} {m : Int}
    (hm : m = Black ∨ m = White) (hin : b.InBounds pos) (hemp : b.Get pos = .ok 0)
    (hval : ThreeValued b) (hlive : NoDeadStones b) {w : Board}
    (hw : AfterCapture b pos m w) (hlib : ∃ e, LibertyOf w m pos e) :
    ThreeValued w ∧ NoDeadStones w := by
  obtain ⟨hrows, hcols, hpos, hcap, hkeep⟩ := hw
  have hm0 : m ≠ 0 := side_ne_None hm
  have hopp0 : other m ≠ 0 := side_ne_None (other_side hm)
  have hoppm : other m ≠ m := other_ne_self hm0
  have hb1pos : (placed b pos m).Get pos = .ok m := by
    rw [placed_Get hin m pos, if_pos rfl]
  -- a captured cell holds the opposing colour before the move and is not `pos`
  have hcne : ∀ q, CapturedCell (placed b pos m) (other m) pos q → q ≠ pos := by
    intro q hq e
    have h1 := hq.held
    rw [e, hb1pos] at h1
    injection h1 with h1
    exact hoppm h1.symm
  have hcb : ∀ q, CapturedCell (placed b pos m) (other m) pos q → b.Get q = .ok (other m) := by
    intro q hq
    rw [← placed_Get_ne hin m (hcne q hq)]
    exact hq.held
  -- a cell that is not the opposing colour before the move reads the same afterwards
  have hsame : ∀ q v, q ≠ pos → b.Get q = .ok v → v ≠ other m → w.Get q = .ok v := by
    intro q v hq hv hne
    rw [hkeep q hq ?_]
    · exact hv
    · intro hc
      have := hcb q hc
      rw [hv] at this
      injection this with this
      exact hne this
  have hwin : ∀ q, w.InBounds q ↔ b.InBounds q := by
    intro q
    unfold Board.InBounds
    rw [hrows, hcols]
  refine ⟨?_, ?_⟩
  · intro p hp
    by_cases hpp : p = pos
    · rw [hpp, hpos]
      rcases hm with e | e
      · exact Or.inr (Or.inl (by rw [e]))
      · exact Or.inr (Or.inr (by rw [e]))
    · by_cases hc : CapturedCell (placed b pos m) (other m) pos p
      · exact Or.inl (hcap p hc)
      · rw [hkeep p hpp hc]
        exact hval p ((hwin p).mp hp)
  · intro p c hc0 hp
    by_cases hpp : p = pos
    · rw [hpp, hpos] at hp
      injection hp with hp
      rw [hpp, ← hp]
      exact hlib
    · have hncap : ¬ CapturedCell (placed b pos m) (other m) pos p := by
        intro hc
        have := hcap p hc
        rw [hp] at this
        injection this with this
        exact hc0 this
      have hbp : b.Get p = .ok c := by
        rw [← hkeep p hpp hncap]
        exact hp
      have hb1p : (placed b pos m).Get p = .ok c := by
        rw [placed_Get_ne hin m hpp]
        exact hbp
      obtain ⟨e, he0, p2, hpath, hadj⟩ := hlive p c hc0 hbp
      by_cases hco : c = other m
      · -- an opposing group that was not taken off
        subst hco
        have hK : ∀ x, Connected (placed b pos m) (other m) p x → w.Get x = .ok (other m) := by
          intro x hx
          have hx1 : (placed b pos m).Get x = .ok (other m) := Connected.reads hx hb1p
          have hxne : x ≠ pos := by
            intro e2
            rw [e2, hb1pos] at hx1
            injection hx1 with hx1
            exact hoppm hx1.symm
          have hxn : ¬ CapturedCell (placed b pos m) (other m) pos x := by
            rintro ⟨n, hn1, hn2, hn3, hn4⟩
            exact hncap ⟨n, hn1, hn2, hn3.trans (Connected.reverse hx hb1p), hn4⟩
          rw [hkeep x hxne hxn, ← placed_Get_ne hin m hxne]
          exact hx1
        have hlib1 : ∃ e2, LibertyOf (placed b pos m) (other m) p e2 := by
          by_contra hno
          have hpath1 : Connected (placed b pos m) (other m) p p2 :=
            Connected.after_placing hin hemp m hopp0 hpath
          by_cases hee : e = pos
          · rw [hee] at hadj
            refine hncap ⟨p2, hadj.symm, Connected.reads hpath1 hb1p,
              Connected.reverse hpath1 hb1p, ?_⟩
            rintro ⟨e2, he2, x, hx, hxa⟩
            exact hno ⟨e2, he2, x, hpath1.trans hx, hxa⟩
          · refine hno ⟨e, ?_, p2, hpath1, hadj⟩
            rw [placed_Get_ne hin m hee]
            exact he0
        obtain ⟨e2, he2, x, hx, hxa⟩ := hlib1
        have he2ne : e2 ≠ pos := by
          intro e3
          rw [e3, hb1pos] at he2
          injection he2 with he2
          exact hm0 he2
        refine ⟨e2, ?_, x, Connected.carry hK hx, hxa⟩
        refine hsame e2 0 he2ne ?_ (fun h => hopp0 h.symm)
        rw [← placed_Get_ne hin m he2ne]
        exact he2
      · -- a group of the mover
        have hcm : c = m := by
          have h3 := hval.of_Get hbp
          rcases hm with e1 | e1 <;> rw [e1] at hco ⊢ <;>
            rcases h3 with e3 | e3 | e3 <;> first
              | exact e3
              | exact absurd e3 hc0
              | exact absurd e3 hco
        subst hcm
        have hK : ∀ x, Connected b c p x → w.Get x = .ok c := by
          intro x hx
          have hx1 : b.Get x = .ok c := Connected.reads hx hbp
          have hxne : x ≠ pos := by
            intro e2
            rw [e2, hemp] at hx1
            injection hx1 with hx1
            exact hc0 hx1.symm
          exact hsame x c hxne hx1 (fun h => hoppm h.symm)
        have hpathw : Connected w c p p2 := Connected.carry hK hpath
        by_cases hee : e = pos
        · rw [hee] at hadj
          obtain ⟨e2, he2, x, hx, hxa⟩ := hlib
          have hstep : Connected w c p pos :=
            Relation.ReflTransGen.tail hpathw ⟨hadj, hpos⟩
          exact ⟨e2, he2, x, hstep.trans hx, hxa⟩
        · exact ⟨e, hsame e 0 hee he0 (fun h => hopp0 h.symm), p2, hpathw, hadj⟩

/-- Every entry of the cell slice is the reading of some cell of the board. -/
theorem cells_mem_Get {b : Board} (hc : 0 < b.Cols) {v : Int}
    (hv : v ∈ b.cells) : ∃ p, b.Get p = .ok v := by
  obtain ⟨i, hi, hiv⟩ := List.getElem_of_mem hv
  have hlen := b.sized
  have hI : (i : Int) < b.Rows * b.Cols := by omega
  have hin : b.InBounds ⟨(i : Int) / b.Cols, (i : Int) % b.Cols⟩ :=
    ⟨Int.ediv_nonneg (by omega) (by omega), Int.ediv_lt_of_lt_mul hc hI,
      Int.emod_nonneg _ (by omega), Int.emod_lt_of_pos _ hc⟩
  refine ⟨⟨(i : Int) / b.Cols, (i : Int) % b.Cols⟩, ?_⟩
  rw [Board.Get_ok hin]
  have e : (i : Int) / b.Cols * b.Cols + (i : Int) % b.Cols = i := Int.ediv_add_emod' _ _
  simp only [e]
  unfold Board.cellAt
  rw [Int.toNat_ofNat, List.getD_eq_getElem?_getD, List.getElem?_eq_getElem hi, hiv]
  rfl

theorem NewGame_settled {size : Int} {g : Game} (h : NewGame size = .ok g) : Settled g := by
  obtain ⟨h5, hr, hc, hcells, hs, ht, _⟩ := NewGame_ok h
  have hzero : ∀ p v, g.Board.Get p = .ok v → v = 0 := by
    intro p v hv
    have := Get_mem_cells hv
    rw [hcells] at this
    exact List.eq_of_mem_replicate this
  refine ⟨by omega, ⟨hr.trans hs.symm, hc.trans hs.symm⟩, Or.inl ht, ?_, ?_⟩
  · intro p hp
    refine Or.inl ?_
    rw [Get_eq_ok_valOrZero hp, hzero p _ (Get_eq_ok_valOrZero hp)]
    rfl
  · intro p c hc0 hp
    exact absurd (hzero p c hp) hc0

/-- One call keeps a session settled. -/
theorem Settled.step {g : Game} (h : Settled g) (op : Op) : Settled (g.step op) := by
  cases op with
  | pass =>
    simp only [Game.step]
    unfold Game.Pass
    rw [if_neg (side_ne_None h.side)]
    exact ⟨h.positive, h.square, other_side h.side, h.values, h.alive⟩
  | play pos =>
    simp only [Game.step]
    cases hres : (g.PlayMove pos).2 with
    | error e =>
      rw [PlayMove_rejected hres]
      exact h
    | ok r =>
      obtain ⟨hact, _, b1, w, total, grp, libs, hset, hloop, hcg, hlibs, _, _, hstate⟩ :=
        PlayMove_accepted hres
      obtain ⟨hin, hemp, hb1⟩ := Set_ok_inv hset
      rw [hb1] at hloop
      obtain ⟨hafter, _⟩ := PlayMove_square_outcome hact h.square hin hemp hloop
      have hwsq : w.Rows = w.Cols := by
        rw [hafter.1, hafter.2.1, h.square.1, h.square.2]
      obtain ⟨grp2, libs2, hcg2, _, _, hl2⟩ :=
        collectGroup_square hwsq hafter.2.2.1 (side_ne_None h.side)
      rw [hcg] at hcg2
      injection hcg2 with hcg2
      injection hcg2 with _ hlibs2
      have hlib : ∃ e, LibertyOf w g.ToPlay pos e := by
        obtain ⟨e, he⟩ := Finset.card_pos.mp (Nat.pos_of_ne_zero hlibs)
        rw [hlibs2] at he
        exact ⟨e, (hl2 e).mp he⟩
      obtain ⟨hv, ha⟩ := hafter.alive h.side hin hemp h.values h.alive hlib
      rw [hstate]
      exact ⟨h.positive, ⟨hafter.1.trans h.square.1, hafter.2.1.trans h.square.2⟩,
        other_side h.side, hv, ha⟩

/-- Any sequence of calls keeps a session settled. -/
theorem Settled.run (ops : List Op) : ∀ {g : Game}, Settled g → Settled (g.run ops) := by
  induction ops with
  | nil => intro g h; exact h
  | cons op ops ih =>
    intro g h
    exact ih (h.step op)

/-- On a settled session the flood fill started at any stone returns at least one
liberty. -/
theorem Settled.collectGroup_liberty {g : Game} (h : Settled g) {p : Position} {c : Int}
    (hc : c ≠ 0) (hp : g.Board.Get p = .ok c) :
    ∃ group libs, collectGroup g.Board p = .ok (group, libs) ∧ libs.Nonempty := by
  obtain ⟨grp, libs, hcg, _, _, hl⟩ :=
    collectGroup_square (h.square.1.trans h.square.2.symm) hp hc
  obtain ⟨e, he⟩ := h.alive p c hc hp
  exact ⟨grp, libs, hcg, e, (hl e).mpr he⟩

/-- **C21** (no dead stones). In every session reached from a successful `NewGame` by a
sequence of `PlayMove` and `Pass` calls, every cell of the committed board holds empty,
Black or White, and every stone belongs to a maximal connected same-colour group with at
least one liberty, an empty cell orthogonally adjacent to a stone of the group; the flood
fill of the code started at any stone of that board returns a non-empty liberty set. -/
theorem no_dead_stones (size : Int) (g0 : Game) (hnew : NewGame size = .ok g0)
    (ops : List Op) :
    (∀ p, (g0.run ops).Board.InBounds p →
        (g0.run ops).Board.Get p = .ok None ∨ (g0.run ops).Board.Get p = .ok Black ∨
          (g0.run ops).Board.Get p = .ok White) ∧
      (∀ v ∈ (g0.run ops).Board.cells, v = None ∨ v = Black ∨ v = White) ∧
      (∀ p c, c ≠ None → (g0.run ops).Board.Get p = .ok c →
        ∃ e, LibertyOf (g0.run ops).Board c p e) ∧
      (∀ p c, c ≠ None → (g0.run ops).Board.Get p = .ok c →
        ∃ group libs, collectGroup (g0.run ops).Board p = .ok (group, libs) ∧
          libs.Nonempty) := by
  have h : Settled (g0.run ops) := Settled.run ops (NewGame_settled hnew)
  refine ⟨h.values, ?_, h.alive, fun p c hc hp => h.collectGroup_liberty hc hp⟩
  intro v hv
  obtain ⟨p, hp⟩ := cells_mem_Get (by rw [h.square.2]; exact h.positive) hv
  exact h.values.of_Get hp

/-! ## Counting stones, placements and passes -/

theorem mem_stoneSet {b : Board} {c : Int} {p : Position} :
    p ∈ (boardCells b).filter (fun p => valOrZero b p = c) ↔ b.Get p = .ok c := by
  rw [Finset.mem_filter, mem_boardCells, Get_ok_iff]

theorem stones_eq_card {b : Board} {c : Int} {T : Finset Position}
    (h : ∀ p, p ∈ T ↔ b.Get p = .ok c) : stones b c = T.card := by
  unfold stones
  congr 1
  ext p
  rw [mem_stoneSet, h]

/-- A captured cell is not the cell played and held the opposing colour before the move. -/
theorem CapturedCell.before {b : Board} {pos : Position} {m : Int} (hm : m ≠ None)
    (hin : b.InBounds pos) {q : Position}
    (h : CapturedCell (placed b pos m) (other m) pos q) :
    q ≠ pos ∧ b.Get q = .ok (other m) := by
  have hne : q ≠ pos := by
    intro e
    have h1 := h.held
    rw [e, placed_Get hin m pos, if_pos rfl] at h1
    injection h1 with h1
    exact other_ne_self hm h1.symm
  refine ⟨hne, ?_⟩
  rw [← placed_Get_ne hin m hne]
  exact h.held

/-- The stone counts after an accepted placement: the mover has one stone more, the
opponent as many fewer as cells were captured. -/
theorem AfterCapture.stone_counts {b : Board} {pos : Position} {m : Int}
    (hm : m = Black ∨ m = White) (hin : b.InBounds pos) (hemp : b.Get pos = .ok 0)
    {w : Board} (hw : AfterCapture b pos m w) {S : Finset Position}
    (hS : ∀ q, q ∈ S ↔ CapturedCell (placed b pos m) (other m) pos q) :
    stones w m = stones b m + 1 ∧ stones w (other m) + S.card = stones b (other m) := by
  obtain ⟨_, _, hpos, hcap, hkeep⟩ := hw
  have hm0 : m ≠ 0 := side_ne_None hm
  have hopp0 : other m ≠ 0 := side_ne_None (other_side hm)
  have hoppm : other m ≠ m := other_ne_self hm0
  constructor
  · have hnot : pos ∉ (boardCells b).filter (fun p => valOrZero b p = m) := by
      rw [mem_stoneSet, hemp]
      intro e
      injection e with e
      exact hm0 e.symm
    have hcard : stones w m =
        (insert pos ((boardCells b).filter (fun p => valOrZero b p = m))).card := by
      apply stones_eq_card
      intro p
      rw [Finset.mem_insert, mem_stoneSet]
      by_cases hpp : p = pos
      · rw [hpp, hpos]
        exact ⟨fun _ => rfl, fun _ => Or.inl rfl⟩
      · by_cases hc : CapturedCell (placed b pos m) (other m) pos p
        · rw [hcap p hc, (hc.before hm0 hin).2]
          constructor
          · rintro (h | h)
            · exact absurd h hpp
            · injection h with h
              exact absurd h hoppm
          · intro h
            injection h with h
            exact absurd h.symm hm0
        · rw [hkeep p hpp hc]
          exact ⟨fun h => h.resolve_left hpp, Or.inr⟩
    rw [hcard, Finset.card_insert_of_not_mem hnot]
    rfl
  · have hsub : S ⊆ (boardCells b).filter (fun p => valOrZero b p = other m) := by
      intro q hq
      rw [mem_stoneSet]
      exact (((hS q).mp hq).before hm0 hin).2
    have hcard : stones w (other m) =
        ((boardCells b).filter (fun p => valOrZero b p = other m) \ S).card := by
      apply stones_eq_card
      intro p
      rw [Finset.mem_sdiff, mem_stoneSet, hS]
      by_cases hpp : p = pos
      · rw [hpp, hpos, hemp]
        constructor
        · rintro ⟨h, _⟩
          injection h with h
          exact absurd h.symm hopp0
        · intro h
          injection h with h
          exact absurd h.symm hoppm
      · by_cases hc : CapturedCell (placed b pos m) (other m) pos p
        · rw [hcap p hc]
          constructor
          · rintro ⟨_, h⟩
            exact absurd hc h
          · intro h
            injection h with h
            exact absurd h.symm hopp0
        · rw [hkeep p hpp hc]
          exact ⟨fun h => h.1, fun h => ⟨h, hc⟩⟩
    have hle := Finset.card_le_card hsub
    rw [hcard, Finset.card_sdiff hsub]
    unfold stones
    omega

theorem other_other {c : Color} (h : c = Black ∨ c = White) : other (other c) = c := by
  rcases h with h | h <;> rw [h] <;> decide

theorem side_cases {c m : Color} (hc : c = Black ∨ c = White) (hm : m = Black ∨ m = White)
    (hne : m ≠ c) : c = other m := by
  rcases hc with hc | hc <;> rcases hm with hm | hm <;> subst hc <;> subst hm <;>
    first | decide | exact absurd rfl hne

theorem stones_NewGame {size : Int} {g : Game} (h : NewGame size = .ok g) {c : Color}
    (hc : c ≠ None) : stones g.Board c = 0 := by
  obtain ⟨_, _, _, hcells, _⟩ := NewGame_ok h
  unfold stones
  rw [Finset.card_eq_zero, Finset.filter_eq_empty_iff]
  intro p hp hv
  have hmem := Get_mem_cells (Get_eq_ok_valOrZero (mem_boardCells.mp hp))
  rw [hcells, hv] at hmem
  exact hc (List.eq_of_mem_replicate hmem)

/-- The counts after a placement that `PlayMove` accepted: `lost` stones of the colour `c`
were taken off, the tally of the other side is its `int` sum with `lost`, and the move
counter is its `int` successor. -/
theorem Settled.play_counts {g : Game} (h : Settled g) {pos : Position} {r : MoveResult}
    (hres : (g.PlayMove pos).2 = .ok r) {c : Color} (hc : c = Black ∨ c = White)
    (hrange : minInt ≤ g.Captures (other c) ∧ g.Captures (other c) ≤ maxInt) :
    (∃ lost : Int, 0 ≤ lost ∧
        (stones (g.PlayMove pos).1.Board c : Int) + lost =
          (stones g.Board c : Int) + (if g.ToPlay = c then 1 else 0) ∧
        (g.PlayMove pos).1.Captures (other c) = wrapInt (g.Captures (other c) + lost)) ∧
      (g.PlayMove pos).1.moveNumber = wrapInt (g.moveNumber + 1) := by
  obtain ⟨hact, _, b1, w, total, grp, libs, hset, hloop, _, _, _, _, hstate⟩ :=
    PlayMove_accepted hres
  obtain ⟨hin, hemp, hb1⟩ := Set_ok_inv hset
  rw [hb1] at hloop
  obtain ⟨hafter, ⟨S, hS, htot⟩, _⟩ := PlayMove_square_outcome hact h.square hin hemp hloop
  obtain ⟨h1, h2⟩ := hafter.stone_counts h.side hin hemp hS
  have hnonneg : 0 ≤ total := by
    rw [htot]
    exact Int.ofNat_nonneg _
  rw [hstate]
  refine ⟨?_, rfl⟩
  have hboard : (committed g w total).Board = w := rfl
  rw [hboard]
  by_cases hcm : g.ToPlay = c
  · refine ⟨0, le_refl _, ?_, ?_⟩
    · rw [if_pos hcm, ← hcm, h1]
      push_cast
      ring
    · rw [← hcm, committed_Captures_other g w total (other_ne_self hact), add_zero]
      rw [← hcm] at hrange
      exact (wrapInt_eq hrange.1 hrange.2).symm
  · have hco : c = other g.ToPlay := side_cases hc h.side hcm
    rw [hco, other_other h.side] at hrange
    refine ⟨total, hnonneg, ?_, ?_⟩
    · rw [if_neg hcm, hco, htot, ← h2]
      push_cast
      ring
    · rw [hco, other_other h.side, committed_Captures_wrap]
      by_cases ht : 0 < total
      · rw [if_pos ht]
      · rw [if_neg ht]
        have : total = 0 := by omega
        rw [this, add_zero]
        exact (wrapInt_eq hrange.1 hrange.2).symm

/-- One call keeps the tallies values of `int`. -/
theorem step_Captures_range (g : Game) (op : Op)
    (h : ∀ c, minInt ≤ g.Captures c ∧ g.Captures c ≤ maxInt) :
    ∀ c, minInt ≤ (g.step op).Captures c ∧ (g.step op).Captures c ≤ maxInt := by
  cases op with
  | pass =>
    simp only [Game.step]
    unfold Game.Pass
    split
    · exact h
    · exact h
  | play pos =>
    simp only [Game.step]
    cases hres : (g.PlayMove pos).2 with
    | error e =>
      rw [PlayMove_rejected hres]
      exact h
    | ok r =>
      obtain ⟨_, _, b1, w, total, grp, libs, _, _, _, _, _, _, hstate⟩ := PlayMove_accepted hres
      rw [hstate]
      intro c
      have hc : (committed g w total).Captures c =
          if total > 0 then
            (if c = g.ToPlay then wrapInt (g.Captures c + total) else g.Captures c)
          else g.Captures c := by
        unfold committed
        simp only
        split <;> rfl
      rw [hc]
      split_ifs
      · exact wrapInt_range _
      · exact h c
      · exact h c

theorem acceptedBy_play_ok (c : Color) {g : Game} {pos : Position} {r : MoveResult}
    (h : (g.PlayMove pos).2 = .ok r) (ops : List Op) :
    acceptedBy c g (.play pos :: ops) =
      (if g.ToPlay = c then 1 else 0) + acceptedBy c (g.PlayMove pos).1 ops := by
  rw [acceptedBy, h]

theorem acceptedBy_play_error (c : Color) {g : Game} {pos : Position} {e : Err}
    (h : (g.PlayMove pos).2 = .error e) (ops : List Op) :
    acceptedBy c g (.play pos :: ops) = acceptedBy c g ops := by
  rw [acceptedBy, h, PlayMove_rejected h]
  simp

theorem accepted_play_ok {g : Game} {pos : Position} {r : MoveResult}
    (h : (g.PlayMove pos).2 = .ok r) (ops : List Op) :
    accepted g (.play pos :: ops) = 1 + accepted (g.PlayMove pos).1 ops := by
  rw [accepted, h]

theorem accepted_play_error {g : Game} {pos : Position} {e : Err}
    (h : (g.PlayMove pos).2 = .error e) (ops : List Op) :
    accepted g (.play pos :: ops) = accepted g ops := by
  rw [accepted, h, PlayMove_rejected h]
  simp

theorem acceptedBy_le_length (c : Color) (ops : List Op) : ∀ g : Game,
    acceptedBy c g ops ≤ ops.length := by
  induction ops with
  | nil => intro g; exact le_refl _
  | cons op ops ih =>
    intro g
    cases op with
    | pass =>
      have e : acceptedBy c g (Op.pass :: ops) = acceptedBy c g.Pass ops := rfl
      rw [e, List.length_cons]
      exact Nat.le_succ_of_le (ih _)
    | play pos =>
      rw [acceptedBy, List.length_cons]
      have := ih (g.PlayMove pos).1
      split <;> (try split_ifs) <;> omega

theorem accepted_add_passCount_le (ops : List Op) : ∀ g : Game,
    accepted g ops + passCount ops ≤ ops.length := by
  induction ops with
  | nil => intro g; exact le_refl _
  | cons op ops ih =>
    intro g
    cases op with
    | pass =>
      have e : accepted g (Op.pass :: ops) = accepted g.Pass ops := rfl
      have hcount : passCount (Op.pass :: ops) = passCount ops + 1 := by
        unfold passCount
        rw [List.count_cons_self]
      rw [e, hcount, List.length_cons]
      have := ih g.Pass
      omega
    | play pos =>
      have hcount : passCount (Op.play pos :: ops) = passCount ops := by
        unfold passCount
        rw [List.count_cons_of_ne (by simp)]
      rw [accepted, hcount, List.length_cons]
      have := ih (g.PlayMove pos).1
      split <;> omega

/-- Along any sequence of calls made on a settled session whose tallies and move counter
are values of `int`: the stones of a colour on the board never exceed those at the start
plus the accepted placements of that colour, the other side's tally is its `int` sum with
the difference, and the move counter is its `int` sum with the accepted placements and the
passes. -/
theorem Settled.run_counts (ops : List Op) : ∀ {g : Game}, Settled g →
    (∀ c, minInt ≤ g.Captures c ∧ g.Captures c ≤ maxInt) →
    (minInt ≤ g.moveNumber ∧ g.moveNumber ≤ maxInt) →
    (∀ c, c = Black ∨ c = White →
      stones (g.run ops).Board c ≤ stones g.Board c + acceptedBy c g ops ∧
      (g.run ops).Captures (other c) =
        wrapInt (g.Captures (other c) + ((stones g.Board c : Int) + (acceptedBy c g ops : Int) -
          (stones (g.run ops).Board c : Int)))) ∧
      (g.run ops).moveNumber =
        wrapInt (g.moveNumber + (accepted g ops : Int) + (passCount ops : Int)) ∧
      accepted g ops = acceptedBy Black g ops + acceptedBy White g ops := by
  induction ops with
  | nil =>
    intro g _ hcap hmn
    refine ⟨fun c _ => ⟨?_, ?_⟩, ?_, rfl⟩
    · simp [Game.run, acceptedBy]
    · simp only [Game.run, List.foldl_nil, acceptedBy, Int.Nat.cast_ofNat_Int, add_zero,
        sub_self]
      exact (wrapInt_eq (hcap _).1 (hcap _).2).symm
    · simp only [Game.run, List.foldl_nil, accepted, passCount, List.count_nil,
        Int.Nat.cast_ofNat_Int, add_zero]
      exact (wrapInt_eq hmn.1 hmn.2).symm
  | cons op ops ih =>
    intro g h hcap hmn
    have hcap1 := step_Captures_range g op hcap
    cases op with
    | pass =>
      have hrun : g.run (Op.pass :: ops) = g.Pass.run ops := rfl
      have hp : Settled g.Pass := h.step Op.pass
      obtain ⟨hM, _⟩ := Pass_counters (side_ne_None h.side)
      obtain ⟨i1, i2, i3⟩ := ih hp hcap1 (by rw [hM]; exact wrapInt_range _)
      have hB : g.Pass.Board = g.Board := by
        unfold Game.Pass
        rw [if_neg (side_ne_None h.side)]
      have hC : g.Pass.Captures = g.Captures := by
        unfold Game.Pass
        rw [if_neg (side_ne_None h.side)]
      have hcount : passCount (Op.pass :: ops) = passCount ops + 1 := by
        unfold passCount
        rw [List.count_cons_self]
      have hacc : accepted g (Op.pass :: ops) = accepted g.Pass ops := rfl
      refine ⟨fun c hc => ?_, ?_, ?_⟩
      · have ha : acceptedBy c g (Op.pass :: ops) = acceptedBy c g.Pass ops := rfl
        obtain ⟨j1, j2⟩ := i1 c hc
        rw [hrun, ha]
        rw [hB] at j1 j2
        rw [hC] at j2
        exact ⟨j1, j2⟩
      · rw [hrun, i2, hM, hcount, hacc]
        push_cast
        unfold wrapInt
        omega
      · exact i3
    | play pos =>
      have hrun : g.run (Op.play pos :: ops) = (g.PlayMove pos).1.run ops := rfl
      have hp : Settled (g.PlayMove pos).1 := h.step (Op.play pos)
      have hcount : passCount (Op.play pos :: ops) = passCount ops := by
        unfold passCount
        rw [List.count_cons_of_ne (by simp)]
      cases hres : (g.PlayMove pos).2 with
      | error e =>
        have hg := PlayMove_rejected hres
        obtain ⟨i1, i2, i3⟩ := ih h hcap hmn
        refine ⟨fun c hc => ?_, ?_, ?_⟩
        · rw [hrun, hg, acceptedBy_play_error c hres]
          exact i1 c hc
        · rw [hrun, hg, i2, hcount, accepted_play_error hres]
        · rw [accepted_play_error hres, acceptedBy_play_error _ hres,
            acceptedBy_play_error _ hres]
          exact i3
      | ok r =>
        obtain ⟨_, k2⟩ := h.play_counts hres (Or.inl rfl) (hcap _)
        obtain ⟨i1, i2, i3⟩ := ih hp hcap1 (by rw [k2]; exact wrapInt_range _)
        refine ⟨fun c hc => ?_, ?_, ?_⟩
        · obtain ⟨⟨lost, l0, l1, l2⟩, _⟩ := h.play_counts hres hc (hcap _)
          obtain ⟨j1, j2⟩ := i1 c hc
          rw [hrun, acceptedBy_play_ok c hres]
          constructor
          · have l1n : (stones (g.PlayMove pos).1.Board c : Int) ≤
                (stones g.Board c : Int) + (if g.ToPlay = c then 1 else 0) := by omega
            have j1z : (stones ((g.PlayMove pos).1.run ops).Board c : Int) ≤
                (stones (g.PlayMove pos).1.Board c : Int) +
                  (acceptedBy c (g.PlayMove pos).1 ops : Int) := by exact_mod_cast j1
            have goalz : (stones ((g.PlayMove pos).1.run ops).Board c : Int) ≤
                (stones g.Board c : Int) + (((if g.ToPlay = c then 1 else 0 : Nat) : Int) +
                  (acceptedBy c (g.PlayMove pos).1 ops : Int)) := by
              split_ifs at l1n ⊢ <;> push_cast <;> omega
            exact_mod_cast goalz
          · rw [j2, l2, wrapInt_add_wrap]
            congr 1
            split_ifs at l1 ⊢ <;> push_cast <;> omega
        · rw [hrun, i2, k2, hcount, accepted_play_ok hres]
          push_cast
          unfold wrapInt
          omega
        · rw [accepted_play_ok hres, acceptedBy_play_ok _ hres, acceptedBy_play_ok _ hres, i3]
          rcases h.side with hs | hs <;> rw [hs] <;>
            simp only [Black, White] <;> norm_num <;> ring

/-- Counting the occurrences of a value in a list, by index. -/
theorem count_eq_card_indices (l : List Int) (c : Int) :
    l.count c = ((Finset.range l.length).filter (fun i => l.getD i 0 = c)).card := by
  induction l using List.reverseRecOn with
  | nil => simp
  | append_singleton l a ih =>
    rw [List.count_append, ih, List.length_append, List.length_singleton, Finset.range_succ,
      Finset.filter_insert]
    have hf : (Finset.range l.length).filter (fun i => (l ++ [a]).getD i 0 = c) =
        (Finset.range l.length).filter (fun i => l.getD i 0 = c) := by
      apply Finset.filter_congr
      intro i hi
      rw [List.getD_eq_getElem?_getD, List.getD_eq_getElem?_getD,
        List.getElem?_append_left (Finset.mem_range.mp hi)]
    rw [hf]
    have hlast : (l ++ [a]).getD l.length 0 = a := by
      rw [List.getD_eq_getElem?_getD, List.getElem?_append_right (le_refl _)]
      simp
    rw [hlast]
    by_cases hac : a = c
    · rw [if_pos hac, Finset.card_insert_of_not_mem (by simp)]
      simp [hac]
    · rw [if_neg hac]
      have hz : List.count c [a] = 0 :=
        List.count_eq_zero.mpr (fun h => hac (List.mem_singleton.mp h).symm)
      rw [hz]
      rfl

/-- The cell with linear index `i` is the cell in row `i / Cols` and column `i % Cols`. -/
theorem Get_of_index {b : Board} (hc : 0 < b.Cols) {i : Nat} (hi : i < b.cells.length) :
    b.Get ⟨(i : Int) / b.Cols, (i : Int) % b.Cols⟩ = .ok (b.cells.getD i 0) := by
  have hlen := b.sized
  have hI : (i : Int) < b.Rows * b.Cols := by omega
  have hin : b.InBounds ⟨(i : Int) / b.Cols, (i : Int) % b.Cols⟩ :=
    ⟨Int.ediv_nonneg (by omega) (by omega), Int.ediv_lt_of_lt_mul hc hI,
      Int.emod_nonneg _ (by omega), Int.emod_lt_of_pos _ hc⟩
  rw [Board.Get_ok hin]
  have e : (i : Int) / b.Cols * b.Cols + (i : Int) % b.Cols = i := Int.ediv_add_emod' _ _
  simp only [e]
  unfold Board.cellAt
  rw [Int.toNat_ofNat]

/-- The stones of a colour counted over the cells of the board are the occurrences of the
colour in the cell slice. -/
theorem stones_eq_count {b : Board} (hc : 0 < b.Cols) (c : Color) :
    stones b c = b.cells.count c := by
  rw [count_eq_card_indices]
  unfold stones
  symm
  apply Finset.card_bij (fun (i : Nat) _ => (⟨(i : Int) / b.Cols, (i : Int) % b.Cols⟩ : Position))
  · intro i hi
    rw [Finset.mem_filter, Finset.mem_range] at hi
    rw [mem_stoneSet, Get_of_index hc hi.1, hi.2]
  · intro i _ j _ hij
    injection hij with h1 h2
    have ei := Int.ediv_add_emod' (i : Int) b.Cols
    have ej := Int.ediv_add_emod' (j : Int) b.Cols
    rw [h1, h2] at ei
    omega
  · intro p hp
    rw [mem_stoneSet] at hp
    have hin := (Get_ok_iff.mp hp).1
    obtain ⟨h0, hlt⟩ := Board.index_lt hin
    have hidx : (((p.Row * b.Cols + p.Col).toNat : Nat) : Int) = p.Row * b.Cols + p.Col :=
      Int.toNat_of_nonneg h0
    have hrow : (p.Row * b.Cols + p.Col) / b.Cols = p.Row := by
      rw [add_comm, Int.add_mul_ediv_right _ _ (by omega),
        Int.ediv_eq_zero_of_lt hin.2.2.1 hin.2.2.2, zero_add]
    have hcol : (p.Row * b.Cols + p.Col) % b.Cols = p.Col := by
      rw [add_comm, Int.add_mul_emod_self, Int.emod_eq_of_lt hin.2.2.1 hin.2.2.2]
    refine ⟨(p.Row * b.Cols + p.Col).toNat, ?_, ?_⟩
    · rw [Finset.mem_filter, Finset.mem_range]
      refine ⟨hlt, ?_⟩
      rw [Board.Get_ok hin] at hp
      injection hp
    · simp only [hidx, hrow, hcol]

/-- **C22** (stone conservation). In every session reached from a successful `NewGame` by
a sequence of `PlayMove` and `Pass` calls, the number of Black stones on the board plus
White's capture tally is the number of placements by Black that `PlayMove` accepted, the
number of White stones plus Black's capture tally is the number of accepted placements by
White, and the move counter is the number of accepted placements (those of Black and
those of White together) plus the number of passes; the stones of a colour are the
occurrences of that colour in the cell slice of the board. The tallies and the counter are
`int` variables: each holds the `int` value of the count it stands for in these equations,
which is the count itself as long as that count is at most the largest `int`, and every
count is at most the number of calls made. -/
theorem stone_conservation (size : Int) (g0 : Game) (hnew : NewGame size = .ok g0)
    (ops : List Op) :
    (((acceptedBy Black g0 ops : Int) ≤ maxInt →
        (stones (g0.run ops).Board Black : Int) + (g0.run ops).Captures White =
          (acceptedBy Black g0 ops : Int)) ∧
      (((acceptedBy White g0 ops : Int) ≤ maxInt →
        (stones (g0.run ops).Board White : Int) + (g0.run ops).Captures Black =
          (acceptedBy White g0 ops : Int))) ∧
      (((accepted g0 ops : Int) + (passCount ops : Int) ≤ maxInt →
        (g0.run ops).moveNumber = (accepted g0 ops : Int) + (passCount ops : Int))) ∧
      accepted g0 ops = acceptedBy Black g0 ops + acceptedBy White g0 ops ∧
      (∀ c, stones (g0.run ops).Board c = (g0.run ops).Board.cells.count c)) ∧
      ((g0.run ops).Captures White =
          wrapInt ((acceptedBy Black g0 ops : Int) - (stones (g0.run ops).Board Black : Int)) ∧
        (g0.run ops).Captures Black =
          wrapInt ((acceptedBy White g0 ops : Int) - (stones (g0.run ops).Board White : Int)) ∧
        (g0.run ops).moveNumber =
          wrapInt ((accepted g0 ops : Int) + (passCount ops : Int)) ∧
        stones (g0.run ops).Board Black ≤ acceptedBy Black g0 ops ∧
        stones (g0.run ops).Board White ≤ acceptedBy White g0 ops ∧
        acceptedBy Black g0 ops ≤ ops.length ∧ acceptedBy White g0 ops ≤ ops.length ∧
        accepted g0 ops + passCount ops ≤ ops.length) := by
  have hs : Settled (g0.run ops) := Settled.run ops (NewGame_settled hnew)
  obtain ⟨_, _, _, _, _, _, hcap, _, hmn, _⟩ := NewGame_ok hnew
  obtain ⟨i1, i2, i3⟩ := Settled.run_counts ops (NewGame_settled hnew)
    (by
      intro c
      rw [hcap]
      have h0 : minInt ≤ (0 : Int) ∧ (0 : Int) ≤ maxInt := by decide
      exact h0)
    (by rw [hmn]; decide)
  obtain ⟨b1, b2⟩ := i1 Black (Or.inl rfl)
  obtain ⟨w1, w2⟩ := i1 White (Or.inr rfl)
  have eB : other Black = White := by decide
  have eW : other White = Black := by decide
  rw [stones_NewGame hnew (by decide), Nat.zero_add] at b1 w1
  rw [stones_NewGame hnew (by decide), hcap, eB] at b2
  rw [stones_NewGame hnew (by decide), hcap, eW] at w2
  rw [hmn] at i2
  simp only [Int.Nat.cast_ofNat_Int, zero_add] at b2 w2 i2
  have b1z : (stones (g0.run ops).Board Black : Int) ≤ (acceptedBy Black g0 ops : Int) := by
    exact_mod_cast b1
  have w1z : (stones (g0.run ops).Board White : Int) ≤ (acceptedBy White g0 ops : Int) := by
    exact_mod_cast w1
  refine ⟨⟨?_, ?_, ?_, i3,
      fun c => stones_eq_count (by rw [hs.square.2]; exact hs.positive) c⟩,
    b2, w2, i2, b1, w1, acceptedBy_le_length _ _ _, acceptedBy_le_length _ _ _,
    accepted_add_passCount_le _ _⟩
  · intro hfit
    rw [b2, wrapInt_eq (by unfold minInt; omega) (by omega)]
    ring
  · intro hfit
    rw [w2, wrapInt_eq (by unfold minInt; omega) (by omega)]
    ring
  · intro hfit
    rw [i2]
    exact wrapInt_eq (by unfold minInt; omega) hfit

/-! ## The invariants at a concrete session -/

/-- C21 after a capture of three stones: the corner cells are empty again and the
invariant holds. -/
theorem no_dead_stones_witness :
    (NewGame 5 = .ok opening ∧
      (opening.run trapSprung).Board.cells =
        [0, 0, 1, 0, 0,
         0, 1, 0, 0, 0,
         1, 0, 0, 0, 0,
         0, 0, 0, 0, 0,
         0, 0, 0, 0, 1]) ∧
      ((∀ p, (opening.run trapSprung).Board.InBounds p →
          (opening.run trapSprung).Board.Get p = .ok None ∨
            (opening.run trapSprung).Board.Get p = .ok Black ∨
            (opening.run trapSprung).Board.Get p = .ok White) ∧
        (∀ v ∈ (opening.run trapSprung).Board.cells, v = None ∨ v = Black ∨ v = White) ∧
        (∀ p c, c ≠ None → (opening.run trapSprung).Board.Get p = .ok c →
          ∃ e, LibertyOf (opening.run trapSprung).Board c p e) ∧
        (∀ p c, c ≠ None → (opening.run trapSprung).Board.Get p = .ok c →
          ∃ group libs, collectGroup (opening.run trapSprung).Board p = .ok (group, libs) ∧
            libs.Nonempty)) :=
  ⟨⟨opening_eq, by decide⟩, no_dead_stones 5 opening opening_eq trapSprung⟩

/-- C22 on the same calls: four placements by Black and three by White were accepted,
three White stones were captured, one call was a pass and one placement was rejected. -/
theorem stone_conservation_witness :
    (NewGame 5 = .ok opening ∧
      acceptedBy Black opening trapSprung = 4 ∧ acceptedBy White opening trapSprung = 3 ∧
      accepted opening trapSprung = 7 ∧ passCount trapSprung = 1 ∧
      (opening.run trapSprung).Captures Black = 3 ∧
      (opening.run trapSprung).Captures White = 0 ∧
      (opening.run trapSprung).moveNumber = 8 ∧
      (opening.run trapSprung).Board.cells.count Black = 4 ∧
      (opening.run trapSprung).Board.cells.count White = 0) ∧
      ((((acceptedBy Black opening trapSprung : Int) ≤ maxInt →
          (stones (opening.run trapSprung).Board Black : Int) +
              (opening.run trapSprung).Captures White =
            (acceptedBy Black opening trapSprung : Int)) ∧
        ((acceptedBy White opening trapSprung : Int) ≤ maxInt →
          (stones (opening.run trapSprung).Board White : Int) +
              (opening.run trapSprung).Captures Black =
            (acceptedBy White opening trapSprung : Int)) ∧
        ((accepted opening trapSprung : Int) + (passCount trapSprung : Int) ≤ maxInt →
          (opening.run trapSprung).moveNumber =
            (accepted opening trapSprung : Int) + (passCount trapSprung : Int)) ∧
        accepted opening trapSprung =
          acceptedBy Black opening trapSprung + acceptedBy White opening trapSprung ∧
        (∀ c, stones (opening.run trapSprung).Board c =
          (opening.run trapSprung).Board.cells.count c)) ∧
        ((opening.run trapSprung).Captures White =
            wrapInt ((acceptedBy Black opening trapSprung : Int) -
              (stones (opening.run trapSprung).Board Black : Int)) ∧
          (opening.run trapSprung).Captures Black =
            wrapInt ((acceptedBy White opening trapSprung : Int) -
              (stones (opening.run trapSprung).Board White : Int)) ∧
          (opening.run trapSprung).moveNumber =
            wrapInt ((accepted opening trapSprung : Int) + (passCount trapSprung : Int)) ∧
          stones (opening.run trapSprung).Board Black ≤ acceptedBy Black opening trapSprung ∧
          stones (opening.run trapSprung).Board White ≤ acceptedBy White opening trapSprung ∧
          acceptedBy Black opening trapSprung ≤ trapSprung.length ∧
          acceptedBy White opening trapSprung ≤ trapSprung.length ∧
          accepted opening trapSprung + passCount trapSprung ≤ trapSprung.length)) :=
  ⟨⟨opening_eq, by decide, by decide, by decide, by decide, by decide, by decide, by decide,
      by decide, by decide⟩,
    stone_conservation 5 opening opening_eq trapSprung⟩

/-! ## The slice-level board and the board with `Rows * Cols` cells agree -/

end gogame

namespace engine

theorem raw_NewBoard_eq {rows cols : Int} (h : 0 < rows ∧ 0 < cols ∧ rows * cols ≤ maxInt) :
    raw.NewBoard rows cols = .returns (NewBoard rows cols h).toRaw := by
  have hpos : 0 ≤ rows * cols := Int.mul_nonneg (by omega) (by omega)
  have hw : wrapInt (rows * cols) = rows * cols := wrapInt_eq (by unfold minInt; omega) h.2.2
  unfold raw.NewBoard
  rw [if_neg (by omega), if_neg (by omega)]
  rfl

/-- Where the product of the dimensions is not an `int`, `NewBoard` panics or returns a
board whose cell slice is shorter than `Rows * Cols`. -/
theorem raw_NewBoard_short {rows cols : Int} (hr : 0 < rows) (hc : 0 < cols)
    (hbig : maxInt < rows * cols) :
    raw.NewBoard rows cols = .panics ∨
      ∃ b, raw.NewBoard rows cols = .returns b ∧ b.Rows = rows ∧ b.Cols = cols ∧
        (b.cells.length : Int) < rows * cols ∧ (b.cells.length : Int) ≤ maxInt := by
  unfold raw.NewBoard
  rw [if_neg (by omega)]
  by_cases hneg : wrapInt (rows * cols) < 0
  · rw [if_pos hneg]
    exact Or.inl rfl
  · rw [if_neg hneg]
    refine Or.inr ⟨_, rfl, rfl, rfl, ?_, ?_⟩
    · simp only [List.length_replicate]
      have := (wrapInt_range (rows * cols)).2
      omega
    · simp only [List.length_replicate]
      have := (wrapInt_range (rows * cols)).2
      omega

/-- On a board whose cell slice has `Rows * Cols` entries, a number that is an `int`, the
index of a position in range is computed without wrapping. -/
theorem raw_index_exact {b : Board} (hlen : (b.cells.length : Int) ≤ maxInt) {pos : Position}
    (hin : b.InBounds pos) :
    wrapInt (wrapInt (pos.Row * b.Cols) + pos.Col) = pos.Row * b.Cols + pos.Col := by
  obtain ⟨h0, hlt⟩ := Board.index_lt hin
  obtain ⟨h1, _, h3, h4⟩ := hin
  have hmul : 0 ≤ pos.Row * b.Cols := Int.mul_nonneg h1 (by omega)
  have hlt2 : pos.Row * b.Cols + pos.Col < (b.cells.length : Int) := by omega
  have e1 : wrapInt (pos.Row * b.Cols) = pos.Row * b.Cols :=
    wrapInt_eq (by unfold minInt; omega) (by omega)
  rw [e1]
  exact wrapInt_eq (by unfold minInt; omega) (by omega)

theorem raw_index_eq {b : Board} (hlen : (b.cells.length : Int) ≤ maxInt) (pos : Position) :
    b.toRaw.index pos = b.index pos := by
  unfold raw.Board.index Board.index Board.toRaw
  simp only
  split
  · rfl
  · rename_i hne
    have hin : b.InBounds pos := by
      unfold Board.InBounds
      omega
    rw [raw_index_exact hlen hin]

theorem raw_cellAt_eq {b : Board} {pos : Position} (hin : b.InBounds pos) :
    b.toRaw.cellAt (pos.Row * b.Cols + pos.Col) =
      .returns (b.cellAt (pos.Row * b.Cols + pos.Col)) := by
  obtain ⟨h0, hlt⟩ := Board.index_lt hin
  unfold raw.Board.cellAt Board.cellAt Board.toRaw
  simp only
  rw [if_pos ⟨h0, by omega⟩]

/-- `Get` never panics on a board whose cell slice has `Rows * Cols` entries, and returns
what the embedding `Board.Get` returns. -/
theorem raw_Get_eq {b : Board} (hlen : (b.cells.length : Int) ≤ maxInt) (pos : Position) :
    b.toRaw.Get pos = .returns (b.Get pos) := by
  unfold raw.Board.Get
  rw [raw_index_eq hlen]
  by_cases hin : b.InBounds pos
  · rw [Board.index_ok hin, Board.Get_ok hin]
    simp only
    rw [raw_cellAt_eq hin]
  · rw [Board.index_error hin, Board.Get_error hin]

/-- `Set` never panics on such a board, and leaves the receiver and returns the error that
the embedding `Board.SetRun` gives. -/
theorem raw_Set_eq {b : Board} (hlen : (b.cells.length : Int) ≤ maxInt) (pos : Position)
    (v : Int) :
    b.toRaw.Set pos v = .returns ((b.SetRun pos v).1.toRaw, (b.SetRun pos v).2) := by
  unfold raw.Board.Set Board.SetRun
  rw [raw_index_eq hlen]
  by_cases hin : b.InBounds pos
  · rw [Board.index_ok hin]
    simp only
    rw [raw_cellAt_eq hin]
    simp only
    split <;> rfl
  · rw [Board.index_error hin]

/-- `SetAt` never panics on such a board, and leaves the receiver and returns the error
that the embedding `Board.SetAtRun` gives. -/
theorem raw_SetAt_eq {b : Board} (hlen : (b.cells.length : Int) ≤ maxInt) (pos : Position)
    (v : Int) :
    b.toRaw.SetAt pos v = .returns ((b.SetAtRun pos v).1.toRaw, (b.SetAtRun pos v).2) := by
  unfold raw.Board.SetAt Board.SetAtRun
  rw [raw_index_eq hlen]
  by_cases hin : b.InBounds pos
  · obtain ⟨h0, hlt⟩ := Board.index_lt hin
    rw [Board.index_ok hin]
    simp only
    have hc : 0 ≤ pos.Row * b.Cols + pos.Col ∧
        pos.Row * b.Cols + pos.Col < ((b.toRaw.cells.length : Nat) : Int) := by
      refine ⟨h0, ?_⟩
      have : b.toRaw.cells.length = b.cells.length := rfl
      omega
    rw [if_pos hc]
    rfl
  · rw [Board.index_error hin]

theorem foldl_panics {α β : Type} (f : Outcome α → β → Outcome α)
    (hf : ∀ x, f .panics x = .panics) (l : List β) : l.foldl f .panics = .panics := by
  induction l with
  | nil => rfl
  | cons y ys ih => rw [List.foldl_cons, hf, ih]

/-- A loop that panics at one of its iterations, whatever it has done before, panics. -/
theorem foldl_reaches_panic {α β : Type} (f : Outcome α → β → Outcome α)
    (hf : ∀ x, f .panics x = .panics) {l : List β} {x : β} (hx : x ∈ l)
    (hp : ∀ acc, f acc x = .panics) (init : Outcome α) : l.foldl f init = .panics := by
  induction l generalizing init with
  | nil => cases hx
  | cons y ys ih =>
    rw [List.foldl_cons]
    rcases List.mem_cons.mp hx with e | hmem
    · rw [← e, hp, foldl_panics f hf]
    · exact ih hmem _

/-- A loop none of whose iterations panics returns what the loop without panics computes. -/
theorem foldl_returns {α β : Type} (f : Outcome α → β → Outcome α) (g : α → β → α)
    {l : List β} (h : ∀ x ∈ l, ∀ s, f (.returns s) x = .returns (g s x)) (s : α) :
    l.foldl f (.returns s) = .returns (l.foldl g s) := by
  induction l generalizing s with
  | nil => rfl
  | cons y ys ih =>
    rw [List.foldl_cons, List.foldl_cons, h y (List.mem_cons_self _ _)]
    exact ih (fun x hx => h x (List.mem_cons_of_mem _ hx)) _

/-- `ForEach` never panics on a board whose cell slice has `Rows * Cols` entries, and
visits the cells as the embedding `Board.ForEach` does. -/
theorem raw_ForEach_eq {σ : Type} {b : Board} (hlen : (b.cells.length : Int) ≤ maxInt)
    (fn : Position → Int → σ → σ) (s : σ) :
    b.toRaw.ForEach fn s = .returns (b.ForEach fn s) := by
  unfold raw.Board.ForEach Board.ForEach
  apply foldl_returns
  intro r hr s1
  apply foldl_returns
  intro c hc s2
  have hr2 := List.mem_range.mp hr
  have hc2 := List.mem_range.mp hc
  have hR : b.toRaw.Rows = b.Rows := rfl
  have hC : b.toRaw.Cols = b.Cols := rfl
  rw [hR] at hr2
  rw [hC] at hc2
  have hin : b.InBounds ⟨(r : Int), (c : Int)⟩ := by
    unfold Board.InBounds
    simp only
    omega
  have hidx := raw_index_exact hlen hin
  simp only at hidx
  simp only [hC]
  rw [hidx, raw_cellAt_eq hin]

/-- `ForEach` panics on a board with positive dimensions whose cell slice is shorter than
`Rows * Cols`: the read of the first missing cell is out of range. -/
theorem raw_ForEach_short {σ : Type} {b : raw.Board} (hc : 0 < b.Cols)
    (hshort : (b.cells.length : Int) < b.Rows * b.Cols)
    (hlen : (b.cells.length : Int) ≤ maxInt) (fn : Position → Int → σ → σ) (s : σ) :
    b.ForEach fn s = .panics := by
  have hL : (0 : Int) ≤ (b.cells.length : Int) := Int.natCast_nonneg _
  have hq : 0 ≤ (b.cells.length : Int) / b.Cols := Int.ediv_nonneg hL (by omega)
  have hqlt : (b.cells.length : Int) / b.Cols < b.Rows := Int.ediv_lt_of_lt_mul hc hshort
  have hm : 0 ≤ (b.cells.length : Int) % b.Cols := Int.emod_nonneg _ (by omega)
  have hmlt : (b.cells.length : Int) % b.Cols < b.Cols := Int.emod_lt_of_pos _ hc
  have hsum : (b.cells.length : Int) / b.Cols * b.Cols + (b.cells.length : Int) % b.Cols =
      b.cells.length := Int.ediv_add_emod' _ _
  have hmul : 0 ≤ (b.cells.length : Int) / b.Cols * b.Cols := Int.mul_nonneg hq (by omega)
  unfold raw.Board.ForEach
  refine foldl_reaches_panic _ ?_ (x := ((b.cells.length : Int) / b.Cols).toNat) ?_ ?_ _
  · intro r
    exact foldl_panics _ (fun _ => rfl) _
  · rw [List.mem_range]
    omega
  · intro acc
    refine foldl_reaches_panic _ (fun _ => rfl)
      (x := ((b.cells.length : Int) % b.Cols).toNat) ?_ ?_ _
    · rw [List.mem_range]
      omega
    · intro acc2
      cases acc2 with
      | panics => rfl
      | returns s2 =>
        simp only
        rw [Int.toNat_of_nonneg hq, Int.toNat_of_nonneg hm]
        have e1 : wrapInt ((b.cells.length : Int) / b.Cols * b.Cols) =
            (b.cells.length : Int) / b.Cols * b.Cols :=
          wrapInt_eq (by unfold minInt; omega) (by omega)
        rw [e1, hsum, wrapInt_eq (by unfold minInt; omega) hlen]
        unfold raw.Board.cellAt
        rw [if_neg (by omega)]

end engine

namespace gogame

open engine

/-- `serialize` never panics on a board with `Rows * Cols` cells, fewer than the largest
`int`, and returns what the embedding `serialize` returns. -/
theorem raw_serialize_eq {b : Board} (h0 : 0 ≤ b.Rows * b.Cols)
    (hlt : b.Rows * b.Cols < maxInt) (toPlay : Color) :
    raw.serialize b.toRaw toPlay = .returns (serialize b toPlay) := by
  have hlen : (b.cells.length : Int) ≤ maxInt := by
    rw [b.sized, Int.toNat_of_nonneg h0]
    omega
  have hR : b.toRaw.Rows = b.Rows := rfl
  have hC : b.toRaw.Cols = b.Cols := rfl
  unfold raw.serialize serialize
  have e1 : wrapInt (b.Rows * b.Cols) = b.Rows * b.Cols :=
    wrapInt_eq (by unfold minInt; omega) (by omega)
  have e2 : wrapInt (b.Rows * b.Cols + 1) = b.Rows * b.Cols + 1 :=
    wrapInt_eq (by unfold minInt; omega) (by unfold maxInt at *; omega)
  rw [hR, hC, e1, e2, if_neg (by omega)]
  exact raw_ForEach_eq hlen _ _

/-- The largest `int` is not a square. -/
theorem maxInt_not_square (n : Int) : n * n ≠ maxInt := by
  intro h
  unfold maxInt at h
  rcases Int.even_or_odd' n with ⟨k, hk | hk⟩
  · rw [hk] at h
    have e : 2 * k * (2 * k) = 4 * (k * k) := by ring
    rw [e] at h
    omega
  · rw [hk] at h
    have e : (2 * k + 1) * (2 * k + 1) = 4 * (k * k + k) + 1 := by ring
    rw [e] at h
    omega

/-- `NewGame` and the source's statements on the slice-level board: the size guard; for a
size whose square is an `int`, the board and the signature of the returned session; for a
larger size a panic, in `make` or at the first cell that `serialize` reads beyond the
slice. -/
theorem NewGame_raw (size : Int) :
    (size < 5 →
      NewGame size = .error .boardSize ∧ raw.NewGame size = .returns (.error .boardSize)) ∧
      (5 ≤ size → size * size ≤ maxInt →
        ∃ g, NewGame size = .ok g ∧
          raw.NewGame size = .returns (.ok (g.Board.toRaw, g.lastHash))) ∧
      (5 ≤ size → maxInt < size * size →
        NewGame size = .error .panicked ∧ raw.NewGame size = .panics) := by
  refine ⟨?_, ?_, ?_⟩
  · intro h
    unfold NewGame raw.NewGame
    rw [dif_pos h, if_pos h]
    exact ⟨rfl, rfl⟩
  · intro h5 hfit
    have hn : ¬ size < 5 := by omega
    have hlt : size * size < maxInt := lt_of_le_of_ne hfit (maxInt_not_square size)
    have hpos : 0 ≤ size * size := Int.mul_nonneg (by omega) (by omega)
    refine ⟨_, by unfold NewGame; rw [dif_neg hn, dif_pos hfit], ?_⟩
    unfold raw.NewGame
    rw [if_neg hn, raw_NewBoard_eq ⟨by omega, by omega, hfit⟩]
    simp only
    rw [raw_serialize_eq (b := NewBoard size size ⟨by omega, by omega, hfit⟩) hpos hlt]
  · intro h5 hbig
    have hn : ¬ size < 5 := by omega
    refine ⟨by unfold NewGame; rw [dif_neg hn, dif_neg (by omega)], ?_⟩
    unfold raw.NewGame
    rw [if_neg hn]
    rcases raw_NewBoard_short (by omega) (by omega) hbig with hp | ⟨b, hb, hr, hc, hs, hl⟩
    · rw [hp]
    · have hser : raw.serialize b Black = .panics := by
        unfold raw.serialize
        split
        · rfl
        · exact raw_ForEach_short (by rw [hc]; omega) (by rw [hr, hc]; exact hs) hl _ _
      rw [hb]
      simp only
      rw [hser]

/-! ## Construction, bounds and the limits of `int` -/

/-- The capture tally does not grow by the captured count when the sum is not an `int`:
with Black's tally at the largest `int`, Black's accepted capture of one stone leaves the
smallest `int`. -/
theorem capture_tally_wraps :
    (atariBrim.ToPlay ≠ None ∧
        (atariBrim.Board.Rows = atariBrim.Size ∧ atariBrim.Board.Cols = atariBrim.Size) ∧
        (∀ v ∈ atariBrim.Board.cells, v = None ∨ v = Black ∨ v = White) ∧
        (atariBrim.PlayMove ⟨1, 0⟩).2 = .ok ⟨1⟩) ∧
      atariBrim.Captures atariBrim.ToPlay = maxInt ∧
      (atariBrim.PlayMove ⟨1, 0⟩).1.Captures atariBrim.ToPlay = minInt ∧
      ¬ ((atariBrim.PlayMove ⟨1, 0⟩).1.Captures atariBrim.ToPlay =
          atariBrim.Captures atariBrim.ToPlay + (MoveResult.mk 1).Captured) := by
  refine ⟨⟨by decide, by decide, by decide, by decide⟩, by decide, by decide, by decide⟩

/-- The commit does not add one to the move counter, nor the captured count to the tally,
when the sums are not `int`s: from the largest `int` the counter goes to the smallest, and
so does a tally two below the largest `int` after a capture of three. -/
theorem commit_counters_wrap :
    (trapBrim.ToPlay ≠ None ∧ (trapBrim.PlayMove ⟨1, 1⟩).2 = .ok ⟨3⟩) ∧
      (trapBrim.PlayMove ⟨1, 1⟩).1.moveNumber = minInt ∧
      ¬ ((trapBrim.PlayMove ⟨1, 1⟩).1.moveNumber = trapBrim.moveNumber + 1) ∧
      (trapBrim.PlayMove ⟨1, 1⟩).1.Captures trapBrim.ToPlay = minInt ∧
      ¬ ((trapBrim.PlayMove ⟨1, 1⟩).1.Captures trapBrim.ToPlay =
          trapBrim.Captures trapBrim.ToPlay + (MoveResult.mk 3).Captured) := by
  refine ⟨⟨by decide, by decide⟩, by decide, by decide, by decide, by decide⟩

/-- `Pass` does not add one to the counters when they hold the largest `int`: both go to
the smallest. -/
theorem pass_counters_wrap :
    openingBrim.ToPlay ≠ None ∧
      openingBrim.Pass.ConsecutivePasses = minInt ∧
      ¬ (openingBrim.Pass.ConsecutivePasses = openingBrim.ConsecutivePasses + 1) ∧
      openingBrim.Pass.moveNumber = minInt ∧
      ¬ (openingBrim.Pass.moveNumber = openingBrim.moveNumber + 1) := by
  refine ⟨by decide, by decide, by decide, by decide, by decide⟩

/-- `NewGame` does not return a session for every size of at least 5: for the size `2^32`
`NewBoard` returns a board without cells and `serialize` panics on it. -/
theorem NewGame_large_size_panics :
    (5 : Int) ≤ 4294967296 ∧
      raw.NewBoard 4294967296 4294967296 = .returns wrappedBoard ∧
      raw.serialize wrappedBoard Black = .panics ∧
      raw.NewGame 4294967296 = .panics ∧
      ¬ ∃ g, NewGame 4294967296 = .ok g := by
  have hraw := (NewGame_raw 4294967296).2.2 (by decide) (by decide)
  have hb : raw.NewBoard 4294967296 4294967296 = .returns wrappedBoard := by decide
  refine ⟨by decide, hb, ?_, hraw.2, ?_⟩
  · unfold raw.serialize
    split
    · rfl
    · exact raw_ForEach_short (by decide) (by decide) (by decide) _ _
  · rintro ⟨g, hg⟩
    rw [hraw.1] at hg
    cases hg

/-- On the board that `NewBoard` returns for `2^32` rows and columns the coordinate (0,0)
is in range, and `Get`, `Set` and `SetAt` panic there instead of succeeding. -/
theorem bounds_fail_on_wrapped_board :
    raw.NewBoard 4294967296 4294967296 = .returns wrappedBoard ∧
      ¬ ((⟨0, 0⟩ : Position).Row < 0 ∨ (⟨0, 0⟩ : Position).Row ≥ 4294967296 ∨
        (⟨0, 0⟩ : Position).Col < 0 ∨ (⟨0, 0⟩ : Position).Col ≥ 4294967296) ∧
      wrappedBoard.index ⟨0, 0⟩ = .ok 0 ∧
      wrappedBoard.SetAt ⟨0, 0⟩ 1 = .panics ∧
      wrappedBoard.Get ⟨0, 0⟩ = .panics ∧
      wrappedBoard.Set ⟨0, 0⟩ 1 = .panics := by
  refine ⟨by decide, by decide, by decide, by decide, by decide, by decide⟩

/-- **C9** (session construction). `NewGame size` returns the size error exactly when
`size < 5`. For a size of at least 5 whose square is an `int` it returns a session with a
`size × size` board of empty cells, Black to move, both tallies 0, both counters 0 and a
history holding exactly the signature of the empty board with Black to move, and these are
the board and the signature that the source's statements build; it returns a session for
no other size. For a size whose square is not an `int` the call does not return: `make`
panics, or `serialize` panics at the first cell missing from the slice. -/
theorem NewGame_spec (size : Int) :
    (NewGame size = .error .boardSize ↔ size < 5) ∧
      ((∃ g, NewGame size = .ok g) ↔ 5 ≤ size ∧ size * size ≤ maxInt) ∧
      (5 ≤ size → size * size ≤ maxInt →
        ∃ g, NewGame size = .ok g ∧ g.Size = size ∧ g.Board.Rows = size ∧
        g.Board.Cols = size ∧ (∀ p, g.Board.InBounds p → g.Board.Get p = .ok 0) ∧
        g.ToPlay = Black ∧ g.Captures Black = 0 ∧ g.Captures White = 0 ∧
        g.ConsecutivePasses = 0 ∧ g.moveNumber = 0 ∧
        g.history = {serialize g.Board Black} ∧ g.history.card = 1 ∧
        raw.NewGame size = .returns (.ok (g.Board.toRaw, serialize g.Board Black))) ∧
      (5 ≤ size → maxInt < size * size →
        NewGame size = .error .panicked ∧ raw.NewGame size = .panics) := by
  obtain ⟨r1, r2, r3⟩ := NewGame_raw size
  have hok : 5 ≤ size → size * size ≤ maxInt →
      ∃ g, NewGame size = .ok g ∧ g.Size = size ∧ g.Board.Rows = size ∧
      g.Board.Cols = size ∧ (∀ p, g.Board.InBounds p → g.Board.Get p = .ok 0) ∧
      g.ToPlay = Black ∧ g.Captures Black = 0 ∧ g.Captures White = 0 ∧
      g.ConsecutivePasses = 0 ∧ g.moveNumber = 0 ∧
      g.history = {serialize g.Board Black} ∧ g.history.card = 1 ∧
      raw.NewGame size = .returns (.ok (g.Board.toRaw, serialize g.Board Black)) := by
    intro h5 hfit
    obtain ⟨g, hg, hrawg⟩ := r2 h5 hfit
    obtain ⟨_, hr, hc, hcells, hs, ht, hcap, hcp, hmn, hh, hl⟩ := NewGame_ok hg
    refine ⟨g, hg, hs, hr, hc, ?_, ht, by rw [hcap], by rw [hcap], hcp, hmn, hh, ?_, ?_⟩
    · intro p hp
      rw [Get_eq_ok_valOrZero hp]
      have hmem := Get_mem_cells (Get_eq_ok_valOrZero hp)
      rw [hcells] at hmem
      rw [List.eq_of_mem_replicate hmem]
    · rw [hh]
      exact Finset.card_singleton _
    · rw [hrawg, hl]
  refine ⟨⟨?_, fun h => (r1 h).1⟩, ⟨?_, fun h => ?_⟩, hok, r3⟩
  · intro he
    by_contra hn
    by_cases hfit : size * size ≤ maxInt
    · obtain ⟨g, hg, _⟩ := hok (by omega) hfit
      rw [hg] at he
      cases he
    · rw [(r3 (by omega) (by omega)).1] at he
      cases he
  · rintro ⟨g, hg⟩
    exact ⟨(NewGame_ok hg).1, NewGame_fits hg⟩
  · obtain ⟨g, hg, _⟩ := hok h.1 h.2
    exact ⟨g, hg⟩

/-- C9 at sizes 4 and 5. -/
theorem NewGame_spec_witness :
    (NewGame 4 = .error .boardSize ∧ NewGame 5 = .ok opening) ∧
      ((5 : Int) ≤ 5 → (5 : Int) * 5 ≤ maxInt →
        ∃ g, NewGame 5 = .ok g ∧ g.Size = 5 ∧ g.Board.Rows = 5 ∧
        g.Board.Cols = 5 ∧ (∀ p, g.Board.InBounds p → g.Board.Get p = .ok 0) ∧
        g.ToPlay = Black ∧ g.Captures Black = 0 ∧ g.Captures White = 0 ∧
        g.ConsecutivePasses = 0 ∧ g.moveNumber = 0 ∧
        g.history = {serialize g.Board Black} ∧ g.history.card = 1 ∧
        raw.NewGame 5 = .returns (.ok (g.Board.toRaw, serialize g.Board Black))) :=
  ⟨⟨(NewGame_spec 4).1.mpr (by decide), opening_eq⟩, (NewGame_spec 5).2.2.1⟩

/-- **C13** (bounds checking). For positive `rows` and `cols` whose product is an `int`,
`NewBoard rows cols` returns a board of `rows × cols` cells. On every board of these
dimensions with that many cells, `Get`, `Set` and `SetAt` do not panic and return the
out-of-range error exactly when the row is outside `[0, rows)` or the column outside
`[0, cols)`, and then the two writes leave the receiver as it was; `SetAt` at a coordinate
in range succeeds whatever the cell held, after which that cell reads the written value and
every other cell reads as before. -/
theorem Board_bounds_spec (rows cols : Int) (h : 0 < rows ∧ 0 < cols ∧ rows * cols ≤ maxInt)
    (b : Board) (hr : b.Rows = rows) (hc : b.Cols = cols) (pos : Position) (v : Int) :
    (raw.NewBoard rows cols = .returns (NewBoard rows cols h).toRaw ∧
        (NewBoard rows cols h).Rows = rows ∧ (NewBoard rows cols h).Cols = cols ∧
        ((NewBoard rows cols h).cells.length : Int) = rows * cols) ∧
      (b.toRaw.Get pos = .returns (b.Get pos) ∧
        b.toRaw.Set pos v = .returns ((b.SetRun pos v).1.toRaw, (b.SetRun pos v).2) ∧
        b.toRaw.SetAt pos v =
          .returns ((b.SetAtRun pos v).1.toRaw, (b.SetAtRun pos v).2)) ∧
      ((∃ r c, b.Get pos = .error (.indexOutOfBounds r c)) ↔
        (pos.Row < 0 ∨ pos.Row ≥ rows ∨ pos.Col < 0 ∨ pos.Col ≥ cols)) ∧
      ((∃ r c, b.Set pos v = .error (.indexOutOfBounds r c)) ↔
        (pos.Row < 0 ∨ pos.Row ≥ rows ∨ pos.Col < 0 ∨ pos.Col ≥ cols)) ∧
      ((∃ r c, b.SetAt pos v = .error (.indexOutOfBounds r c)) ↔
        (pos.Row < 0 ∨ pos.Row ≥ rows ∨ pos.Col < 0 ∨ pos.Col ≥ cols)) ∧
      ((pos.Row < 0 ∨ pos.Row ≥ rows ∨ pos.Col < 0 ∨ pos.Col ≥ cols) →
        (b.SetRun pos v).1 = b ∧ (b.SetAtRun pos v).1 = b) ∧
      (¬ (pos.Row < 0 ∨ pos.Row ≥ rows ∨ pos.Col < 0 ∨ pos.Col ≥ cols) →
        ∃ b2, b.SetAt pos v = .ok b2 ∧ b.SetAtRun pos v = (b2, none) ∧
          b2.Rows = b.Rows ∧ b2.Cols = b.Cols ∧ b2.Get pos = .ok v ∧
          ∀ q, q ≠ pos → b2.Get q = b.Get q) := by
  have hiff : b.InBounds pos ↔
      ¬ (pos.Row < 0 ∨ pos.Row ≥ rows ∨ pos.Col < 0 ∨ pos.Col ≥ cols) := by
    unfold Board.InBounds
    rw [hr, hc]
    omega
  have hpos : 0 ≤ rows * cols := Int.mul_nonneg (by omega) (by omega)
  have hlen : (b.cells.length : Int) ≤ maxInt := by
    rw [b.sized, hr, hc, Int.toNat_of_nonneg hpos]
    exact h.2.2
  have hnew : ((NewBoard rows cols h).cells.length : Int) = rows * cols := by
    rw [(NewBoard rows cols h).sized]
    exact Int.toNat_of_nonneg hpos
  refine ⟨⟨raw_NewBoard_eq h, rfl, rfl, hnew⟩,
    ⟨raw_Get_eq hlen pos, raw_Set_eq hlen pos v, raw_SetAt_eq hlen pos v⟩, ?_, ?_, ?_, ?_, ?_⟩
  · constructor
    · rintro ⟨r, c, he⟩
      by_contra hin
      rw [Board.Get_ok (hiff.mpr hin)] at he
      cases he
    · intro hout
      exact ⟨_, _, Board.Get_error (fun hin => hiff.mp hin hout)⟩
  · constructor
    · rintro ⟨r, c, he⟩
      by_contra hin
      rcases Set_error_inv he with ⟨_, h2⟩ | ⟨h1, _⟩
      · exact h2 (hiff.mpr hin)
      · cases h1
    · intro hout
      exact ⟨_, _, Set_outside (fun hin => hiff.mp hin hout) v⟩
  · constructor
    · rintro ⟨r, c, he⟩
      by_contra hin
      rw [SetAt_inBounds (hiff.mpr hin)] at he
      cases he
    · intro hout
      exact ⟨_, _, SetAt_outside (fun hin => hiff.mp hin hout) v⟩
  · intro hout
    have hnot : ¬ b.InBounds pos := fun hin => hiff.mp hin hout
    rw [SetRun_outside hnot, SetAtRun_outside hnot]
    exact ⟨rfl, rfl⟩
  · intro hin
    have hb := hiff.mpr hin
    refine ⟨_, SetAt_inBounds hb v, SetAtRun_inside hb v, rfl, rfl, ?_, ?_⟩
    · rw [Get_writeAt hb, if_pos rfl]
    · intro q hq
      rw [Get_writeAt hb, if_neg hq]

/-- C13 on the empty 4 × 4 board: (4,0) is out of range, (3,3) is in range and `SetAt`
writes it. -/
theorem Board_bounds_spec_witness :
    (((0 : Int) < 4 ∧ (0 : Int) < 4 ∧ (4 : Int) * 4 ≤ maxInt) ∧
      fourBoard.Rows = 4 ∧ fourBoard.Cols = 4 ∧
      fourBoard.Get ⟨4, 0⟩ = .error (.indexOutOfBounds 4 0) ∧
      fourBoard.SetAt ⟨3, 3⟩ 1 ≠ .error (.indexOutOfBounds 3 3)) ∧
      ((raw.NewBoard 4 4 = .returns (NewBoard 4 4 (by decide)).toRaw ∧
          (NewBoard 4 4 (by decide)).Rows = 4 ∧ (NewBoard 4 4 (by decide)).Cols = 4 ∧
          ((NewBoard 4 4 (by decide)).cells.length : Int) = 4 * 4) ∧
        (fourBoard.toRaw.Get ⟨3, 3⟩ = .returns (fourBoard.Get ⟨3, 3⟩) ∧
          fourBoard.toRaw.Set ⟨3, 3⟩ 1 =
            .returns ((fourBoard.SetRun ⟨3, 3⟩ 1).1.toRaw, (fourBoard.SetRun ⟨3, 3⟩ 1).2) ∧
          fourBoard.toRaw.SetAt ⟨3, 3⟩ 1 =
            .returns ((fourBoard.SetAtRun ⟨3, 3⟩ 1).1.toRaw,
              (fourBoard.SetAtRun ⟨3, 3⟩ 1).2)) ∧
        ((∃ r c, fourBoard.Get ⟨3, 3⟩ = .error (.indexOutOfBounds r c)) ↔
          ((⟨3, 3⟩ : Position).Row < 0 ∨ (⟨3, 3⟩ : Position).Row ≥ 4 ∨
            (⟨3, 3⟩ : Position).Col < 0 ∨ (⟨3, 3⟩ : Position).Col ≥ 4)) ∧
        ((∃ r c, fourBoard.Set ⟨3, 3⟩ 1 = .error (.indexOutOfBounds r c)) ↔
          ((⟨3, 3⟩ : Position).Row < 0 ∨ (⟨3, 3⟩ : Position).Row ≥ 4 ∨
            (⟨3, 3⟩ : Position).Col < 0 ∨ (⟨3, 3⟩ : Position).Col ≥ 4)) ∧
        ((∃ r c, fourBoard.SetAt ⟨3, 3⟩ 1 = .error (.indexOutOfBounds r c)) ↔
          ((⟨3, 3⟩ : Position).Row < 0 ∨ (⟨3, 3⟩ : Position).Row ≥ 4 ∨
            (⟨3, 3⟩ : Position).Col < 0 ∨ (⟨3, 3⟩ : Position).Col ≥ 4)) ∧
        (((⟨3, 3⟩ : Position).Row < 0 ∨ (⟨3, 3⟩ : Position).Row ≥ 4 ∨
            (⟨3, 3⟩ : Position).Col < 0 ∨ (⟨3, 3⟩ : Position).Col ≥ 4) →
          (fourBoard.SetRun ⟨3, 3⟩ 1).1 = fourBoard ∧
          (fourBoard.SetAtRun ⟨3, 3⟩ 1).1 = fourBoard) ∧
        (¬ ((⟨3, 3⟩ : Position).Row < 0 ∨ (⟨3, 3⟩ : Position).Row ≥ 4 ∨
            (⟨3, 3⟩ : Position).Col < 0 ∨ (⟨3, 3⟩ : Position).Col ≥ 4) →
          ∃ b2, fourBoard.SetAt ⟨3, 3⟩ 1 = .ok b2 ∧
            fourBoard.SetAtRun ⟨3, 3⟩ 1 = (b2, none) ∧
            b2.Rows = fourBoard.Rows ∧ b2.Cols = fourBoard.Cols ∧ b2.Get ⟨3, 3⟩ = .ok 1 ∧
            ∀ q, q ≠ ⟨3, 3⟩ → b2.Get q = fourBoard.Get q)) :=
  ⟨⟨by decide, by decide, by decide, by decide, by decide⟩,
    Board_bounds_spec 4 4 (by decide) fourBoard rfl rfl ⟨3, 3⟩ 1⟩

end gogame
